import Mathlib

/-! Graph searches of `Util/Graph.h`, the parser of `Parse.h`, argument binding of `Commandline.h`

A shallow embedding of `utl::breadth_first_search`, `utl::dijkstra_search` and `utl::a_star`
over the offset-table graph view `utl::Graph`, of class `SequentialParser` and of
`arg_to_data`, followed by the properties proved about them.

Conventions of the embedding:

* `size_t` and `uint32_t` values are natural numbers; the only arithmetic the searches do on
  them is the 32-bit addition of a cost and a weight, which is written with an explicit
  `% 2 ^ 32`.
* `std::vector` tables are lists read with `List.getD` and written with `List.set`.
* `std::queue` is a list (push at the back, pop at the front).
* `std::priority_queue<std::pair<uint32_t, size_t>>` is the list of its pending pairs.  With the
  default comparator `std::less` its `top()` is the largest pending pair in the lexicographic
  order of `std::pair`; since that order is total, `top()` and the pairs left after `pop()` do
  not depend on the internal heap layout.
* Every `while` loop is run with a fuel argument: `none` means the fuel ran out before the
  loop ended.
* `a_star` iterates `g.neighbors(idx)`, a member that `struct Graph` does not declare; it is
  taken from the description of the graph view as the same edge range that the other two
  searches walk.
-/

namespace utl

/-! ## Data -/

/-- The value of `(size_t)-1`, the unvisited mark of a predecessor table. -/
def SIZE_MAX : Nat := 2 ^ 64 - 1

/-- The value of `(uint32_t)-1`, the unvisited mark of a distance table. -/
def UINT32_MAX : Nat := 2 ^ 32 - 1

/-- Record `utl::Edge`. -/
structure Edge where
  dest : Nat
deriving DecidableEq, Repr

/-- Record `utl::WeighedEdge`. -/
structure WeighedEdge where
  dest : Nat
  weight : Nat
deriving DecidableEq, Repr

/-- Edge records accepted by `utl::Graph`: both kinds expose `dest`. -/
class HasDest (E : Type) where
  dest : E → Nat

instance : HasDest Edge := ⟨Edge.dest⟩

instance : HasDest WeighedEdge := ⟨WeighedEdge.dest⟩

/-- View `utl::Graph`: the edge array, the range separators and the node count. -/
structure Graph (E : Type) where
  edges : List E
  idx : List Nat
  size : Nat

variable {E : Type}

/-- The edges walked by the loops `for (i = edges + idx[c]; i != edges + idx[c + 1]; ++i)` of
`breadth_first_search` and `dijkstra_search`: the half-open range `idx[c] .. idx[c + 1]` of
the edge array. -/
def Graph.edge_range (g : Graph E) (c : Nat) : List E :=
  (g.edges.drop (g.idx.getD c 0)).take (g.idx.getD (c + 1) 0 - g.idx.getD c 0)

/-- Modelled from the spec: the member `neighbors(node)` that `a_star` iterates is not declared
by `struct Graph` in `Util/Graph.h`.  The spec gives it as the sequence of edge records of the
node, the half-open slice `offsets[i] .. offsets[i+1]` of `edges`. -/
def Graph.neighbors (g : Graph E) (c : Nat) : List E :=
  (g.edges.drop (g.idx.getD c 0)).take (g.idx.getD (c + 1) 0 - g.idx.getD c 0)

/-! ## Breadth first search -/

/-- The `for` loop of `breadth_first_search` over the edges of the dequeued node `c`;
the state is the pair of the queue `front` and the table `came_from`. -/
def bfs_visit [HasDest E] (c : Nat) : List E → List Nat × List Nat → List Nat × List Nat
  | [], s => s
  | e :: es, (front, came_from) =>
    let next := HasDest.dest e
    if came_from.getD next SIZE_MAX = SIZE_MAX then
      bfs_visit c es (front ++ [next], came_from.set next c)
    else
      bfs_visit c es (front, came_from)

/-- The `while (!front.empty())` loop of `breadth_first_search`. -/
def bfs_loop [HasDest E] (g : Graph E) (early_exit : Nat → Bool) :
    Nat → List Nat → List Nat → Option (List Nat)
  | 0, _, _ => none
  | _ + 1, [], came_from => some came_from
  | fuel + 1, c :: front, came_from =>
    if early_exit c then some came_from
    else
      let s := bfs_visit c (g.edge_range c) (front, came_from)
      bfs_loop g early_exit fuel s.1 s.2

/-- Function `breadth_first_search(g, start_node, early_exit)`. -/
def breadth_first_search [HasDest E] (fuel : Nat) (g : Graph E) (start_node : Nat)
    (early_exit : Nat → Bool) : Option (List Nat) :=
  bfs_loop g early_exit fuel [start_node] ((List.replicate g.size SIZE_MAX).set start_node start_node)

/-- Overload `breadth_first_search(g, start_node)`: the predicate is constantly false. -/
def breadth_first_search_all [HasDest E] (fuel : Nat) (g : Graph E) (start_node : Nat) :
    Option (List Nat) :=
  breadth_first_search fuel g start_node (fun _ => false)

/-! ## The priority frontier -/

/-- Comparison `operator<` of `std::pair<uint32_t, size_t>`. -/
def pair_lt (a b : Nat × Nat) : Bool :=
  decide (a.1 < b.1) || (a.1 == b.1 && decide (a.2 < b.2))

/-- Member `top()` of `std::priority_queue<std::pair<uint32_t, size_t>>` with its default
comparator `std::less`: the largest pending pair. -/
def pq_top : List (Nat × Nat) → Option (Nat × Nat)
  | [] => none
  | x :: xs => some (xs.foldl (fun m y => if pair_lt m y then y else m) x)

/-- Member `pop()`: one copy of the top pair leaves the frontier. -/
def pq_pop (front : List (Nat × Nat)) : List (Nat × Nat) :=
  match pq_top front with
  | none => front
  | some t => front.erase t

/-! ## Dijkstra search -/

/-- The local variables of the weighted searches: the frontier `front` and the two tables
`route.first` (predecessors) and `route.second` (total weights). -/
structure SearchState where
  front : List (Nat × Nat)
  first : List Nat
  second : List Nat
deriving DecidableEq, Repr

/-- The value `route` returned by the weighted searches. -/
def SearchState.route (s : SearchState) : List Nat × List Nat := (s.first, s.second)

/-- The state of the weighted searches before their loop. -/
def search_init (size start_node : Nat) : SearchState where
  front := [(0, start_node)]
  first := (List.replicate size SIZE_MAX).set start_node start_node
  second := (List.replicate size UINT32_MAX).set start_node 0

/-- The `for` loop of `dijkstra_search` over the edges of the popped node `idx`. -/
def dijkstra_relax (idx : Nat) : List WeighedEdge → SearchState → SearchState
  | [], s => s
  | e :: es, s =>
    let next := e.dest
    let cost := (s.second.getD idx UINT32_MAX + e.weight) % 2 ^ 32
    if s.second.getD next UINT32_MAX = UINT32_MAX ∨ cost < s.second.getD next UINT32_MAX then
      dijkstra_relax idx es
        { front := s.front ++ [(cost, next)]
          first := s.first.set next idx
          second := s.second.set next cost }
    else
      dijkstra_relax idx es s

/-- One pass of the `while (!front.empty())` loop of `dijkstra_search`: either the route that
is returned (empty frontier or early exit) or the state at the next loop test. -/
def dijkstra_step (g : Graph WeighedEdge) (early_exit : Nat → Nat → Bool) (s : SearchState) :
    SearchState ⊕ (List Nat × List Nat) :=
  match pq_top s.front with
  | none => Sum.inr s.route
  | some (w, idx) =>
    if early_exit idx w then Sum.inr s.route
    else Sum.inl (dijkstra_relax idx (g.edge_range idx) { s with front := pq_pop s.front })

/-- The `while` loop of `dijkstra_search`. -/
def dijkstra_loop (g : Graph WeighedEdge) (early_exit : Nat → Nat → Bool) :
    Nat → SearchState → Option (List Nat × List Nat)
  | 0, _ => none
  | fuel + 1, s =>
    match dijkstra_step g early_exit s with
    | Sum.inr r => some r
    | Sum.inl s' => dijkstra_loop g early_exit fuel s'

/-- Function `dijkstra_search(g, start_node, early_exit)`. -/
def dijkstra_search (fuel : Nat) (g : Graph WeighedEdge) (start_node : Nat)
    (early_exit : Nat → Nat → Bool) : Option (List Nat × List Nat) :=
  dijkstra_loop g early_exit fuel (search_init g.size start_node)

/-- Overload `dijkstra_search(g, start)`: the predicate is constantly false. -/
def dijkstra_search_all (fuel : Nat) (g : Graph WeighedEdge) (start : Nat) :
    Option (List Nat × List Nat) :=
  dijkstra_search fuel g start (fun _ _ => false)

/-- The state of `dijkstra_search` at its loop test after `n` completed passes, or `none` when
the loop has ended before. -/
def dijkstra_trace (g : Graph WeighedEdge) (early_exit : Nat → Nat → Bool) :
    Nat → SearchState → Option SearchState
  | 0, s => some s
  | n + 1, s =>
    match dijkstra_step g early_exit s with
    | Sum.inr _ => none
    | Sum.inl s' => dijkstra_trace g early_exit n s'

/-! ## A* search -/

/-- The `for` loop of `a_star` over `g.neighbors(idx)`.  The visited test reads the
predecessor table, and the pushed priority is `cost + heuristic(next)` stored in a
`uint32_t`. -/
def a_star_relax (heuristic : Nat → Nat) (idx : Nat) : List WeighedEdge → SearchState → SearchState
  | [], s => s
  | e :: es, s =>
    let next := e.dest
    let cost := (s.second.getD idx UINT32_MAX + e.weight) % 2 ^ 32
    if s.first.getD next SIZE_MAX = SIZE_MAX ∨ cost < s.second.getD next UINT32_MAX then
      a_star_relax heuristic idx es
        { front := s.front ++ [((cost + heuristic next) % 2 ^ 32, next)]
          first := s.first.set next idx
          second := s.second.set next cost }
    else
      a_star_relax heuristic idx es s

/-- One pass of the `while` loop of `a_star`. -/
def a_star_step (g : Graph WeighedEdge) (early_exit : Nat → Nat → Bool) (heuristic : Nat → Nat)
    (s : SearchState) : SearchState ⊕ (List Nat × List Nat) :=
  match pq_top s.front with
  | none => Sum.inr s.route
  | some (w, idx) =>
    if early_exit idx w then Sum.inr s.route
    else Sum.inl (a_star_relax heuristic idx (g.neighbors idx) { s with front := pq_pop s.front })

/-- The `while` loop of `a_star`. -/
def a_star_loop (g : Graph WeighedEdge) (early_exit : Nat → Nat → Bool) (heuristic : Nat → Nat) :
    Nat → SearchState → Option (List Nat × List Nat)
  | 0, _ => none
  | fuel + 1, s =>
    match a_star_step g early_exit heuristic s with
    | Sum.inr r => some r
    | Sum.inl s' => a_star_loop g early_exit heuristic fuel s'

/-- Function `a_star(g, start_node, early_exit, heuristic)`. -/
def a_star (fuel : Nat) (g : Graph WeighedEdge) (start_node : Nat)
    (early_exit : Nat → Nat → Bool) (heuristic : Nat → Nat) : Option (List Nat × List Nat) :=
  a_star_loop g early_exit heuristic fuel (search_init g.size start_node)

/-- Overload `a_star(g, start, goal, heuristic)`: the search exits when `goal` is popped. -/
def a_star_goal (fuel : Nat) (g : Graph WeighedEdge) (start goal : Nat)
    (heuristic : Nat → Nat) : Option (List Nat × List Nat) :=
  a_star fuel g start (fun c _ => decide (c = goal)) heuristic

/-- The state of `a_star` at its loop test after `n` completed passes, or `none` when the loop
has ended before. -/
def a_star_trace (g : Graph WeighedEdge) (early_exit : Nat → Nat → Bool) (heuristic : Nat → Nat) :
    Nat → SearchState → Option SearchState
  | 0, s => some s
  | n + 1, s =>
    match a_star_step g early_exit heuristic s with
    | Sum.inr _ => none
    | Sum.inl s' => a_star_trace g early_exit heuristic n s'

/-! ## The graphs of `tests/Graph.cpp` -/

/-- Graph `g1` of the tests. -/
def g1 : Graph Edge where
  edges := [⟨1⟩, ⟨2⟩, ⟨1⟩, ⟨3⟩, ⟨5⟩, ⟨2⟩, ⟨4⟩, ⟨5⟩]
  idx := [0, 1, 2, 5, 7, 8, 8]
  size := 6

/-- Graph `g2` of the tests. -/
def g2 : Graph WeighedEdge where
  edges := [⟨1, 4⟩, ⟨7, 8⟩, ⟨7, 11⟩, ⟨2, 8⟩, ⟨8, 2⟩, ⟨5, 4⟩, ⟨3, 7⟩,
            ⟨4, 9⟩, ⟨5, 14⟩, ⟨5, 10⟩, ⟨6, 2⟩, ⟨8, 6⟩, ⟨7, 1⟩, ⟨8, 7⟩]
  idx := [0, 2, 4, 7, 9, 10, 11, 13, 14, 14]
  size := 9

/-! ## Specification vocabulary -/

/-- The invariant of a graph view: the offset table has `size + 1` entries, is non-decreasing
and ends at the number of edges, every destination is a node, and `size` is a `size_t`. -/
structure WellFormed [HasDest E] (g : Graph E) : Prop where
  idx_length : g.idx.length = g.size + 1
  idx_mono : ∀ i, i < g.size → g.idx.getD i 0 ≤ g.idx.getD (i + 1) 0
  idx_last : g.idx.getD g.size 0 = g.edges.length
  dest_lt : ∀ e ∈ g.edges, HasDest.dest e < g.size
  size_lt : g.size < 2 ^ 64

/-- The graph has an edge from `u` to `v`: a record with destination `v` among the edge
records of `u`. -/
def IsEdge [HasDest E] (g : Graph E) (u v : Nat) : Prop :=
  ∃ e ∈ g.neighbors u, HasDest.dest e = v

/-- There is a path of `n` edges from `s` to the node. -/
inductive Walk [HasDest E] (g : Graph E) (s : Nat) : Nat → Nat → Prop
  | refl : Walk g s s 0
  | step {u v n : Nat} : Walk g s u n → IsEdge g u v → Walk g s v (n + 1)

/-- The node can be reached from `s` along edges of the graph. -/
def Reachable [HasDest E] (g : Graph E) (s v : Nat) : Prop :=
  ∃ n, Walk g s v n

/-- The entry of `v` in a predecessor table is not the unvisited mark. -/
def Visited (came_from : List Nat) (v : Nat) : Prop :=
  v < came_from.length ∧ came_from.getD v SIZE_MAX ≠ SIZE_MAX

/-- One step backward along a predecessor table. -/
def pred_of (came_from : List Nat) (v : Nat) : Nat :=
  came_from.getD v SIZE_MAX

/-- Loop invariant of `breadth_first_search` at the loop test; `lev` is the number of links
of each visited node's predecessor chain. -/
structure BfsInv [HasDest E] (g : Graph E) (start : Nat) (lev : Nat → Nat)
    (front came_from : List Nat) : Prop where
  len : came_from.length = g.size
  start_lt : start < g.size
  cf_start : pred_of came_from start = start
  lev_start : lev start = 0
  pred : ∀ v, Visited came_from v → v ≠ start →
    Visited came_from (pred_of came_from v) ∧ IsEdge g (pred_of came_from v) v ∧
      lev v = lev (pred_of came_from v) + 1
  front_vis : ∀ x ∈ front, Visited came_from x
  sorted : front.Pairwise (fun a b => lev a ≤ lev b)
  near : ∀ x ∈ front, ∀ v, Visited came_from v → lev v ≤ lev x + 1
  done : ∀ u, Visited came_from u → u ∉ front →
    ∀ e ∈ g.neighbors u, Visited came_from (HasDest.dest e) ∧ lev (HasDest.dest e) ≤ lev u + 1
  low : ∀ u, Visited came_from u → u ∉ front → ∀ x ∈ front, lev u ≤ lev x

/-- Invariant of the `for` loop of `breadth_first_search` while the edges of the dequeued
node `c` are visited; `ds` are the edges of `c` handled so far. -/
structure BfsMid [HasDest E] (g : Graph E) (start : Nat) (lev : Nat → Nat) (c : Nat)
    (front came_from : List Nat) (ds : List E) : Prop where
  len : came_from.length = g.size
  start_lt : start < g.size
  cf_start : pred_of came_from start = start
  lev_start : lev start = 0
  pred : ∀ v, Visited came_from v → v ≠ start →
    Visited came_from (pred_of came_from v) ∧ IsEdge g (pred_of came_from v) v ∧
      lev v = lev (pred_of came_from v) + 1
  front_vis : ∀ x ∈ front, Visited came_from x
  c_vis : Visited came_from c
  sorted : front.Pairwise (fun a b => lev a ≤ lev b)
  range : ∀ x ∈ front, lev c ≤ lev x ∧ lev x ≤ lev c + 1
  all_near : ∀ v, Visited came_from v → lev v ≤ lev c + 1
  done : ∀ u, Visited came_from u → u ∉ front → u ≠ c →
    ∀ e ∈ g.neighbors u, Visited came_from (HasDest.dest e) ∧ lev (HasDest.dest e) ≤ lev u + 1
  low : ∀ u, Visited came_from u → u ∉ front → lev u ≤ lev c
  seen : ∀ e ∈ ds, Visited came_from (HasDest.dest e)

/-! ## Vocabulary of the weighted searches -/

/-- There is a path from `s` to the node whose edge weights add up to the given total. -/
inductive WWalk (g : Graph WeighedEdge) (s : Nat) : Nat → Nat → Prop
  | refl : WWalk g s s 0
  | step {u W : Nat} (e : WeighedEdge) :
      WWalk g s u W → e ∈ g.neighbors u → WWalk g s e.dest (W + e.weight)

/-- A path from `s` that repeats no node: the nodes it passes, last one first, and the total
of its edge weights. -/
inductive SPath (g : Graph WeighedEdge) (s : Nat) : List Nat → Nat → Prop
  | single : SPath g s [s] 0
  | snoc {u W : Nat} {vs : List Nat} (e : WeighedEdge) :
      SPath g s (u :: vs) W → e ∈ g.neighbors u → e.dest ∉ u :: vs →
      SPath g s (e.dest :: u :: vs) (W + e.weight)

/-- Every path from `start`, of any length, has a total weight below `bound`. -/
def PathsBelow (g : Graph WeighedEdge) (start bound : Nat) : Prop :=
  ∀ v W, WWalk g start v W → W < bound

/-- Every cost a search can compute stays below `bound`: the total of a path from `start`
without repeated node, plus the weight of one more edge leaving its last node. -/
def CostsBelow (g : Graph WeighedEdge) (start bound : Nat) : Prop :=
  ∀ u vs W, SPath g start (u :: vs) W → ∀ e ∈ g.neighbors u, W + e.weight < bound

/-- The `distance` entry of `v` is the least total weight of a path from `start` to `v`. -/
def IsMinCost (g : Graph WeighedEdge) (start v d : Nat) : Prop :=
  WWalk g start v d ∧ ∀ W, WWalk g start v W → d ≤ W

/-- The heuristic never exceeds the total weight of a path to the goal. -/
def Admissible (g : Graph WeighedEdge) (goal : Nat) (heuristic : Nat → Nat) : Prop :=
  ∀ v W, WWalk g v goal W → heuristic v ≤ W

/-- The heuristic is zero at the goal and drops by at most the weight of an edge along it. -/
def Consistent (g : Graph WeighedEdge) (goal : Nat) (heuristic : Nat → Nat) : Prop :=
  heuristic goal = 0 ∧ ∀ u, ∀ e ∈ g.neighbors u, heuristic u ≤ e.weight + heuristic e.dest

/-- A path without repeated node whose nodes are all visited, each with a `distance` entry
no larger than the weight of the path up to it. -/
inductive Covered (g : Graph WeighedEdge) (s : Nat) (first second : List Nat) :
    List Nat → Nat → Prop
  | single : Covered g s first second [s] 0
  | snoc {u W : Nat} {vs : List Nat} (e : WeighedEdge) :
      Covered g s first second (u :: vs) W → e ∈ g.neighbors u → e.dest ∉ u :: vs →
      Visited first e.dest → second.getD e.dest UINT32_MAX ≤ W + e.weight →
      Covered g s first second (e.dest :: u :: vs) (W + e.weight)

/-- All edges leaving `u` have been relaxed with the current `distance` entry of `u`. -/
def Relaxed (g : Graph WeighedEdge) (s : SearchState) (u : Nat) : Prop :=
  ∀ e ∈ g.neighbors u, Visited s.first e.dest ∧
    s.second.getD e.dest UINT32_MAX ≤ s.second.getD u UINT32_MAX + e.weight

/-- Loop invariant of `dijkstra_search`; `pend` holds the node whose edges are being
relaxed, if any. -/
structure DijInv (g : Graph WeighedEdge) (start : Nat) (pend : List Nat) (s : SearchState) :
    Prop where
  len_first : s.first.length = g.size
  len_second : s.second.length = g.size
  start_lt : start < g.size
  first_start : s.first.getD start SIZE_MAX = start
  second_start : s.second.getD start UINT32_MAX = 0
  unvis : ∀ v, v < g.size → ¬ Visited s.first v → s.second.getD v UINT32_MAX = UINT32_MAX
  front_vis : ∀ p ∈ s.front, Visited s.first p.2
  path : ∀ v, Visited s.first v →
    ∃ vs, Covered g start s.first s.second (v :: vs) (s.second.getD v UINT32_MAX)
  pred : ∀ v, Visited s.first v → v ≠ start →
    Visited s.first (pred_of s.first v) ∧
      ∃ e ∈ g.neighbors (pred_of s.first v), e.dest = v ∧
        s.second.getD (pred_of s.first v) UINT32_MAX + e.weight ≤ s.second.getD v UINT32_MAX
  relaxed : ∀ u, Visited s.first u → u ∈ pend ∨ (∃ p ∈ s.front, p.2 = u) ∨ Relaxed g s u

/-- The tables of `t` refine those of `s`: visited nodes stay visited and no `distance`
entry grows. -/
def Refines (s t : SearchState) : Prop :=
  (∀ v, Visited s.first v → Visited t.first v) ∧
    ∀ v, t.second.getD v UINT32_MAX ≤ s.second.getD v UINT32_MAX

/-- The quantity that decreases with every pass of the loop of `dijkstra_search`. -/
def search_measure (s : SearchState) : Nat :=
  s.second.sum + s.front.length

/-- A two-node graph whose only path weights are `0` and `2 ^ 32 - 1`: the edge `0 → 1` of
weight `4294967295` and the loop `1 → 1` of weight `0`. -/
def gloop : Graph WeighedEdge where
  edges := [⟨1, 4294967295⟩, ⟨1, 0⟩]
  idx := [0, 1, 2]
  size := 2

/-- The state in which `dijkstra_search` on `gloop` from node `0` stays from its second pass
on. -/
def gloop_state : SearchState where
  front := [(4294967295, 1)]
  first := [0, 1]
  second := [0, 4294967295]

/-- What holds of every state of the weighted searches, whatever the weights and the
predicates: the entries of `start` are never rewritten, and only nodes reachable from `start`
enter the frontier or get their entries written. -/
structure BaseInv (g : Graph WeighedEdge) (start : Nat) (s : SearchState) : Prop where
  len_first : s.first.length = g.size
  len_second : s.second.length = g.size
  start_lt : start < g.size
  first_start : s.first.getD start SIZE_MAX = start
  second_start : s.second.getD start UINT32_MAX = 0
  front_reach : ∀ p ∈ s.front, Reachable g start p.2
  unreached : ∀ v, ¬ Reachable g start v →
    s.first.getD v SIZE_MAX = SIZE_MAX ∧ s.second.getD v UINT32_MAX = UINT32_MAX

/-! ## Path reconstruction -/

/-- Modelled from the spec: the backward walk of the path-reconstruction helper, which is not
in the source.  From `v` it follows `predecessor` until it reaches `start`, the node that is
its own predecessor, and lists the nodes met, `v` first; `none` when the fuel runs out. -/
def walk_back (predecessor : List Nat) (start : Nat) : Nat → Nat → Option (List Nat)
  | 0, _ => none
  | fuel + 1, v =>
    if v = start then some [start]
    else (walk_back predecessor start fuel (predecessor.getD v SIZE_MAX)).map (fun p => v :: p)

/-- Modelled from the spec: the helper `reconstructPath(predecessor, start, target)`, which is
not in the source: walk backward from `target` via `predecessor` until `start`, then
reverse; when `target` holds the unvisited mark the result is the empty sequence. -/
def reconstruct_path (predecessor : List Nat) (start target fuel : Nat) : Option (List Nat) :=
  if predecessor.getD target SIZE_MAX = SIZE_MAX then some []
  else (walk_back predecessor start fuel target).map List.reverse

/-- A three-node graph with two paths of weight `2 ^ 32 - 1` to node `1`: the edges `0 → 1`
and `0 → 2` of weight `4294967295` and the edge `2 → 1` of weight `0`. -/
def gmark : Graph WeighedEdge where
  edges := [⟨1, 4294967295⟩, ⟨2, 4294967295⟩, ⟨1, 0⟩]
  idx := [0, 2, 2, 3]
  size := 3

/-! ## String scanning of `Parse.h`

`char` values are characters and a `std::string_view` is the list of its characters.
`size_t` values are natural numbers below `2 ^ 64`, `ptrdiff_t` values are integers; the
conversions between the two and the unsigned arithmetic are written out.  Every `assert` of
the source is checked unless `ndebug` is set, as the macro `NDEBUG` decides in a build. -/

/-- What ends a call other than a normal return. -/
inductive Failure where
  /-- An `assert` of the source fails (asserts compiled in). -/
  | assertion (text : String)
  /-- The call does what the language leaves undefined, such as reading outside a view. -/
  | undefined (text : String)
  /-- A `std::out_of_range` is thrown. -/
  | out_of_range (what : String)
  /-- A `std::logic_error` is thrown. -/
  | logic_error (what : String)
  /-- A `std::runtime_error` is thrown. -/
  | runtime_error (what : String)
  /-- The fuel of a loop of the embedding ran out. -/
  | fuel
deriving DecidableEq, Repr

/-- Macro `assert(cond)`: a no-op when `NDEBUG` is defined. -/
def c_assert (ndebug cond : Bool) (text : String) : Except Failure Unit :=
  if ndebug || cond then Except.ok () else Except.error (Failure.assertion text)

/-- Conversion of a `size_t` value to `ptrdiff_t`. -/
def to_ptrdiff (n : Nat) : Int :=
  if n % 2 ^ 64 < 2 ^ 63 then ((n % 2 ^ 64 : Nat) : Int) else ((n % 2 ^ 64 : Nat) : Int) - 2 ^ 64

/-- Conversion of a `ptrdiff_t` value to `size_t`. -/
def to_size (d : Int) : Nat :=
  Int.toNat (d % 2 ^ 64)

/-- Member `std::string_view::find(ch, pos)`: the first index at or after `pos` that holds
`ch`; `none` stands for `npos`. -/
def sv_find (data : List Char) (ch : Char) (pos : Nat) : Option Nat :=
  if (data.drop pos).indexOf ch < (data.drop pos).length then
    some (pos + (data.drop pos).indexOf ch)
  else none

/-- Member `std::string_view::substr(pos, count)`; the exception for `pos > size()` leaves a
`noexcept` function, which ends the program. -/
def sv_substr (data : List Char) (pos count : Nat) : Except Failure (List Char) :=
  if pos > data.length then Except.error (Failure.undefined "substr: pos > size()")
  else Except.ok ((data.drop pos).take count)

/-- Call `std::equal(&data[first], &data[last], str.data())`: the characters of `data` at
`first .. last` are compared with the characters of `str` from its start.  An inverted range
and a read outside either view are undefined. -/
def std_equal (data : List Char) (first last : Nat) (str : List Char) : Except Failure Bool :=
  if last < first then Except.error (Failure.undefined "equal: last before first")
  else if data.length < last ∨ str.length < last - first then
    Except.error (Failure.undefined "equal: read outside the view")
  else Except.ok (decide ((data.drop first).take (last - first) = str.take (last - first)))

/-- Class `SequentialParser`: the string `m_data` and the position `m_loc`. -/
structure SequentialParser where
  m_data : List Char
  m_loc : Nat
deriving DecidableEq, Repr

namespace SequentialParser

/-- Constructor `SequentialParser(dat)`: `reset()` and then `m_data = dat`. -/
def new (dat : List Char) : SequentialParser := { m_data := dat, m_loc := 0 }

/-- Member `current_loc()`. -/
def current_loc (p : SequentialParser) : Nat := p.m_loc

/-- Member `total_size()`. -/
def total_size (p : SequentialParser) : Nat := p.m_data.length

/-- Member `_displace_(diff)`; the sum `m_loc + diff` is taken in `size_t`. -/
def _displace_ (ndebug : Bool) (p : SequentialParser) (diff : Int) : Except Failure Nat := do
  c_assert ndebug (decide ((diff < 0 ∧ to_size (-diff) ≤ p.m_loc) ∨ diff ≥ 0))
    "(diff < 0 && -diff <= m_loc) || diff >= 0"
  let res := (p.m_loc + to_size diff) % 2 ^ 64
  c_assert ndebug (decide (res ≤ p.total_size)) "res <= total_size()"
  pure res

/-- Member `mov(dis)`. -/
def mov (ndebug : Bool) (p : SequentialParser) (dis : Int) : Except Failure SequentialParser := do
  let res ← p._displace_ ndebug dis
  pure { p with m_loc := res }

/-- Member `skip_for(num)`. -/
def skip_for (ndebug : Bool) (p : SequentialParser) (num : Nat) :
    Except Failure SequentialParser :=
  p.mov ndebug (to_ptrdiff num)

/-- Member `seek(pos)`. -/
def seek (ndebug : Bool) (p : SequentialParser) (pos : Nat) : Except Failure SequentialParser := do
  c_assert ndebug (decide (pos ≤ p.total_size)) "pos <= total_size()"
  pure { p with m_loc := pos }

/-- Member `at_end()`. -/
def at_end (p : SequentialParser) : Bool := p.current_loc == p.total_size

/-- Member `current()`: `m_data[current_loc()]`; reading at or past the size of the view is
undefined. -/
def current (p : SequentialParser) : Except Failure Char :=
  match p.m_data[p.current_loc]? with
  | some c => Except.ok c
  | none => Except.error (Failure.undefined "operator[]: pos >= size()")

/-- Member `get()`: the current character, and the parser moved one up. -/
def get (ndebug : Bool) (p : SequentialParser) : Except Failure (Char × SequentialParser) := do
  let c ← p.current
  let res ← p._displace_ ndebug 1
  pure (c, { p with m_loc := res })

/-- Member `rest()`: `m_data.substr(m_loc)`. -/
def rest (p : SequentialParser) : Except Failure (List Char) :=
  sv_substr p.m_data p.m_loc (p.m_data.length - p.m_loc)

/-- The condition inside the `assert` of `remaining()`. -/
def remaining_assertion (p : SequentialParser) : Bool :=
  decide (p.current_loc > p.total_size)

/-- Member `remaining()`: `total_size() - current_loc()` taken in `size_t` and returned as a
`ptrdiff_t`. -/
def remaining (ndebug : Bool) (p : SequentialParser) : Except Failure Int := do
  c_assert ndebug p.remaining_assertion "current_loc() > total_size()"
  pure (to_ptrdiff ((p.total_size + 2 ^ 64 - p.current_loc) % 2 ^ 64))

/-- Member `get_until(ptrdiff_t count)`. -/
def get_until_count (ndebug : Bool) (p : SequentialParser) (count : Int) :
    Except Failure (List Char × SequentialParser) := do
  let npos ← p._displace_ ndebug count
  let sub_data ← sv_substr p.m_data p.m_loc (to_size count)
  let q ← p.seek ndebug npos
  pure (sub_data, q)

/-- Member `get_until(char delim)`; `none` is the null object. -/
def get_until (ndebug : Bool) (p : SequentialParser) (delim : Char) :
    Except Failure (Option (List Char) × SequentialParser) :=
  match sv_find p.m_data delim p.current_loc with
  | some loc => do
    let r ← p.get_until_count ndebug (to_ptrdiff ((loc + 2 ^ 64 - p.m_loc) % 2 ^ 64))
    pure (some r.1, r.2)
  | none => pure (none, p)

/-- Member `dump()`. -/
def dump (ndebug : Bool) (p : SequentialParser) :
    Except Failure (List Char × SequentialParser) := do
  let r ← p.remaining ndebug
  p.get_until_count ndebug r

/-- Member `is_same(str)`; the comparison `remaining() < total_size()` is taken in
`size_t`. -/
def is_same (ndebug : Bool) (p : SequentialParser) (str : List Char) :
    Except Failure (Bool × SequentialParser) := do
  let r ← p.remaining ndebug
  if to_size r < p.total_size then pure (false, p)
  else do
    let last ← p._displace_ ndebug (to_ptrdiff ((str.length + 2 ^ 64 - 1) % 2 ^ 64))
    let res ← std_equal p.m_data p.current_loc last str
    if res then do
      let q ← p.skip_for ndebug str.length
      pure (true, q)
    else pure (false, p)

end SequentialParser

deriving instance DecidableEq for Except

/-! ## Argument binding of `Commandline.h`

A pointer field of `Arguments` is modelled by the value of the object it points to; each
pointer is taken to designate an object of its own.  The sizes `required_n`, `optional_n`,
`short_optional_n` and `flag_n` are the lengths of the value lists, and a name array has the
length of its value array. -/

/-- Struct `Arguments`. -/
structure Arguments where
  optional_names : List (List Char)
  optional_short_names : List Char
  flag_names : List Char
  required_values : List (List Char)
  optional_values : List (List Char)
  optional_short_values : List (List Char)
  flag_values : List Nat
deriving DecidableEq, Repr

/-- The sizes of the arrays of an `Arguments` value agree as its template parameters say. -/
structure Arguments.Sized (k : Arguments) : Prop where
  optional : k.optional_values.length = k.optional_names.length
  short : k.optional_short_values.length = k.optional_short_names.length
  flag : k.flag_values.length = k.flag_names.length
  flag_lt : ∀ x ∈ k.flag_values, x < 2 ^ 32

/-- The variables of the `for` loop of `arg_to_data`: the index `i` into the arguments after
the executable, the index `req_i` into `required_values`, and the objects behind `k`. -/
structure ArgState where
  i : Nat
  req_i : Nat
  k : Arguments
deriving DecidableEq, Repr

/-- Lambda `inbound(i, str)` of `arg_to_data`: the next index, or `std::out_of_range` when
there is no next argument. -/
def inbound (argc i : Nat) (str : String) : Except Failure Nat :=
  if i + 1 = argc then Except.error (Failure.out_of_range str) else Except.ok (i + 1)

/-- The `while (!p.at_end())` loop of `arg_to_data` over the characters of one argument. -/
def arg_flags (ndebug : Bool) (args : List (List Char)) :
    Nat → SequentialParser → ArgState → Except Failure ArgState
  | 0, _, _ => Except.error Failure.fuel
  | fuel + 1, p, s =>
    if p.at_end then pure s
    else do
      let r ← p.get ndebug
      let f := s.k.flag_names.indexOf r.1
      if f ≠ s.k.flag_names.length then
        arg_flags ndebug args fuel r.2
          { s with k := { s.k with
              flag_values := s.k.flag_values.set f ((s.k.flag_values.getD f 0 + 1) % 2 ^ 32) } }
      else
        let c := s.k.optional_short_names.indexOf r.1
        if c = s.k.optional_short_names.length then
          Except.error (Failure.logic_error "Option not found.")
        else if r.2.at_end then do
          let i ← inbound args.length s.i "Missing option value."
          pure { s with i := i, k := { s.k with
            optional_short_values := s.k.optional_short_values.set c (args.getD i []) } }
        else do
          let v ← r.2.rest
          pure { s with k := { s.k with
            optional_short_values := s.k.optional_short_values.set c v } }

/-- The body of the `for` loop of `arg_to_data` for the argument at index `s.i`; the result
holds the index before the `++i` of the loop. -/
def arg_body (ndebug : Bool) (args : List (List Char)) (fuel : Nat) (s : ArgState) :
    Except Failure ArgState := do
  let p := SequentialParser.new (args.getD s.i [])
  let c ← p.current
  if c ≠ '-' ∨ p.total_size = 1 then
    if s.req_i = s.k.required_values.length then
      Except.error (Failure.out_of_range "More arguments than expected.")
    else do
      let v ← p.rest
      pure { s with req_i := s.req_i + 1, k := { s.k with
        required_values := s.k.required_values.set s.req_i v } }
  else do
    let p ← p.skip_for ndebug 1
    let c ← p.current
    if c = '-' then do
      let p ← p.skip_for ndebug 1
      let name ← p.rest
      let opt := s.k.optional_names.indexOf name
      if opt = s.k.optional_names.length then
        Except.error (Failure.logic_error "Option not found.")
      else do
        let i ← inbound args.length s.i "Missing option value."
        pure { s with i := i, k := { s.k with
          optional_values := s.k.optional_values.set opt (args.getD i []) } }
    else arg_flags ndebug args fuel p s

/-- The `for (auto i = argv; i != argv + argc; ++i)` loop of `arg_to_data` and the check
after it; `scan_fuel` is the fuel given to each `while` loop. -/
def arg_loop (ndebug : Bool) (args : List (List Char)) (scan_fuel : Nat) :
    Nat → ArgState → Except Failure Arguments
  | 0, _ => Except.error Failure.fuel
  | fuel + 1, s =>
    if s.i = args.length then
      if s.req_i ≠ s.k.required_values.length then
        Except.error (Failure.runtime_error "Missing required values.")
      else pure s.k
    else do
      let t ← arg_body ndebug args scan_fuel s
      arg_loop ndebug args scan_fuel fuel { t with i := t.i + 1 }

/-- Function `arg_to_data(argc, argv, k)`: `argv` lists the `argc` argument strings, the
executable first; the result holds the objects behind the pointers of `k` on return. -/
def arg_to_data (ndebug : Bool) (fuel : Nat) (argv : List (List Char)) (k : Arguments) :
    Except Failure Arguments :=
  match argv with
  | [] => Except.error (Failure.undefined "argc < 1")
  | _ :: args => arg_loop ndebug args fuel fuel { i := 0, req_i := 0, k := k }

/-- The argument vector of `TEST(Commandline, Basic)`. -/
def test_argv : List (List Char) :=
  ["./exec".toList, "-aabcAss".toList, "Bruh".toList, "--ass".toList, "ABC".toList]

/-- The `Arguments` of `TEST(Commandline, Basic)` with the initial values of the objects. -/
def test_arguments : Arguments where
  optional_names := ["ass".toList]
  optional_short_names := ['c']
  flag_names := ['a', 'b']
  required_values := [[]]
  optional_values := [[]]
  optional_short_values := [[]]
  flag_values := [0, 0]

/-! ## Argument binding: list forms and counts -/

/-- Statement `++*k.flag_values[f]` on a `uint32_t` counter. -/
def bump (flags : List Nat) (f : Nat) : List Nat :=
  flags.set f ((flags.getD f 0 + 1) % 2 ^ 32)

/-- The `while` loop of `arg_to_data` told on the characters that are left of the argument:
the list form of `arg_flags`. -/
def scan_chars (args : List (List Char)) : List Char → ArgState → Except Failure ArgState
  | [], s => Except.ok s
  | ch :: tl, s =>
    if s.k.flag_names.indexOf ch ≠ s.k.flag_names.length then
      scan_chars args tl
        { s with k := { s.k with flag_values := bump s.k.flag_values (s.k.flag_names.indexOf ch) } }
    else if s.k.optional_short_names.indexOf ch = s.k.optional_short_names.length then
      Except.error (Failure.logic_error "Option not found.")
    else if tl = [] then
      (inbound args.length s.i "Missing option value.").map (fun i =>
        { s with i := i, k := { s.k with
            optional_short_values :=
              s.k.optional_short_values.set (s.k.optional_short_names.indexOf ch)
                (args.getD i []) } })
    else
      Except.ok { s with k := { s.k with
        optional_short_values :=
          s.k.optional_short_values.set (s.k.optional_short_names.indexOf ch) tl } }

/-- The body of the `for` loop of `arg_to_data` told on the characters of the argument: the
list form of `arg_body`. -/
def body_chars (args : List (List Char)) (s : ArgState) : List Char → Except Failure ArgState
  | [] => Except.error (Failure.undefined "operator[]: pos >= size()")
  | '-' :: '-' :: name =>
    if s.k.optional_names.indexOf name = s.k.optional_names.length then
      Except.error (Failure.logic_error "Option not found.")
    else
      (inbound args.length s.i "Missing option value.").map (fun i =>
        { s with i := i, k := { s.k with
            optional_values :=
              s.k.optional_values.set (s.k.optional_names.indexOf name) (args.getD i []) } })
  | '-' :: c :: tl => scan_chars args (c :: tl) s
  | a =>
    if s.req_i = s.k.required_values.length then
      Except.error (Failure.out_of_range "More arguments than expected.")
    else
      Except.ok { s with req_i := s.req_i + 1, k := { s.k with
        required_values := s.k.required_values.set s.req_i a } }

/-- The characters of the body of a single-dash argument that are read as flags: those before
the first character that is not a flag name. -/
def flag_run (flag_names : List Char) (body : List Char) : List Char :=
  body.takeWhile (fun ch => decide (ch ∈ flag_names))

/-- The characters before the first character that is a short-option name. -/
def short_free_run (optional_short_names : List Char) (body : List Char) : List Char :=
  body.takeWhile (fun ch => decide (ch ∉ optional_short_names))

/-- How many of the characters are bound by `std::find` to entry `j` of `flag_names`. -/
def flag_hits (flag_names : List Char) (j : Nat) (chars : List Char) : Nat :=
  chars.countP (fun ch => flag_names.indexOf ch == j)

/-- The bodies (the characters after `-`) of the arguments that are scanned as single-dash
arguments, in order.  The flag `skip` says that the first argument is the value of the option
before it.  A `--name` argument takes the next argument as its value, and so does a
single-dash argument whose run of flags is followed by exactly one more character. -/
def scanned_bodies (flag_names : List Char) : Bool → List (List Char) → List (List Char)
  | _, [] => []
  | true, _ :: rest => scanned_bodies flag_names false rest
  | false, ('-' :: '-' :: _) :: rest => scanned_bodies flag_names true rest
  | false, ('-' :: c :: tl) :: rest =>
    (c :: tl) ::
      scanned_bodies flag_names
        (decide (((c :: tl).dropWhile (fun ch => decide (ch ∈ flag_names))).length = 1)) rest
  | false, _ :: rest => scanned_bodies flag_names false rest

/-- The number of times entry `j` of `flag_names` is read as a flag in the arguments. -/
def flag_reads (flag_names : List Char) (j : Nat) (args : List (List Char)) : Nat :=
  ((scanned_bodies flag_names false args).map
    (fun body => flag_hits flag_names j (flag_run flag_names body))).sum

/-! ## Breadth first search: the order of dequeuing -/

/-- The `while` loop of `breadth_first_search` with a ghost list `order` of the nodes taken
from the queue so far, oldest first; the queue and the table are handled as in `bfs_loop`. -/
def bfs_loop_order [HasDest E] (g : Graph E) (early_exit : Nat → Bool) :
    Nat → List Nat → List Nat → List Nat → Option (List Nat × List Nat)
  | 0, _, _, _ => none
  | _ + 1, order, [], came_from => some (order, came_from)
  | fuel + 1, order, c :: front, came_from =>
    if early_exit c then some (order ++ [c], came_from)
    else
      let s := bfs_visit c (g.edge_range c) (front, came_from)
      bfs_loop_order g early_exit fuel (order ++ [c]) s.1 s.2

/-- Overload `breadth_first_search(g, start_node)` with the ghost list of the dequeued
nodes: the result is that list and the returned table. -/
def breadth_first_search_order [HasDest E] (fuel : Nat) (g : Graph E) (start_node : Nat) :
    Option (List Nat × List Nat) :=
  bfs_loop_order g (fun _ => false) fuel [] [start_node]
    ((List.replicate g.size SIZE_MAX).set start_node start_node)

/-- Loop invariant of `breadth_first_search` for the order of dequeuing: every visited node
other than `start` has as predecessor the first node of `order` with an edge to it, and every
edge leaving a node of `order` ends in a visited node. -/
structure OrdInv [HasDest E] (g : Graph E) (start : Nat) (order front came_from : List Nat) :
    Prop where
  len : came_from.length = g.size
  start_lt : start < g.size
  cf_start : pred_of came_from start = start
  front_vis : ∀ x ∈ front, Visited came_from x
  order_vis : ∀ x ∈ order, Visited came_from x
  nodup : (order ++ front).Nodup
  all : ∀ v, Visited came_from v → v ∈ order ∨ v ∈ front
  first_pred : ∀ v, Visited came_from v → v ≠ start →
    ∃ pre post, order = pre ++ pred_of came_from v :: post ∧
      IsEdge g (pred_of came_from v) v ∧ ∀ u ∈ pre, ¬ IsEdge g u v
  closed : ∀ u ∈ order, ∀ e ∈ g.neighbors u, Visited came_from (HasDest.dest e)

/-- Invariant of the `for` loop of `breadth_first_search` for the order of dequeuing, while
the edges of the dequeued node `c` are visited; `ds` are the edges of `c` handled so far. -/
structure OrdMid [HasDest E] (g : Graph E) (start : Nat) (order : List Nat) (c : Nat)
    (front came_from : List Nat) (ds : List E) : Prop where
  len : came_from.length = g.size
  start_lt : start < g.size
  cf_start : pred_of came_from start = start
  c_vis : Visited came_from c
  front_vis : ∀ x ∈ front, Visited came_from x
  order_vis : ∀ x ∈ order, Visited came_from x
  nodup : (order ++ c :: front).Nodup
  all : ∀ v, Visited came_from v → v ∈ order ∨ v = c ∨ v ∈ front
  first_pred : ∀ v, Visited came_from v → v ≠ start →
    (∃ pre post, order = pre ++ pred_of came_from v :: post ∧
      IsEdge g (pred_of came_from v) v ∧ ∀ u ∈ pre, ¬ IsEdge g u v) ∨
    (pred_of came_from v = c ∧ IsEdge g c v ∧ ∀ u ∈ order, ¬ IsEdge g u v)
  closed : ∀ u ∈ order, ∀ e ∈ g.neighbors u, Visited came_from (HasDest.dest e)
  seen : ∀ e ∈ ds, Visited came_from (HasDest.dest e)

/-! ## Dijkstra search: the candidate costs -/

/-- The values `route.second[idx] + weight` that the `for` loop of `dijkstra_search` computes
over the edges of the popped node `idx`, in order, as natural numbers before they are stored
in a `uint32_t`. -/
def dijkstra_costs (idx : Nat) : List WeighedEdge → SearchState → List Nat
  | [], _ => []
  | e :: es, s =>
    (s.second.getD idx UINT32_MAX + e.weight) :: dijkstra_costs idx es (dijkstra_relax idx [e] s)

/-- The total of the weights of all edge records of the graph. -/
def weight_sum (g : Graph WeighedEdge) : Nat :=
  (g.edges.map WeighedEdge.weight).sum

/-- The total of the weights of the edge records that leave node `u`. -/
def out_weight (g : Graph WeighedEdge) (u : Nat) : Nat :=
  ((g.neighbors u).map WeighedEdge.weight).sum

/-! ## States that differ in the priorities only -/

/-- Two states of the weighted searches hold the same tables and the same pending nodes in
the same order; only the priorities of the pending pairs may differ. -/
def SameTables (s t : SearchState) : Prop :=
  s.first = t.first ∧ s.second = t.second ∧ s.front.map Prod.snd = t.front.map Prod.snd

/-! ## Argument binding: positional arguments -/

/-- The argument is positional: not empty, and either not starting with `-` or the single
character `-`. -/
def Positional (a : List Char) : Prop :=
  a ≠ [] ∧ (a.head? ≠ some '-' ∨ a = ['-'])

instance : DecidablePred Positional := fun a => by
  unfold Positional
  infer_instance

/-! # Properties -/

/-! ## Table lemmas -/

theorem getD_set_self (l : List Nat) (i v d : Nat) (h : i < l.length) :
    (l.set i v).getD i d = v := by
  simp [List.getD_eq_getElem?_getD, List.getElem?_set, h]

theorem getD_set_ne (l : List Nat) (i j v d : Nat) (h : i ≠ j) :
    (l.set i v).getD j d = l.getD j d := by
  simp [List.getD_eq_getElem?_getD, List.getElem?_set, h]

theorem getD_replicate_lt (n a i d : Nat) (h : i < n) : (List.replicate n a).getD i d = a := by
  simp [List.getD_eq_getElem?_getD, List.getElem?_replicate, h]

theorem mem_neighbors_edges (g : Graph E) (c : Nat) (e : E) (h : e ∈ g.neighbors c) :
    e ∈ g.edges :=
  List.mem_of_mem_drop (List.mem_of_mem_take h)

theorem count_set_unvisited (l : List Nat) (i c m : Nat) (hi : i < l.length)
    (hm : l.getD i m = m) (hc : c ≠ m) : (l.set i c).count m + 1 = l.count m := by
  have hget : l[i] = m := by
    simpa [List.getD_eq_getElem?_getD, List.getElem?_eq_getElem hi] using hm
  have hpos : 0 < l.count m := by
    rw [List.count_pos_iff, ← hget]
    exact List.getElem_mem hi
  rw [List.count_set _ _ _ _ hi]
  simp [hget, hc]
  omega

/-! ## Breadth first search: the inner loop -/

theorem visited_set_of_visited (cf : List Nat) (n c v : Nat) (hn : cf.getD n SIZE_MAX = SIZE_MAX)
    (h : Visited cf v) : Visited (cf.set n c) v ∧ pred_of (cf.set n c) v = pred_of cf v := by
  have hne : n ≠ v := by
    rintro rfl
    exact h.2 hn
  refine ⟨⟨by simpa using h.1, ?_⟩, ?_⟩
  · rw [getD_set_ne _ _ _ _ _ hne]; exact h.2
  · unfold pred_of; rw [getD_set_ne _ _ _ _ _ hne]

theorem visited_set_cases (cf : List Nat) (n c v : Nat) (h : Visited (cf.set n c) v) :
    v = n ∨ Visited cf v := by
  by_cases hv : v = n
  · exact Or.inl hv
  · right
    refine ⟨by simpa using h.1, ?_⟩
    have := h.2
    rwa [getD_set_ne _ _ _ _ _ (Ne.symm hv)] at this

theorem bfsMid_push [HasDest E] {g : Graph E} (hwf : WellFormed g) {start : Nat}
    {lev : Nat → Nat} {c : Nat} {front cf : List Nat} {ds : List E} (e : E)
    (he : e ∈ g.neighbors c) (hn : cf.getD (HasDest.dest e) SIZE_MAX = SIZE_MAX)
    (h : BfsMid g start lev c front cf ds) :
    BfsMid g start (Function.update lev (HasDest.dest e) (lev c + 1)) c
      (front ++ [HasDest.dest e]) (cf.set (HasDest.dest e) c) (ds ++ [e]) := by
  set n := HasDest.dest e with hndef
  have hnlt : n < cf.length := by
    rw [h.len]; exact hwf.dest_lt e (mem_neighbors_edges g c e he)
  have hold : ∀ v, Visited cf v → v ≠ n := by
    rintro v hv rfl
    exact hv.2 hn
  have hlev : ∀ v, Visited cf v → Function.update lev n (lev c + 1) v = lev v :=
    fun v hv => Function.update_noteq (hold v hv) _ _
  have hkeep : ∀ v, Visited cf v →
      Visited (cf.set n c) v ∧ pred_of (cf.set n c) v = pred_of cf v :=
    fun v hv => visited_set_of_visited cf n c v hn hv
  have hcne : c ≠ SIZE_MAX := by
    have h1 := h.c_vis.1
    have h2 := hwf.size_lt
    rw [h.len] at h1
    unfold SIZE_MAX
    omega
  have hnew : Visited (cf.set n c) n := by
    refine ⟨by simpa using hnlt, ?_⟩
    rw [getD_set_self _ _ _ _ hnlt]; exact hcne
  have hstart : Visited cf start := by
    refine ⟨by rw [h.len]; exact h.start_lt, ?_⟩
    have h1 := h.cf_start
    unfold pred_of at h1
    rw [h1]
    have h2 := hwf.size_lt
    have h3 := h.start_lt
    unfold SIZE_MAX
    omega
  have hlevn : Function.update lev n (lev c + 1) n = lev c + 1 := Function.update_same _ _ _
  have hlevc := hlev c h.c_vis
  refine
    { len := by simpa using h.len
      start_lt := h.start_lt
      cf_start := by rw [(hkeep start hstart).2]; exact h.cf_start
      lev_start := by rw [hlev start hstart]; exact h.lev_start
      pred := ?_
      front_vis := ?_
      c_vis := (hkeep c h.c_vis).1
      sorted := ?_
      range := ?_
      all_near := ?_
      done := ?_
      low := ?_
      seen := ?_ }
  · intro v hv hvs
    rcases visited_set_cases cf n c v hv with rfl | hv'
    · have hp : pred_of (cf.set n c) n = c := getD_set_self _ _ _ _ hnlt
      rw [hp]
      exact ⟨(hkeep c h.c_vis).1, ⟨e, he, rfl⟩, by rw [hlevn, hlevc]⟩
    · obtain ⟨h1, h2, h3⟩ := h.pred v hv' hvs
      rw [(hkeep v hv').2]
      exact ⟨(hkeep _ h1).1, h2, by rw [hlev v hv', hlev _ h1, h3]⟩
  · intro x hx
    rcases List.mem_append.1 hx with hx | hx
    · exact (hkeep x (h.front_vis x hx)).1
    · rw [List.mem_singleton.1 hx]; exact hnew
  · rw [List.pairwise_append]
    refine ⟨?_, List.pairwise_singleton _ _, ?_⟩
    · refine h.sorted.imp_of_mem ?_
      intro a b ha hb hab
      rw [hlev a (h.front_vis a ha), hlev b (h.front_vis b hb)]
      exact hab
    · intro a ha b hb
      rw [List.mem_singleton.1 hb, hlevn, hlev a (h.front_vis a ha)]
      exact (h.range a ha).2
  · intro x hx
    rw [hlevc]
    rcases List.mem_append.1 hx with hx | hx
    · rw [hlev x (h.front_vis x hx)]; exact h.range x hx
    · rw [List.mem_singleton.1 hx, hlevn]; omega
  · intro v hv
    rw [hlevc]
    rcases visited_set_cases cf n c v hv with rfl | hv'
    · rw [hlevn]
    · rw [hlev v hv']; exact h.all_near v hv'
  · intro u hu hnot huc e' he'
    have hun : u ≠ n := fun hh => hnot (List.mem_append.2 (Or.inr (List.mem_singleton.2 hh)))
    have hu' : Visited cf u := (visited_set_cases cf n c u hu).resolve_left hun
    have hnf : u ∉ front := fun hh => hnot (List.mem_append.2 (Or.inl hh))
    obtain ⟨h1, h2⟩ := h.done u hu' hnf huc e' he'
    exact ⟨(hkeep _ h1).1, by rw [hlev _ h1, hlev u hu']; exact h2⟩
  · intro u hu hnot
    have hun : u ≠ n := fun hh => hnot (List.mem_append.2 (Or.inr (List.mem_singleton.2 hh)))
    have hu' : Visited cf u := (visited_set_cases cf n c u hu).resolve_left hun
    have hnf : u ∉ front := fun hh => hnot (List.mem_append.2 (Or.inl hh))
    rw [hlev u hu', hlevc]
    exact h.low u hu' hnf
  · intro e' he'
    rcases List.mem_append.1 he' with he' | he'
    · exact (hkeep _ (h.seen e' he')).1
    · rw [List.mem_singleton.1 he']; exact hnew

theorem bfs_visit_cons_new [HasDest E] (c : Nat) (e : E) (es : List E) (front cf : List Nat)
    (hn : cf.getD (HasDest.dest e) SIZE_MAX = SIZE_MAX) :
    bfs_visit c (e :: es) (front, cf)
      = bfs_visit c es (front ++ [HasDest.dest e], cf.set (HasDest.dest e) c) := by
  simp only [bfs_visit, hn, if_true]

theorem bfs_visit_cons_old [HasDest E] (c : Nat) (e : E) (es : List E) (front cf : List Nat)
    (hn : cf.getD (HasDest.dest e) SIZE_MAX ≠ SIZE_MAX) :
    bfs_visit c (e :: es) (front, cf) = bfs_visit c es (front, cf) := by
  simp only [bfs_visit, hn, if_false]

theorem bfs_visit_inv [HasDest E] {g : Graph E} (hwf : WellFormed g) {start c : Nat} :
    ∀ (es ds : List E) (front cf : List Nat) (lev : Nat → Nat),
      (∀ e ∈ es, e ∈ g.neighbors c) → BfsMid g start lev c front cf ds →
      ∃ lev', BfsMid g start lev' c (bfs_visit c es (front, cf)).1
        (bfs_visit c es (front, cf)).2 (ds ++ es) := by
  intro es
  induction es with
  | nil =>
    intro ds front cf lev _ h
    exact ⟨lev, by simpa [bfs_visit] using h⟩
  | cons e es ih =>
    intro ds front cf lev hes h
    have he : e ∈ g.neighbors c := hes e (List.mem_cons_self _ _)
    have hes' : ∀ e' ∈ es, e' ∈ g.neighbors c := fun e' h' => hes e' (List.mem_cons_of_mem _ h')
    have happ : ds ++ e :: es = (ds ++ [e]) ++ es := by simp
    rw [happ]
    by_cases hn : cf.getD (HasDest.dest e) SIZE_MAX = SIZE_MAX
    · have hstep := bfsMid_push hwf e he hn h
      obtain ⟨lev', h'⟩ := ih (ds ++ [e]) _ _ _ hes' hstep
      refine ⟨lev', ?_⟩
      rw [bfs_visit_cons_new c e es front cf hn]
      exact h'
    · have hlt : HasDest.dest e < cf.length := by
        rw [h.len]; exact hwf.dest_lt e (mem_neighbors_edges g c e he)
      have hstep : BfsMid g start lev c front cf (ds ++ [e]) :=
        { h with
          seen := by
            intro e' he'
            rcases List.mem_append.1 he' with he' | he'
            · exact h.seen e' he'
            · rw [List.mem_singleton.1 he']; exact ⟨hlt, hn⟩ }
      obtain ⟨lev', h'⟩ := ih (ds ++ [e]) _ _ _ hes' hstep
      refine ⟨lev', ?_⟩
      rw [bfs_visit_cons_old c e es front cf hn]
      exact h'

theorem bfs_visit_measure [HasDest E] (c : Nat) (hc : c ≠ SIZE_MAX) :
    ∀ (es : List E) (front cf : List Nat), (∀ e ∈ es, HasDest.dest e < cf.length) →
      (bfs_visit c es (front, cf)).2.count SIZE_MAX + (bfs_visit c es (front, cf)).1.length
        = cf.count SIZE_MAX + front.length ∧
      (bfs_visit c es (front, cf)).2.length = cf.length := by
  intro es
  induction es with
  | nil => intro front cf _; simp [bfs_visit]
  | cons e es ih =>
    intro front cf hes
    have he := hes e (List.mem_cons_self _ _)
    by_cases hn : cf.getD (HasDest.dest e) SIZE_MAX = SIZE_MAX
    · have h1 := ih (front ++ [HasDest.dest e]) (cf.set (HasDest.dest e) c)
        (fun e' h' => by simpa using hes e' (List.mem_cons_of_mem _ h'))
      have h2 := count_set_unvisited cf _ c SIZE_MAX he hn hc
      rw [bfs_visit_cons_new c e es front cf hn, h1.1, h1.2]
      simp
      omega
    · have h1 := ih front cf (fun e' h' => hes e' (List.mem_cons_of_mem _ h'))
      rw [bfs_visit_cons_old c e es front cf hn]
      exact h1

theorem lt_size_ne_SIZE_MAX [HasDest E] {g : Graph E} (hwf : WellFormed g) {v : Nat}
    (hv : v < g.size) : v ≠ SIZE_MAX := by
  have h := hwf.size_lt
  unfold SIZE_MAX
  omega

theorem bfsInv_init [HasDest E] {g : Graph E} (hwf : WellFormed g) {start : Nat}
    (hs : start < g.size) :
    BfsInv g start (fun _ => 0) [start] ((List.replicate g.size SIZE_MAX).set start start) := by
  have hlen : ((List.replicate g.size SIZE_MAX).set start start).length = g.size := by simp
  have hself : ((List.replicate g.size SIZE_MAX).set start start).getD start SIZE_MAX = start :=
    getD_set_self _ _ _ _ (by simpa using hs)
  have honly : ∀ v, Visited ((List.replicate g.size SIZE_MAX).set start start) v → v = start := by
    intro v hv
    by_contra hne
    apply hv.2
    rw [getD_set_ne _ _ _ _ _ (Ne.symm hne)]
    exact getD_replicate_lt _ _ _ _ (by simpa using hv.1)
  refine
    { len := hlen
      start_lt := hs
      cf_start := hself
      lev_start := rfl
      pred := fun v hv hne => absurd (honly v hv) hne
      front_vis := ?_
      sorted := List.pairwise_singleton _ _
      near := fun _ _ _ _ => Nat.zero_le _
      done := fun u hu hnot => absurd (List.mem_singleton.2 (honly u hu)) hnot
      low := fun _ _ _ _ _ => Nat.le_refl _ }
  intro x hx
  rw [List.mem_singleton.1 hx]
  exact ⟨by rw [hlen]; exact hs, by rw [hself]; exact lt_size_ne_SIZE_MAX hwf hs⟩

theorem bfsMid_of_inv [HasDest E] {g : Graph E} {start : Nat} {lev : Nat → Nat} {c : Nat}
    {front cf : List Nat} (h : BfsInv g start lev (c :: front) cf) :
    BfsMid g start lev c front cf [] := by
  have hc : Visited cf c := h.front_vis c (List.mem_cons_self _ _)
  have hsorted := List.pairwise_cons.1 h.sorted
  refine
    { len := h.len
      start_lt := h.start_lt
      cf_start := h.cf_start
      lev_start := h.lev_start
      pred := h.pred
      front_vis := fun x hx => h.front_vis x (List.mem_cons_of_mem _ hx)
      c_vis := hc
      sorted := hsorted.2
      range := fun x hx =>
        ⟨hsorted.1 x hx, h.near c (List.mem_cons_self _ _) x
          (h.front_vis x (List.mem_cons_of_mem _ hx))⟩
      all_near := fun v hv => h.near c (List.mem_cons_self _ _) v hv
      done := ?_
      low := ?_
      seen := fun e he => absurd he (List.not_mem_nil e) }
  · intro u hu hnot huc
    exact h.done u hu (by simp [huc, hnot])
  · intro u hu hnot
    by_cases huc : u = c
    · rw [huc]
    · exact h.low u hu (by simp [huc, hnot]) c (List.mem_cons_self _ _)

theorem bfsInv_of_mid [HasDest E] {g : Graph E} {start : Nat} {lev : Nat → Nat} {c : Nat}
    {front cf : List Nat} (h : BfsMid g start lev c front cf (g.neighbors c)) :
    BfsInv g start lev front cf := by
  refine
    { len := h.len
      start_lt := h.start_lt
      cf_start := h.cf_start
      lev_start := h.lev_start
      pred := h.pred
      front_vis := h.front_vis
      sorted := h.sorted
      near := ?_
      done := ?_
      low := ?_ }
  · intro x hx v hv
    have h1 := h.all_near v hv
    have h2 := (h.range x hx).1
    omega
  · intro u hu hnot e he
    by_cases huc : u = c
    · subst huc
      exact ⟨h.seen e he, h.all_near _ (h.seen e he)⟩
    · exact h.done u hu hnot huc e he
  · intro u hu hnot x hx
    have h1 := h.low u hu hnot
    have h2 := (h.range x hx).1
    omega

theorem bfs_loop_exit [HasDest E] {g : Graph E} (hwf : WellFormed g) {start : Nat}
    (early_exit : Nat → Bool) :
    ∀ (fuel : Nat) (front cf : List Nat) (lev : Nat → Nat), BfsInv g start lev front cf →
      cf.count SIZE_MAX + front.length < fuel →
      ∃ r lev' front', bfs_loop g early_exit fuel front cf = some r ∧
        BfsInv g start lev' front' r ∧
        (front' = [] ∨ ∃ c rest, front' = c :: rest ∧ early_exit c = true) := by
  intro fuel
  induction fuel with
  | zero => intro front cf lev _ h; omega
  | succ fuel ih =>
    intro front cf lev hinv hm
    cases front with
    | nil => exact ⟨cf, lev, [], rfl, hinv, Or.inl rfl⟩
    | cons c front =>
      by_cases hee : early_exit c = true
      · exact ⟨cf, lev, c :: front, by simp [bfs_loop, hee], hinv, Or.inr ⟨c, front, rfl, hee⟩⟩
      · have hmid := bfsMid_of_inv hinv
        obtain ⟨lev', hmid'⟩ := bfs_visit_inv hwf (g.neighbors c) [] front cf lev
          (fun e he => he) hmid
        have hinv' := bfsInv_of_mid (by simpa using hmid')
        have hclt : c < g.size := by rw [← hinv.len]; exact hmid.c_vis.1
        have hmeas := bfs_visit_measure c (lt_size_ne_SIZE_MAX hwf hclt) (g.neighbors c) front cf
          (fun e he => by
            rw [hinv.len]; exact hwf.dest_lt e (mem_neighbors_edges g c e he))
        obtain ⟨r, lev'', front'', hr, hfin, hex⟩ := ih _ _ lev' hinv' (by
          rw [hmeas.1]
          simp only [List.length_cons] at hm
          omega)
        refine ⟨r, lev'', front'', ?_, hfin, hex⟩
        simp only [bfs_loop, hee]
        exact hr

theorem bfs_loop_spec [HasDest E] {g : Graph E} (hwf : WellFormed g) {start : Nat} :
    ∀ (fuel : Nat) (front cf : List Nat) (lev : Nat → Nat), BfsInv g start lev front cf →
      cf.count SIZE_MAX + front.length < fuel →
      ∃ r lev', bfs_loop g (fun _ => false) fuel front cf = some r ∧ BfsInv g start lev' [] r := by
  intro fuel front cf lev hinv hm
  obtain ⟨r, lev', front', hr, hfin, hex⟩ :=
    bfs_loop_exit hwf (fun _ => false) fuel front cf lev hinv hm
  rcases hex with rfl | ⟨c, rest, _, hc⟩
  · exact ⟨r, lev', hr, hfin⟩
  · simp at hc

theorem bfs_loop_fuel_succ [HasDest E] (g : Graph E) (early_exit : Nat → Bool) :
    ∀ (fuel : Nat) (front cf r : List Nat), bfs_loop g early_exit fuel front cf = some r →
      bfs_loop g early_exit (fuel + 1) front cf = some r := by
  intro fuel
  induction fuel with
  | zero => intro front cf r h; simp [bfs_loop] at h
  | succ fuel ih =>
    intro front cf r h
    cases front with
    | nil => simpa [bfs_loop] using h
    | cons c front =>
      by_cases hc : early_exit c = true
      · simpa [bfs_loop, hc] using h
      · simp only [bfs_loop, hc] at h ⊢
        exact ih _ _ _ h

theorem bfs_loop_fuel_le [HasDest E] (g : Graph E) (early_exit : Nat → Bool)
    (front cf r : List Nat) (fuel fuel' : Nat) (hle : fuel ≤ fuel')
    (h : bfs_loop g early_exit fuel front cf = some r) :
    bfs_loop g early_exit fuel' front cf = some r := by
  induction hle with
  | refl => exact h
  | step _ ih => exact bfs_loop_fuel_succ g early_exit _ _ _ _ ih

theorem bfs_loop_unique [HasDest E] (g : Graph E) (early_exit : Nat → Bool)
    (front cf r r' : List Nat) (fuel fuel' : Nat)
    (h : bfs_loop g early_exit fuel front cf = some r)
    (h' : bfs_loop g early_exit fuel' front cf = some r') : r = r' := by
  have h1 := bfs_loop_fuel_le g early_exit front cf r fuel (max fuel fuel') (le_max_left _ _) h
  have h2 := bfs_loop_fuel_le g early_exit front cf r' fuel' (max fuel fuel') (le_max_right _ _) h'
  rw [h1] at h2
  exact Option.some.inj h2

/-! ## Breadth first search: what the final table says -/

theorem bfs_final_walk [HasDest E] {g : Graph E} {start : Nat} {lev : Nat → Nat} {r : List Nat}
    (h : BfsInv g start lev [] r) (hstart : Visited r start) :
    ∀ v n, Walk g start v n → Visited r v ∧ lev v ≤ n := by
  intro v n hw
  induction hw with
  | refl => exact ⟨hstart, by rw [h.lev_start]⟩
  | step _ hedge ih =>
    obtain ⟨e, he, rfl⟩ := hedge
    obtain ⟨h1, h2⟩ := h.done _ ih.1 (List.not_mem_nil _) e he
    exact ⟨h1, by omega⟩

theorem bfs_final_chain [HasDest E] {g : Graph E} {start : Nat} {lev : Nat → Nat}
    {front r : List Nat} (h : BfsInv g start lev front r) :
    ∀ k v, Visited r v → lev v = k →
      (pred_of r)^[k] v = start ∧ (∀ j, j < k → (pred_of r)^[j] v ≠ start) ∧
      (∀ j, j < k → IsEdge g ((pred_of r)^[j + 1] v) ((pred_of r)^[j] v)) ∧
      Walk g start v k := by
  intro k
  induction k with
  | zero =>
    intro v hv hk
    have hvs : v = start := by
      by_contra hne
      have := (h.pred v hv hne).2.2
      omega
    subst hvs
    exact ⟨rfl, fun j hj => absurd hj (Nat.not_lt_zero j),
      fun j hj => absurd hj (Nat.not_lt_zero j), Walk.refl⟩
  | succ k ih =>
    intro v hv hk
    have hne : v ≠ start := by
      rintro rfl
      have := h.lev_start
      omega
    obtain ⟨h1, h2, h3⟩ := h.pred v hv hne
    obtain ⟨i1, i2, i3, i4⟩ := ih (pred_of r v) h1 (by omega)
    refine ⟨by rw [Function.iterate_succ_apply]; exact i1, ?_, ?_, Walk.step i4 h2⟩
    · intro j hj
      cases j with
      | zero => exact hne
      | succ j =>
        rw [Function.iterate_succ_apply]
        exact i2 j (by omega)
    · intro j hj
      cases j with
      | zero => exact h2
      | succ j =>
        rw [Function.iterate_succ_apply, Function.iterate_succ_apply (pred_of r) j]
        exact i3 j (by omega)

theorem g1_wellFormed : WellFormed g1 :=
  ⟨by decide, by decide, by decide, by decide, by decide⟩

/-- C1: on a well-formed graph (weighted or not) and a start node below the node count, the
search without early exit returns, and in every table it returns each node reachable from
`start` has a predecessor chain that first meets `start` after `k` links, every link being an
edge of the graph, where `k` is the least number of edges of any path from `start` to it. -/
theorem bfs_chain_shortest [HasDest E] (g : Graph E) (start : Nat) (hwf : WellFormed g)
    (hs : start < g.size) :
    (∃ fuel r, breadth_first_search_all fuel g start = some r) ∧
    ∀ fuel r, breadth_first_search_all fuel g start = some r →
      ∀ v, Reachable g start v →
        ∃ k, (pred_of r)^[k] v = start ∧ (∀ j, j < k → (pred_of r)^[j] v ≠ start) ∧
          (∀ j, j < k → IsEdge g ((pred_of r)^[j + 1] v) ((pred_of r)^[j] v)) ∧
          Walk g start v k ∧ ∀ n, Walk g start v n → k ≤ n := by
  have hinit := bfsInv_init hwf hs
  obtain ⟨fuel0, r, lev, hr, hfin⟩ :
      ∃ fuel r lev, bfs_loop g (fun _ => false) fuel [start]
        ((List.replicate g.size SIZE_MAX).set start start) = some r ∧ BfsInv g start lev [] r :=
    ⟨_, bfs_loop_spec hwf _ _ _ _ hinit (Nat.lt_succ_self _)⟩
  have hr0 : breadth_first_search_all fuel0 g start = some r := hr
  refine ⟨⟨fuel0, r, hr0⟩, ?_⟩
  intro fuel r' hr' v hv
  have hrr : r = r' := bfs_loop_unique g _ _ _ r r' fuel0 fuel hr hr'
  subst hrr
  obtain ⟨n0, hw0⟩ := hv
  have hstart : Visited r start := by
    refine ⟨by rw [hfin.len]; exact hs, ?_⟩
    have h1 := hfin.cf_start
    unfold pred_of at h1
    rw [h1]
    exact lt_size_ne_SIZE_MAX hwf hs
  have hvis := bfs_final_walk hfin hstart v n0 hw0
  obtain ⟨c1, c2, c3, c4⟩ := bfs_final_chain hfin (lev v) v hvis.1 rfl
  exact ⟨lev v, c1, c2, c3, c4, fun n hn => (bfs_final_walk hfin hstart v n hn).2⟩

theorem bfs_chain_shortest_g1 :
    WellFormed g1 ∧ 0 < g1.size ∧
    ((∃ fuel r, breadth_first_search_all fuel g1 0 = some r) ∧
    ∀ fuel r, breadth_first_search_all fuel g1 0 = some r →
      ∀ v, Reachable g1 0 v →
        ∃ k, (pred_of r)^[k] v = 0 ∧ (∀ j, j < k → (pred_of r)^[j] v ≠ 0) ∧
          (∀ j, j < k → IsEdge g1 ((pred_of r)^[j + 1] v) ((pred_of r)^[j] v)) ∧
          Walk g1 0 v k ∧ ∀ n, Walk g1 0 v n → k ≤ n) :=
  ⟨g1_wellFormed, by decide, bfs_chain_shortest g1 0 g1_wellFormed (by decide)⟩

/-! ## Weighted searches: lists and the frontier -/

theorem sum_set_add (l : List Nat) (i v d : Nat) (h : i < l.length) :
    (l.set i v).sum + l.getD i d = l.sum + v := by
  induction l generalizing i with
  | nil => simp at h
  | cons a l ih =>
    cases i with
    | zero => simp; omega
    | succ i =>
      have h' : i < l.length := by simpa using h
      have := ih i h'
      simp only [List.set_cons_succ, List.sum_cons, List.getD_cons_succ]
      omega

theorem foldl_max_mem (f : Nat × Nat → Nat × Nat → Bool) :
    ∀ (xs : List (Nat × Nat)) (x : Nat × Nat),
      xs.foldl (fun m y => if f m y then y else m) x ∈ x :: xs := by
  intro xs
  induction xs with
  | nil => intro x; simp
  | cons y ys ih =>
    intro x
    simp only [List.foldl_cons]
    by_cases hxy : f x y = true
    · rw [if_pos hxy]
      have := ih y
      simp only [List.mem_cons] at this ⊢
      tauto
    · rw [if_neg hxy]
      have := ih x
      simp only [List.mem_cons] at this ⊢
      tauto

theorem pq_top_mem {front : List (Nat × Nat)} {t : Nat × Nat} (h : pq_top front = some t) :
    t ∈ front := by
  cases front with
  | nil => simp [pq_top] at h
  | cons x xs =>
    simp only [pq_top, Option.some.injEq] at h
    rw [← h]
    exact foldl_max_mem pair_lt xs x

theorem pair_lt_iff (a b : Nat × Nat) :
    pair_lt a b = true ↔ a.1 < b.1 ∨ (a.1 = b.1 ∧ a.2 < b.2) := by
  simp [pair_lt]

theorem foldl_max_largest :
    ∀ (xs : List (Nat × Nat)) (x : Nat × Nat), ∀ p ∈ x :: xs,
      pair_lt (xs.foldl (fun m y => if pair_lt m y then y else m) x) p = false := by
  intro xs
  induction xs with
  | nil =>
    intro x p hp
    rw [List.mem_singleton.1 hp]
    simp [pair_lt]
  | cons y ys ih =>
    intro x p hp
    simp only [List.foldl_cons]
    have hacc := ih (if pair_lt x y then y else x)
    have hm := hacc (if pair_lt x y then y else x) (List.mem_cons_self _ _)
    rcases List.mem_cons.1 hp with rfl | hp
    · by_cases hxy : pair_lt p y = true
      · rw [if_pos hxy] at hm ⊢
        have h1 := (pair_lt_iff p y).1 hxy
        have h2 := (pair_lt_iff (List.foldl (fun m y => if pair_lt m y then y else m) y ys) y).not.1
          (by simpa using hm)
        apply Bool.eq_false_iff.2
        intro h3
        have h4 := (pair_lt_iff _ p).1 h3
        omega
      · rw [if_neg hxy] at hm ⊢
        exact hm
    · rcases List.mem_cons.1 hp with rfl | hp
      · by_cases hxy : pair_lt x p = true
        · rw [if_pos hxy] at hm ⊢
          exact hm
        · rw [if_neg hxy] at hm ⊢
          have h1 := (pair_lt_iff x p).not.1 hxy
          have h2 := (pair_lt_iff (List.foldl (fun m y => if pair_lt m y then y else m) x ys) x).not.1
            (by simpa using hm)
          apply Bool.eq_false_iff.2
          intro h3
          have h4 := (pair_lt_iff _ p).1 h3
          omega
      · exact hacc p (List.mem_cons_of_mem _ hp)

/-- The pair that `top()` returns is a largest pending pair: no pending pair is greater. -/
theorem pq_top_largest {front : List (Nat × Nat)} {t : Nat × Nat} (h : pq_top front = some t) :
    ∀ p ∈ front, pair_lt t p = false := by
  cases front with
  | nil => simp [pq_top] at h
  | cons x xs =>
    simp only [pq_top, Option.some.injEq] at h
    rw [← h]
    exact foldl_max_largest xs x

theorem pq_top_eq_none {front : List (Nat × Nat)} (h : pq_top front = none) : front = [] := by
  cases front with
  | nil => rfl
  | cons x xs => simp [pq_top] at h

theorem pq_pop_eq {front : List (Nat × Nat)} {t : Nat × Nat} (h : pq_top front = some t) :
    pq_pop front = front.erase t := by
  simp [pq_pop, h]

theorem pq_pop_length {front : List (Nat × Nat)} {t : Nat × Nat} (h : pq_top front = some t) :
    (pq_pop front).length + 1 = front.length := by
  have hm := pq_top_mem h
  rw [pq_pop_eq h, List.length_erase_of_mem hm]
  have : 0 < front.length := List.length_pos_of_mem hm
  omega

theorem mem_of_mem_pq_pop {front : List (Nat × Nat)} {p : Nat × Nat} (h : p ∈ pq_pop front) :
    p ∈ front := by
  unfold pq_pop at h
  split at h
  · exact h
  · exact List.mem_of_mem_erase h

theorem mem_pq_pop_or_eq {front : List (Nat × Nat)} {t p : Nat × Nat}
    (h : pq_top front = some t) (hp : p ∈ front) : p ∈ pq_pop front ∨ p = t := by
  by_cases hpt : p = t
  · exact Or.inr hpt
  · left
    rw [pq_pop_eq h]
    exact (List.mem_erase_of_ne hpt).2 hp

/-! ## Weighted searches: paths -/

theorem covered_mono {g : Graph WeighedEdge} {start : Nat} {first second first' second' : List Nat}
    (hv : ∀ v, Visited first v → Visited first' v)
    (hd : ∀ v, second'.getD v UINT32_MAX ≤ second.getD v UINT32_MAX) {p : List Nat} {W : Nat}
    (h : Covered g start first second p W) : Covered g start first' second' p W := by
  induction h with
  | single => exact Covered.single
  | snoc e _ he hnot hvis hle ih =>
    exact Covered.snoc e ih he hnot (hv _ hvis) (le_trans (hd _) hle)

theorem covered_spath {g : Graph WeighedEdge} {start : Nat} {first second : List Nat}
    {p : List Nat} {W : Nat} (h : Covered g start first second p W) : SPath g start p W := by
  induction h with
  | single => exact SPath.single
  | snoc e _ he hnot _ _ ih => exact SPath.snoc e ih he hnot

theorem covered_mem {g : Graph WeighedEdge} {start : Nat} {first second : List Nat}
    (hs : Visited first start) (h0 : second.getD start UINT32_MAX = 0)
    {p : List Nat} {W : Nat} (h : Covered g start first second p W) :
    ∀ x ∈ p, Visited first x ∧ second.getD x UINT32_MAX ≤ W := by
  induction h with
  | single =>
    intro x hx
    rw [List.mem_singleton.1 hx]
    exact ⟨hs, by rw [h0]⟩
  | snoc e _ _ _ hvis hle ih =>
    intro x hx
    rcases List.mem_cons.1 hx with rfl | hx
    · exact ⟨hvis, hle⟩
    · obtain ⟨h1, h2⟩ := ih x hx
      exact ⟨h1, by omega⟩

theorem spath_wwalk_aux {g : Graph WeighedEdge} {start : Nat} {p : List Nat} {W : Nat}
    (h : SPath g start p W) : ∀ v vs, p = v :: vs → WWalk g start v W := by
  induction h with
  | single =>
    intro v vs hp
    simp only [List.cons.injEq] at hp
    rw [← hp.1]
    exact WWalk.refl
  | snoc e _ he _ ih =>
    intro v vs hp
    simp only [List.cons.injEq] at hp
    rw [← hp.1]
    exact WWalk.step e (ih _ _ rfl) he

theorem spath_wwalk {g : Graph WeighedEdge} {start v : Nat} {vs : List Nat} {W : Nat}
    (h : SPath g start (v :: vs) W) : WWalk g start v W :=
  spath_wwalk_aux h v vs rfl

theorem costsBelow_of_pathsBelow {g : Graph WeighedEdge} {start bound : Nat}
    (h : PathsBelow g start bound) : CostsBelow g start bound :=
  fun _ _ _ hp e he => h _ _ (WWalk.step e (spath_wwalk hp) he)

theorem costsBelow_mono {g : Graph WeighedEdge} {start b b' : Nat} (hbb : b ≤ b')
    (h : CostsBelow g start b) : CostsBelow g start b' :=
  fun u vs W hp e he => lt_of_lt_of_le (h u vs W hp e he) hbb

theorem refines_refl (s : SearchState) : Refines s s :=
  ⟨fun _ h => h, fun _ => le_refl _⟩

theorem refines_trans {s t u : SearchState} (h1 : Refines s t) (h2 : Refines t u) :
    Refines s u :=
  ⟨fun v h => h2.1 v (h1.1 v h), fun v => le_trans (h2.2 v) (h1.2 v)⟩

theorem dijkstra_relax_cons (idx : Nat) (e : WeighedEdge) (es : List WeighedEdge)
    (s : SearchState) :
    dijkstra_relax idx (e :: es) s = dijkstra_relax idx es (dijkstra_relax idx [e] s) := by
  simp only [dijkstra_relax]
  split <;> rfl

/-! ## Dijkstra search: relaxing one edge -/

theorem dijkstra_relax_one_upd (idx : Nat) (e : WeighedEdge) (s : SearchState)
    (h : s.second.getD e.dest UINT32_MAX = UINT32_MAX ∨
      (s.second.getD idx UINT32_MAX + e.weight) % 2 ^ 32 < s.second.getD e.dest UINT32_MAX) :
    dijkstra_relax idx [e] s =
      { front := s.front ++ [((s.second.getD idx UINT32_MAX + e.weight) % 2 ^ 32, e.dest)]
        first := s.first.set e.dest idx
        second := s.second.set e.dest ((s.second.getD idx UINT32_MAX + e.weight) % 2 ^ 32) } := by
  simp only [dijkstra_relax, h, if_true]

theorem dijkstra_relax_one_keep (idx : Nat) (e : WeighedEdge) (s : SearchState)
    (h : ¬ (s.second.getD e.dest UINT32_MAX = UINT32_MAX ∨
      (s.second.getD idx UINT32_MAX + e.weight) % 2 ^ 32 < s.second.getD e.dest UINT32_MAX)) :
    dijkstra_relax idx [e] s = s := by
  simp only [dijkstra_relax, h, if_false]

theorem dijInv_start_visited {g : Graph WeighedEdge} (hwf : WellFormed g) {start : Nat}
    {pend : List Nat} {s : SearchState} (h : DijInv g start pend s) : Visited s.first start :=
  ⟨by rw [h.len_first]; exact h.start_lt,
    by rw [h.first_start]; exact lt_size_ne_SIZE_MAX hwf h.start_lt⟩

/-- What relaxing one edge `e` of the visited node `idx` does to a state that satisfies the
loop invariant. -/
theorem dijkstra_relax_one {g : Graph WeighedEdge} (hwf : WellFormed g) {start : Nat}
    (hb : CostsBelow g start (2 ^ 32)) {pend : List Nat} {s : SearchState}
    (hinv : DijInv g start pend s) {idx : Nat} (hidx : Visited s.first idx) {e : WeighedEdge}
    (he : e ∈ g.neighbors idx) :
    DijInv g start pend (dijkstra_relax idx [e] s) ∧ Refines s (dijkstra_relax idx [e] s) ∧
      (dijkstra_relax idx [e] s).second.getD idx UINT32_MAX = s.second.getD idx UINT32_MAX ∧
      Visited (dijkstra_relax idx [e] s).first e.dest ∧
      (dijkstra_relax idx [e] s).second.getD e.dest UINT32_MAX
        ≤ s.second.getD idx UINT32_MAX + e.weight ∧
      (CostsBelow g start UINT32_MAX →
        search_measure (dijkstra_relax idx [e] s) ≤ search_measure s) := by
  obtain ⟨vs, hcov⟩ := hinv.path idx hidx
  have hc0 : s.second.getD idx UINT32_MAX + e.weight < 2 ^ 32 :=
    hb idx vs _ (covered_spath hcov) e he
  have hcost : (s.second.getD idx UINT32_MAX + e.weight) % 2 ^ 32
      = s.second.getD idx UINT32_MAX + e.weight := Nat.mod_eq_of_lt hc0
  have hstartV := dijInv_start_visited hwf hinv
  have hmem := covered_mem hstartV hinv.second_start hcov
  have hnlt : e.dest < g.size := hwf.dest_lt e (mem_neighbors_edges g idx e he)
  by_cases hupd : s.second.getD e.dest UINT32_MAX = UINT32_MAX ∨
      (s.second.getD idx UINT32_MAX + e.weight) % 2 ^ 32 < s.second.getD e.dest UINT32_MAX
  · -- the entry of `e.dest` is rewritten
    rw [dijkstra_relax_one_upd idx e s hupd, hcost]
    rw [hcost] at hupd
    set n := e.dest with hn
    set cost := s.second.getD idx UINT32_MAX + e.weight with hcostdef
    have hle : cost ≤ s.second.getD n UINT32_MAX := by
      rcases hupd with h | h
      · rw [h]; unfold UINT32_MAX; omega
      · exact le_of_lt h
    have hn1 : n < s.first.length := by rw [hinv.len_first]; exact hnlt
    have hn2 : n < s.second.length := by rw [hinv.len_second]; exact hnlt
    have hidxne : idx ≠ SIZE_MAX := by
      apply lt_size_ne_SIZE_MAX hwf
      rw [← hinv.len_first]; exact hidx.1
    have hnewV : Visited (s.first.set n idx) n :=
      ⟨by simpa using hn1, by rw [getD_set_self _ _ _ _ hn1]; exact hidxne⟩
    have hns : n ≠ start := by
      intro h
      rw [h, hinv.second_start] at hupd
      rcases hupd with h' | h'
      · unfold UINT32_MAX at h'; omega
      · omega
    have hVmono : ∀ v, Visited s.first v → Visited (s.first.set n idx) v := by
      intro v hv
      by_cases hvn : v = n
      · rw [hvn]; exact hnewV
      · exact ⟨by simpa using hv.1, by rw [getD_set_ne _ _ _ _ _ (Ne.symm hvn)]; exact hv.2⟩
    have hVold : ∀ v, Visited (s.first.set n idx) v → v ≠ n → Visited s.first v := by
      intro v hv hvn
      exact ⟨by simpa using hv.1, by
        have := hv.2
        rwa [getD_set_ne _ _ _ _ _ (Ne.symm hvn)] at this⟩
    have hsec_n : (s.second.set n cost).getD n UINT32_MAX = cost := getD_set_self _ _ _ _ hn2
    have hsec_ne : ∀ v, v ≠ n →
        (s.second.set n cost).getD v UINT32_MAX = s.second.getD v UINT32_MAX :=
      fun v hvn => getD_set_ne _ _ _ _ _ (Ne.symm hvn)
    have hfst_ne : ∀ v, v ≠ n → pred_of (s.first.set n idx) v = pred_of s.first v :=
      fun v hvn => getD_set_ne _ _ _ _ _ (Ne.symm hvn)
    have hdmono : ∀ v, (s.second.set n cost).getD v UINT32_MAX ≤ s.second.getD v UINT32_MAX := by
      intro v
      by_cases hvn : v = n
      · rw [hvn, hsec_n]; exact hle
      · rw [hsec_ne v hvn]
    have hidx_same : (s.second.set n cost).getD idx UINT32_MAX = s.second.getD idx UINT32_MAX := by
      by_cases hin : idx = n
      · have h1 := hdmono idx
        rw [hin, hsec_n] at h1 ⊢
        rw [hin] at hcostdef
        omega
      · exact hsec_ne idx hin
    refine ⟨?_, ⟨hVmono, hdmono⟩, hidx_same, hnewV, by rw [hsec_n], ?_⟩
    · refine
        { len_first := by simpa using hinv.len_first
          len_second := by simpa using hinv.len_second
          start_lt := hinv.start_lt
          first_start := by
            show (s.first.set n idx).getD start SIZE_MAX = start
            rw [getD_set_ne _ _ _ _ _ hns]; exact hinv.first_start
          second_start := by
            show (s.second.set n cost).getD start UINT32_MAX = 0
            rw [hsec_ne start (Ne.symm hns)]; exact hinv.second_start
          unvis := ?_
          front_vis := ?_
          path := ?_
          pred := ?_
          relaxed := ?_ }
      · intro v hv hnv
        have hvn : v ≠ n := by
          rintro rfl
          exact hnv hnewV
        show (s.second.set n cost).getD v UINT32_MAX = UINT32_MAX
        rw [hsec_ne v hvn]
        exact hinv.unvis v hv (fun h => hnv (hVmono v h))
      · intro p hp
        rcases List.mem_append.1 hp with hp | hp
        · exact hVmono _ (hinv.front_vis p hp)
        · rw [List.mem_singleton.1 hp]; exact hnewV
      · intro v hv
        show ∃ vs', Covered g start (s.first.set n idx) (s.second.set n cost) (v :: vs')
          ((s.second.set n cost).getD v UINT32_MAX)
        by_cases hvn : v = n
        · rw [hvn, hsec_n]
          by_cases hfresh : ¬ Visited s.first n ∨ cost < s.second.getD n UINT32_MAX
          · have hnotin : n ∉ idx :: vs := by
              intro hin
              obtain ⟨h1, h2⟩ := hmem n hin
              rcases hfresh with h | h
              · exact h h1
              · omega
            exact ⟨idx :: vs, Covered.snoc e (covered_mono hVmono hdmono hcov) he hnotin hnewV
              (by rw [hsec_n])⟩
          · have hVn : Visited s.first n := by
              by_contra h
              exact hfresh (Or.inl h)
            have hge : s.second.getD n UINT32_MAX ≤ cost := by
              by_contra h
              exact hfresh (Or.inr (by omega))
            obtain ⟨vs', hc'⟩ := hinv.path n hVn
            have heq : cost = s.second.getD n UINT32_MAX := le_antisymm hle hge
            have hc'' := covered_mono hVmono hdmono hc'
            rw [← heq] at hc''
            exact ⟨vs', hc''⟩
        · rw [hsec_ne v hvn]
          obtain ⟨vs', hc'⟩ := hinv.path v (hVold v hv hvn)
          exact ⟨vs', covered_mono hVmono hdmono hc'⟩
      · intro v hv hvs
        show Visited (s.first.set n idx) (pred_of (s.first.set n idx) v) ∧
          ∃ e' ∈ g.neighbors (pred_of (s.first.set n idx) v), e'.dest = v ∧
            (s.second.set n cost).getD (pred_of (s.first.set n idx) v) UINT32_MAX + e'.weight
              ≤ (s.second.set n cost).getD v UINT32_MAX
        by_cases hvn : v = n
        · have hp : pred_of (s.first.set n idx) n = idx := getD_set_self _ _ _ _ hn1
          rw [hvn, hp, hsec_n, hidx_same]
          exact ⟨hVmono idx hidx, e, he, rfl, le_refl _⟩
        · rw [hfst_ne v hvn, hsec_ne v hvn]
          obtain ⟨h1, e', he', h2, h3⟩ := hinv.pred v (hVold v hv hvn) hvs
          exact ⟨hVmono _ h1, e', he', h2, le_trans (Nat.add_le_add_right (hdmono _) _) h3⟩
      · intro u hu
        by_cases hun : u = n
        · right; left
          exact ⟨(cost, n), List.mem_append.2 (Or.inr (List.mem_singleton.2 rfl)), hun.symm⟩
        · rcases hinv.relaxed u (hVold u hu hun) with h | ⟨p, hp, hpu⟩ | h
          · exact Or.inl h
          · exact Or.inr (Or.inl ⟨p, List.mem_append.2 (Or.inl hp), hpu⟩)
          · right; right
            intro e' he'
            obtain ⟨h1, h2⟩ := h e' he'
            refine ⟨hVmono _ h1, ?_⟩
            show (s.second.set n cost).getD e'.dest UINT32_MAX
              ≤ (s.second.set n cost).getD u UINT32_MAX + e'.weight
            rw [hsec_ne u hun]
            exact le_trans (hdmono _) h2
    · intro hstrict
      have hc1 : cost < UINT32_MAX := hstrict idx vs _ (covered_spath hcov) e he
      have hlt : cost < s.second.getD n UINT32_MAX := by
        rcases hupd with h | h
        · rw [h]; exact hc1
        · exact h
      have hsum := sum_set_add s.second n cost UINT32_MAX hn2
      simp only [search_measure, List.length_append, List.length_singleton]
      omega
  · -- nothing is written
    rw [dijkstra_relax_one_keep idx e s hupd]
    rw [hcost] at hupd
    have hne : s.second.getD e.dest UINT32_MAX ≠ UINT32_MAX := fun h => hupd (Or.inl h)
    have hV : Visited s.first e.dest := by
      by_contra h
      exact hne (hinv.unvis e.dest hnlt h)
    exact ⟨hinv, refines_refl s, rfl, hV, by
      by_contra h
      exact hupd (Or.inr (by omega)), fun _ => le_refl _⟩

/-! ## Dijkstra search: the loops -/

theorem dijkstra_relax_inv {g : Graph WeighedEdge} (hwf : WellFormed g) {start : Nat}
    (hb : CostsBelow g start (2 ^ 32)) {pend : List Nat} {idx : Nat} :
    ∀ (es : List WeighedEdge) (s : SearchState), DijInv g start pend s → Visited s.first idx →
      (∀ e ∈ es, e ∈ g.neighbors idx) →
      DijInv g start pend (dijkstra_relax idx es s) ∧ Refines s (dijkstra_relax idx es s) ∧
      (dijkstra_relax idx es s).second.getD idx UINT32_MAX = s.second.getD idx UINT32_MAX ∧
      (∀ e ∈ es, Visited (dijkstra_relax idx es s).first e.dest ∧
        (dijkstra_relax idx es s).second.getD e.dest UINT32_MAX
          ≤ s.second.getD idx UINT32_MAX + e.weight) ∧
      (CostsBelow g start UINT32_MAX →
        search_measure (dijkstra_relax idx es s) ≤ search_measure s) := by
  intro es
  induction es with
  | nil =>
    intro s hinv _ _
    exact ⟨hinv, refines_refl s, rfl, fun e he => absurd he (List.not_mem_nil e),
      fun _ => le_refl _⟩
  | cons e es ih =>
    intro s hinv hidx hes
    have he := hes e (List.mem_cons_self _ _)
    obtain ⟨a1, a2, a3, a4, a5, a6⟩ := dijkstra_relax_one hwf hb hinv hidx he
    obtain ⟨b1, b2, b3, b4, b5⟩ := ih (dijkstra_relax idx [e] s) a1 (a2.1 idx hidx)
      (fun e' h' => hes e' (List.mem_cons_of_mem _ h'))
    rw [dijkstra_relax_cons]
    refine ⟨b1, refines_trans a2 b2, by rw [b3, a3], ?_, fun h => le_trans (b5 h) (a6 h)⟩
    intro e' he'
    rcases List.mem_cons.1 he' with rfl | he'
    · exact ⟨b2.1 _ a4, le_trans (b2.2 _) a5⟩
    · have := b4 e' he'
      rw [a3] at this
      exact this

theorem dijkstra_step_inr {g : Graph WeighedEdge} {early_exit : Nat → Nat → Bool}
    {s : SearchState} {r : List Nat × List Nat} (h : dijkstra_step g early_exit s = Sum.inr r) :
    r = s.route ∧
      (s.front = [] ∨ ∃ w idx, pq_top s.front = some (w, idx) ∧ early_exit idx w = true) := by
  unfold dijkstra_step at h
  split at h
  · rename_i htop
    exact ⟨(Sum.inr.inj h).symm, Or.inl (pq_top_eq_none htop)⟩
  · rename_i w idx htop
    split at h
    · rename_i hee
      exact ⟨(Sum.inr.inj h).symm, Or.inr ⟨w, idx, htop, hee⟩⟩
    · exact absurd h (by simp)

theorem dijkstra_step_inl {g : Graph WeighedEdge} {early_exit : Nat → Nat → Bool}
    {s t : SearchState} (h : dijkstra_step g early_exit s = Sum.inl t) :
    ∃ w idx, pq_top s.front = some (w, idx) ∧ early_exit idx w = false ∧
      t = dijkstra_relax idx (g.neighbors idx) { s with front := pq_pop s.front } := by
  unfold dijkstra_step at h
  split at h
  · exact absurd h (by simp)
  · rename_i w idx htop
    split at h
    · exact absurd h (by simp)
    · rename_i hee
      exact ⟨w, idx, htop, by simpa using hee, (Sum.inl.inj h).symm⟩

theorem dijkstra_step_inv {g : Graph WeighedEdge} (hwf : WellFormed g) {start : Nat}
    (hb : CostsBelow g start (2 ^ 32)) {early_exit : Nat → Nat → Bool} {s t : SearchState}
    (hinv : DijInv g start [] s) (h : dijkstra_step g early_exit s = Sum.inl t) :
    DijInv g start [] t ∧
      (CostsBelow g start UINT32_MAX → search_measure t < search_measure s) := by
  obtain ⟨w, idx, htop, _, rfl⟩ := dijkstra_step_inl h
  have hidx : Visited s.first idx := hinv.front_vis _ (pq_top_mem htop)
  have hpop : DijInv g start [idx] { s with front := pq_pop s.front } :=
    { len_first := hinv.len_first
      len_second := hinv.len_second
      start_lt := hinv.start_lt
      first_start := hinv.first_start
      second_start := hinv.second_start
      unvis := hinv.unvis
      front_vis := fun p hp => hinv.front_vis p (mem_of_mem_pq_pop hp)
      path := hinv.path
      pred := hinv.pred
      relaxed := by
        intro u hu
        rcases hinv.relaxed u hu with h | ⟨p, hp, hpu⟩ | h
        · exact absurd h (List.not_mem_nil u)
        · rcases mem_pq_pop_or_eq htop hp with h' | h'
          · exact Or.inr (Or.inl ⟨p, h', hpu⟩)
          · left
            rw [← hpu, h']
            exact List.mem_singleton.2 rfl
        · exact Or.inr (Or.inr h) }
  obtain ⟨c1, _, c3, c4, c5⟩ := dijkstra_relax_inv hwf hb (g.neighbors idx) _ hpop hidx
    (fun e he => he)
  refine ⟨{ c1 with relaxed := ?_ }, ?_⟩
  · intro u hu
    rcases c1.relaxed u hu with h | h | h
    · right; right
      rw [List.mem_singleton.1 h]
      intro e he
      have := c4 e he
      rw [c3]
      exact this
    · exact Or.inr (Or.inl h)
    · exact Or.inr (Or.inr h)
  · intro hstrict
    have h1 := c5 hstrict
    have h2 := pq_pop_length htop
    have h3 : search_measure { s with front := pq_pop s.front } + 1 = search_measure s := by
      simp only [search_measure]
      omega
    omega

theorem dijInv_init {g : Graph WeighedEdge} (hwf : WellFormed g) {start : Nat}
    (hs : start < g.size) : DijInv g start [] (search_init g.size start) := by
  have hself : ((List.replicate g.size SIZE_MAX).set start start).getD start SIZE_MAX = start :=
    getD_set_self _ _ _ _ (by simpa using hs)
  have hzero : ((List.replicate g.size UINT32_MAX).set start 0).getD start UINT32_MAX = 0 :=
    getD_set_self _ _ _ _ (by simpa using hs)
  have honly : ∀ v, Visited ((List.replicate g.size SIZE_MAX).set start start) v → v = start := by
    intro v hv
    by_contra hne
    apply hv.2
    rw [getD_set_ne _ _ _ _ _ (Ne.symm hne)]
    exact getD_replicate_lt _ _ _ _ (by simpa using hv.1)
  have hstartV : Visited ((List.replicate g.size SIZE_MAX).set start start) start :=
    ⟨by simpa using hs, by rw [hself]; exact lt_size_ne_SIZE_MAX hwf hs⟩
  refine
    { len_first := by simp [search_init]
      len_second := by simp [search_init]
      start_lt := hs
      first_start := hself
      second_start := hzero
      unvis := ?_
      front_vis := ?_
      path := ?_
      pred := fun v hv hne => absurd (honly v hv) hne
      relaxed := ?_ }
  · intro v hv hnv
    have hne : v ≠ start := by
      rintro rfl
      exact hnv hstartV
    show ((List.replicate g.size UINT32_MAX).set start 0).getD v UINT32_MAX = UINT32_MAX
    rw [getD_set_ne _ _ _ _ _ (Ne.symm hne)]
    exact getD_replicate_lt _ _ _ _ hv
  · intro p hp
    have : p = (0, start) := by simpa [search_init] using hp
    rw [this]
    exact hstartV
  · intro v hv
    have := honly v hv
    subst this
    refine ⟨[], ?_⟩
    show Covered g v _ _ [v] (((List.replicate g.size UINT32_MAX).set v 0).getD v UINT32_MAX)
    rw [hzero]
    exact Covered.single
  · intro u hu
    right; left
    exact ⟨(0, start), by simp [search_init], (honly u hu).symm⟩

theorem dijkstra_loop_inv {g : Graph WeighedEdge} (hwf : WellFormed g) {start : Nat}
    (hb : CostsBelow g start (2 ^ 32)) (early_exit : Nat → Nat → Bool) :
    ∀ (fuel : Nat) (s : SearchState) (r : List Nat × List Nat), DijInv g start [] s →
      dijkstra_loop g early_exit fuel s = some r →
      ∃ t, DijInv g start [] t ∧ r = t.route ∧
        (t.front = [] ∨ ∃ w idx, pq_top t.front = some (w, idx) ∧ early_exit idx w = true) := by
  intro fuel
  induction fuel with
  | zero => intro s r _ h; simp [dijkstra_loop] at h
  | succ fuel ih =>
    intro s r hinv h
    simp only [dijkstra_loop] at h
    split at h
    · rename_i r' hstep
      obtain ⟨h1, h2⟩ := dijkstra_step_inr hstep
      exact ⟨s, hinv, by rw [← Option.some.inj h, h1], h2⟩
    · rename_i s' hstep
      exact ih s' r (dijkstra_step_inv hwf hb hinv hstep).1 h

theorem dijkstra_loop_total {g : Graph WeighedEdge} (hwf : WellFormed g) {start : Nat}
    (hb : CostsBelow g start UINT32_MAX) (early_exit : Nat → Nat → Bool) :
    ∀ (fuel : Nat) (s : SearchState), DijInv g start [] s → search_measure s < fuel →
      ∃ r, dijkstra_loop g early_exit fuel s = some r := by
  have hb' : CostsBelow g start (2 ^ 32) := costsBelow_mono (by unfold UINT32_MAX; omega) hb
  intro fuel
  induction fuel with
  | zero => intro s _ h; omega
  | succ fuel ih =>
    intro s hinv hm
    simp only [dijkstra_loop]
    cases hstep : dijkstra_step g early_exit s with
    | inr r => exact ⟨r, rfl⟩
    | inl s' =>
      obtain ⟨h1, h2⟩ := dijkstra_step_inv hwf hb' hinv hstep
      have := h2 hb
      exact ih s' h1 (by omega)

theorem dijkstra_loop_fuel_succ (g : Graph WeighedEdge) (early_exit : Nat → Nat → Bool) :
    ∀ (fuel : Nat) (s : SearchState) (r : List Nat × List Nat),
      dijkstra_loop g early_exit fuel s = some r →
      dijkstra_loop g early_exit (fuel + 1) s = some r := by
  intro fuel
  induction fuel with
  | zero => intro s r h; simp [dijkstra_loop] at h
  | succ fuel ih =>
    intro s r h
    rw [dijkstra_loop] at h ⊢
    cases hstep : dijkstra_step g early_exit s with
    | inr r' => rw [hstep] at h; exact h
    | inl s' => rw [hstep] at h; exact ih s' r h

theorem dijkstra_loop_unique (g : Graph WeighedEdge) (early_exit : Nat → Nat → Bool)
    (s : SearchState) (r r' : List Nat × List Nat) (fuel fuel' : Nat)
    (h : dijkstra_loop g early_exit fuel s = some r)
    (h' : dijkstra_loop g early_exit fuel' s = some r') : r = r' := by
  have key : ∀ (a b : Nat) (x : List Nat × List Nat), a ≤ b →
      dijkstra_loop g early_exit a s = some x → dijkstra_loop g early_exit b s = some x := by
    intro a b x hab hx
    induction hab with
    | refl => exact hx
    | step _ ih => exact dijkstra_loop_fuel_succ g early_exit _ _ _ ih
  have h1 := key fuel (max fuel fuel') r (le_max_left _ _) h
  have h2 := key fuel' (max fuel fuel') r' (le_max_right _ _) h'
  rw [h1] at h2
  exact Option.some.inj h2

/-! ## Dijkstra search: the returned tables -/

theorem walk_wwalk {g : Graph WeighedEdge} {s v n : Nat} (h : Walk g s v n) :
    ∃ W, WWalk g s v W := by
  induction h with
  | refl => exact ⟨0, WWalk.refl⟩
  | step _ hedge ih =>
    obtain ⟨W, hW⟩ := ih
    obtain ⟨e, he, rfl⟩ := hedge
    exact ⟨W + e.weight, WWalk.step e hW he⟩

theorem wwalk_reachable {g : Graph WeighedEdge} {s v W : Nat} (h : WWalk g s v W) :
    Reachable g s v := by
  induction h with
  | refl => exact ⟨0, Walk.refl⟩
  | step e _ he ih =>
    obtain ⟨n, hn⟩ := ih
    exact ⟨n + 1, Walk.step hn ⟨e, he, rfl⟩⟩

theorem dijkstra_final_reach {g : Graph WeighedEdge} (hwf : WellFormed g) {start : Nat}
    {t : SearchState} (hinv : DijInv g start [] t) (hempty : t.front = []) :
    ∀ v W, WWalk g start v W → Visited t.first v ∧ t.second.getD v UINT32_MAX ≤ W := by
  intro v W hw
  induction hw with
  | refl => exact ⟨dijInv_start_visited hwf hinv, by rw [hinv.second_start]⟩
  | step e _ he ih =>
    rcases hinv.relaxed _ ih.1 with h | ⟨p, hp, _⟩ | h
    · exact absurd h (List.not_mem_nil _)
    · rw [hempty] at hp
      exact absurd hp (List.not_mem_nil _)
    · obtain ⟨h1, h2⟩ := h e he
      exact ⟨h1, by have := ih.2; omega⟩

theorem dijkstra_final_min {g : Graph WeighedEdge} (hwf : WellFormed g) {start : Nat}
    {t : SearchState} (hinv : DijInv g start [] t) (hempty : t.front = []) {v : Nat}
    (hv : Visited t.first v) : IsMinCost g start v (t.second.getD v UINT32_MAX) := by
  obtain ⟨vs, hcov⟩ := hinv.path v hv
  exact ⟨spath_wwalk (covered_spath hcov),
    fun W hW => (dijkstra_final_reach hwf hinv hempty v W hW).2⟩

theorem dijkstra_final_pred {g : Graph WeighedEdge} {start : Nat}
    {t : SearchState} (hinv : DijInv g start [] t) (hempty : t.front = []) {v : Nat}
    (hv : Visited t.first v) (hne : v ≠ start) :
    ∃ e ∈ g.neighbors (pred_of t.first v), e.dest = v ∧
      t.second.getD v UINT32_MAX = t.second.getD (pred_of t.first v) UINT32_MAX + e.weight := by
  obtain ⟨h1, e, he, h2, h3⟩ := hinv.pred v hv hne
  refine ⟨e, he, h2, le_antisymm ?_ h3⟩
  rcases hinv.relaxed _ h1 with h | ⟨p, hp, _⟩ | h
  · exact absurd h (List.not_mem_nil _)
  · rw [hempty] at hp
    exact absurd hp (List.not_mem_nil _)
  · have := (h e he).2
    rw [h2] at this
    exact this

theorem dijkstra_never_exit_final {g : Graph WeighedEdge} (hwf : WellFormed g) {start : Nat}
    (hs : start < g.size) (hb : CostsBelow g start (2 ^ 32)) {fuel : Nat}
    {r : List Nat × List Nat} (h : dijkstra_search_all fuel g start = some r) :
    ∃ t, DijInv g start [] t ∧ r = t.route ∧ t.front = [] := by
  obtain ⟨t, h1, h2, h3⟩ := dijkstra_loop_inv hwf hb _ fuel _ r (dijInv_init hwf hs) h
  refine ⟨t, h1, h2, ?_⟩
  rcases h3 with h3 | ⟨w, idx, _, h4⟩
  · exact h3
  · simp at h4

theorem dijkstra_all_returns {g : Graph WeighedEdge} (hwf : WellFormed g) {start : Nat}
    (hs : start < g.size) (hb : CostsBelow g start UINT32_MAX) :
    ∃ fuel r, dijkstra_search_all fuel g start = some r := by
  obtain ⟨r, hr⟩ := dijkstra_loop_total hwf hb (fun _ _ => false)
    (search_measure (search_init g.size start) + 1) _ (dijInv_init hwf hs) (Nat.lt_succ_self _)
  exact ⟨search_measure (search_init g.size start) + 1, r, hr⟩

/-! ## A bound that is easy to check -/

theorem spath_bound {g : Graph WeighedEdge} (hwf : WellFormed g) {start : Nat}
    (hs : start < g.size) {m : Nat} (hm : ∀ e ∈ g.edges, e.weight ≤ m) {p : List Nat} {W : Nat}
    (h : SPath g start p W) :
    p.Nodup ∧ (∀ x ∈ p, x < g.size) ∧ W + m ≤ p.length * m := by
  induction h with
  | single =>
    refine ⟨List.nodup_singleton _, ?_, by simp⟩
    intro x hx
    rw [List.mem_singleton.1 hx]; exact hs
  | snoc e _ he hnot ih =>
    obtain ⟨h1, h2, h3⟩ := ih
    have hmem := mem_neighbors_edges g _ e he
    refine ⟨List.nodup_cons.2 ⟨hnot, h1⟩, ?_, ?_⟩
    · intro x hx
      rcases List.mem_cons.1 hx with rfl | hx
      · exact hwf.dest_lt e hmem
      · exact h2 x hx
    · have hw := hm e hmem
      have hmul : ∀ k : Nat, (k + 1) * m = k * m + m := fun k => Nat.succ_mul k m
      simp only [List.length_cons, hmul] at h3 ⊢
      omega

theorem costsBelow_of_size_mul {g : Graph WeighedEdge} (hwf : WellFormed g) {start : Nat}
    (hs : start < g.size) {m bound : Nat} (hm : ∀ e ∈ g.edges, e.weight ≤ m)
    (hlt : g.size * m < bound) : CostsBelow g start bound := by
  intro u vs W hp e he
  obtain ⟨h1, h2, h3⟩ := spath_bound hwf hs hm hp
  have hsub : (u :: vs) ⊆ List.range g.size := fun x hx => List.mem_range.2 (h2 x hx)
  have hlen : (u :: vs).length ≤ g.size := by
    have := (List.Nodup.subperm h1 hsub).length_le
    simpa using this
  have hw := hm e (mem_neighbors_edges g u e he)
  have : (u :: vs).length * m ≤ g.size * m := Nat.mul_le_mul_right m hlen
  omega

theorem g2_wellFormed : WellFormed g2 :=
  ⟨by decide, by decide, by decide, by decide, by decide⟩

theorem g2_costsBelow : CostsBelow g2 0 UINT32_MAX :=
  costsBelow_of_size_mul (m := 14) g2_wellFormed (by decide) (by decide) (by decide)

/-! ## The graph with a path of weight `2 ^ 32 - 1` -/

theorem gloop_wellFormed : WellFormed gloop :=
  ⟨by decide, by decide, by decide, by decide, by decide⟩

theorem gloop_paths : PathsBelow gloop 0 (2 ^ 32) := by
  have key : ∀ v W, WWalk gloop 0 v W → (v = 0 ∧ W = 0) ∨ (v = 1 ∧ W = 4294967295) := by
    intro v W h
    induction h with
    | refl => exact Or.inl ⟨rfl, rfl⟩
    | step e _ he ih =>
      rcases ih with ⟨rfl, rfl⟩ | ⟨rfl, rfl⟩
      · have : e = ⟨1, 4294967295⟩ := by simpa [Graph.neighbors, gloop] using he
        subst this
        exact Or.inr ⟨rfl, rfl⟩
      · have : e = ⟨1, 0⟩ := by simpa [Graph.neighbors, gloop] using he
        subst this
        exact Or.inr ⟨rfl, rfl⟩
  intro v W h
  rcases key v W h with ⟨_, rfl⟩ | ⟨_, rfl⟩ <;> norm_num

theorem gloop_step_first :
    dijkstra_step gloop (fun _ _ => false) (search_init gloop.size 0)
      = Sum.inl { front := [(4294967295, 1)], first := [0, 0], second := [0, 4294967295] } := by
  decide

theorem gloop_step_second :
    dijkstra_step gloop (fun _ _ => false)
        { front := [(4294967295, 1)], first := [0, 0], second := [0, 4294967295] }
      = Sum.inl gloop_state := by
  decide

theorem gloop_step_state :
    dijkstra_step gloop (fun _ _ => false) gloop_state = Sum.inl gloop_state := by
  decide

/-! ## Dijkstra search: passes and results -/

theorem dijkstra_loop_trace {g : Graph WeighedEdge} :
    ∀ (fuel : Nat) (s : SearchState) (r : List Nat × List Nat),
      dijkstra_loop g (fun _ _ => false) fuel s = some r →
      ∃ n t, dijkstra_trace g (fun _ _ => false) n s = some t ∧ t.front = [] ∧ r = t.route := by
  intro fuel
  induction fuel with
  | zero => intro s r h; simp [dijkstra_loop] at h
  | succ fuel ih =>
    intro s r h
    rw [dijkstra_loop] at h
    cases hstep : dijkstra_step g (fun _ _ => false) s with
    | inr r' =>
      rw [hstep] at h
      obtain ⟨h1, h2⟩ := dijkstra_step_inr hstep
      refine ⟨0, s, rfl, ?_, by rw [← Option.some.inj h, h1]⟩
      rcases h2 with h2 | ⟨_, _, _, h3⟩
      · exact h2
      · simp at h3
    | inl s' =>
      rw [hstep] at h
      obtain ⟨n, t, h1, h2, h3⟩ := ih s' r h
      exact ⟨n + 1, t, by rw [dijkstra_trace, hstep]; exact h1, h2, h3⟩

theorem dijkstra_trace_loop {g : Graph WeighedEdge} {early_exit : Nat → Nat → Bool} :
    ∀ (n : Nat) (s t : SearchState), dijkstra_trace g early_exit n s = some t → t.front = [] →
      dijkstra_loop g early_exit (n + 1) s = some t.route := by
  intro n
  induction n with
  | zero =>
    intro s t h hempty
    have hst : s = t := by simpa [dijkstra_trace] using h
    subst hst
    simp [dijkstra_loop, dijkstra_step, hempty, pq_top]
  | succ n ih =>
    intro s t h hempty
    rw [dijkstra_trace] at h
    rw [dijkstra_loop]
    cases hstep : dijkstra_step g early_exit s with
    | inr r' => rw [hstep] at h; simp at h
    | inl s' =>
      rw [hstep] at h
      exact ih s' t h hempty

theorem dijkstra_loop_inl {g : Graph WeighedEdge} {early_exit : Nat → Nat → Bool}
    {s s' : SearchState} (h : dijkstra_step g early_exit s = Sum.inl s') (fuel : Nat) :
    dijkstra_loop g early_exit (fuel + 1) s = dijkstra_loop g early_exit fuel s' := by
  simp only [dijkstra_loop, h]

theorem dijkstra_trace_inl {g : Graph WeighedEdge} {early_exit : Nat → Nat → Bool}
    {s s' : SearchState} (h : dijkstra_step g early_exit s = Sum.inl s') (n : Nat) :
    dijkstra_trace g early_exit (n + 1) s = dijkstra_trace g early_exit n s' := by
  simp only [dijkstra_trace, h]

theorem gloop_loop_none : ∀ fuel, dijkstra_loop gloop (fun _ _ => false) fuel gloop_state = none := by
  intro fuel
  induction fuel with
  | zero => rfl
  | succ fuel ih => rw [dijkstra_loop_inl gloop_step_state]; exact ih

theorem gloop_trace_state :
    ∀ n, dijkstra_trace gloop (fun _ _ => false) n gloop_state = some gloop_state := by
  intro n
  induction n with
  | zero => rfl
  | succ n ih => rw [dijkstra_trace_inl gloop_step_state]; exact ih

/-- C2, as stated, fails: on `gloop` every path from node `0` has a weight that fits 32 bits,
and so has every cost the search can compute, yet `dijkstra_search` without early exit returns
no table, whatever the number of passes. -/
theorem dijkstra_gloop_no_table :
    WellFormed gloop ∧ 0 < gloop.size ∧ PathsBelow gloop 0 (2 ^ 32) ∧
      CostsBelow gloop 0 (2 ^ 32) ∧ ∀ fuel, dijkstra_search_all fuel gloop 0 = none := by
  refine ⟨gloop_wellFormed, by decide, gloop_paths, costsBelow_of_pathsBelow gloop_paths, ?_⟩
  intro fuel
  show dijkstra_loop gloop (fun _ _ => false) fuel (search_init gloop.size 0) = none
  cases fuel with
  | zero => rfl
  | succ fuel =>
    rw [dijkstra_loop_inl gloop_step_first]
    cases fuel with
    | zero => rfl
    | succ fuel =>
      rw [dijkstra_loop_inl gloop_step_second]
      exact gloop_loop_none fuel

/-- C2, amended: when every cost the search can compute stays strictly below the mark
`2 ^ 32 - 1`, `dijkstra_search` without early exit returns, and in every table it returns each
node reachable from `start` is visited and its `distance` entry is the least total weight of a
path from `start` to it. -/
theorem dijkstra_min_cost (g : Graph WeighedEdge) (start : Nat) (hwf : WellFormed g)
    (hs : start < g.size) (hb : CostsBelow g start UINT32_MAX) :
    (∃ fuel r, dijkstra_search_all fuel g start = some r) ∧
    ∀ fuel r, dijkstra_search_all fuel g start = some r →
      ∀ v, Reachable g start v →
        Visited r.1 v ∧ v < r.2.length ∧ IsMinCost g start v (r.2.getD v UINT32_MAX) := by
  have hb' : CostsBelow g start (2 ^ 32) := costsBelow_mono (by unfold UINT32_MAX; omega) hb
  refine ⟨dijkstra_all_returns hwf hs hb, ?_⟩
  intro fuel r hr v hv
  obtain ⟨t, hinv, rfl, hempty⟩ := dijkstra_never_exit_final hwf hs hb' hr
  obtain ⟨n, hn⟩ := hv
  obtain ⟨W, hW⟩ := walk_wwalk hn
  have hvis := (dijkstra_final_reach hwf hinv hempty v W hW).1
  refine ⟨hvis, ?_, dijkstra_final_min hwf hinv hempty hvis⟩
  show v < t.second.length
  rw [hinv.len_second, ← hinv.len_first]
  exact hvis.1

theorem dijkstra_min_cost_g2 :
    WellFormed g2 ∧ 0 < g2.size ∧ CostsBelow g2 0 UINT32_MAX ∧
    ((∃ fuel r, dijkstra_search_all fuel g2 0 = some r) ∧
    ∀ fuel r, dijkstra_search_all fuel g2 0 = some r →
      ∀ v, Reachable g2 0 v →
        Visited r.1 v ∧ v < r.2.length ∧ IsMinCost g2 0 v (r.2.getD v UINT32_MAX)) :=
  ⟨g2_wellFormed, by decide, g2_costsBelow,
    dijkstra_min_cost g2 0 g2_wellFormed (by decide) g2_costsBelow⟩

/-- C7: when no cost the search can compute overflows 32 bits, every table pair returned by
`dijkstra_search` without early exit has `start` as its own predecessor at distance `0`, and
every other node `v` reachable from `start` is visited and has an edge from `predecessor[v]`
to `v` of some weight `w` with `distance[v] = distance[predecessor[v]] + w`.  The tables are
returned whenever the costs stay strictly below `2 ^ 32 - 1`. -/
theorem dijkstra_pred_edge (g : Graph WeighedEdge) (start : Nat) (hwf : WellFormed g)
    (hs : start < g.size) (hb : CostsBelow g start (2 ^ 32)) :
    (CostsBelow g start UINT32_MAX → ∃ fuel r, dijkstra_search_all fuel g start = some r) ∧
    ∀ fuel r, dijkstra_search_all fuel g start = some r →
      r.1.getD start SIZE_MAX = start ∧ r.2.getD start UINT32_MAX = 0 ∧
      ∀ v, Reachable g start v → v ≠ start →
        Visited r.1 v ∧ v < r.2.length ∧
        ∃ e ∈ g.neighbors (r.1.getD v SIZE_MAX), e.dest = v ∧
          r.2.getD v UINT32_MAX = r.2.getD (r.1.getD v SIZE_MAX) UINT32_MAX + e.weight := by
  refine ⟨fun hstrict => dijkstra_all_returns hwf hs hstrict, ?_⟩
  intro fuel r hr
  obtain ⟨t, hinv, rfl, hempty⟩ := dijkstra_never_exit_final hwf hs hb hr
  refine ⟨hinv.first_start, hinv.second_start, ?_⟩
  intro v hv hne
  obtain ⟨n, hn⟩ := hv
  obtain ⟨W, hW⟩ := walk_wwalk hn
  have hvis := (dijkstra_final_reach hwf hinv hempty v W hW).1
  refine ⟨hvis, ?_, dijkstra_final_pred hinv hempty hvis hne⟩
  show v < t.second.length
  rw [hinv.len_second, ← hinv.len_first]
  exact hvis.1

theorem dijkstra_pred_edge_g2 :
    WellFormed g2 ∧ 0 < g2.size ∧ CostsBelow g2 0 (2 ^ 32) ∧
    ((CostsBelow g2 0 UINT32_MAX → ∃ fuel r, dijkstra_search_all fuel g2 0 = some r) ∧
    ∀ fuel r, dijkstra_search_all fuel g2 0 = some r →
      r.1.getD 0 SIZE_MAX = 0 ∧ r.2.getD 0 UINT32_MAX = 0 ∧
      ∀ v, Reachable g2 0 v → v ≠ 0 →
        Visited r.1 v ∧ v < r.2.length ∧
        ∃ e ∈ g2.neighbors (r.1.getD v SIZE_MAX), e.dest = v ∧
          r.2.getD v UINT32_MAX = r.2.getD (r.1.getD v SIZE_MAX) UINT32_MAX + e.weight) :=
  ⟨g2_wellFormed, by decide,
    costsBelow_mono (by unfold UINT32_MAX; omega) g2_costsBelow,
    dijkstra_pred_edge g2 0 g2_wellFormed (by decide)
      (costsBelow_mono (by unfold UINT32_MAX; omega) g2_costsBelow)⟩

/-- C10, as stated, fails: on `gloop` every path from node `0` has a weight that fits 32 bits,
and so has every cost the search can compute, yet after any number of passes of
`dijkstra_search` without early exit the frontier still holds an entry. -/
theorem dijkstra_gloop_frontier_never_empty :
    WellFormed gloop ∧ 0 < gloop.size ∧ PathsBelow gloop 0 (2 ^ 32) ∧
      CostsBelow gloop 0 (2 ^ 32) ∧
      ∀ n, ∃ s, dijkstra_trace gloop (fun _ _ => false) n (search_init gloop.size 0) = some s ∧
        s.front ≠ [] := by
  refine ⟨gloop_wellFormed, by decide, gloop_paths, costsBelow_of_pathsBelow gloop_paths, ?_⟩
  intro n
  cases n with
  | zero => exact ⟨_, rfl, by decide⟩
  | succ n =>
    cases n with
    | zero =>
      refine ⟨_, by rw [dijkstra_trace_inl gloop_step_first]; rfl, by decide⟩
    | succ n =>
      refine ⟨gloop_state, ?_, by decide⟩
      rw [dijkstra_trace_inl gloop_step_first, dijkstra_trace_inl gloop_step_second]
      exact gloop_trace_state n

/-- C10, amended: when every cost the search can compute stays strictly below the mark
`2 ^ 32 - 1`, `dijkstra_search` with the never-exit predicate ends: after some number `n` of
passes the frontier is empty, and the search returns the tables of that state. -/
theorem dijkstra_terminates (g : Graph WeighedEdge) (start : Nat) (hwf : WellFormed g)
    (hs : start < g.size) (hb : CostsBelow g start UINT32_MAX) :
    ∃ n s, dijkstra_trace g (fun _ _ => false) n (search_init g.size start) = some s ∧
      s.front = [] ∧ dijkstra_search_all (n + 1) g start = some s.route := by
  obtain ⟨fuel, r, hr⟩ := dijkstra_all_returns hwf hs hb
  obtain ⟨n, t, h1, h2, _⟩ := dijkstra_loop_trace fuel _ r hr
  exact ⟨n, t, h1, h2, dijkstra_trace_loop n _ t h1 h2⟩

theorem dijkstra_terminates_g2 :
    WellFormed g2 ∧ 0 < g2.size ∧ CostsBelow g2 0 UINT32_MAX ∧
    ∃ n s, dijkstra_trace g2 (fun _ _ => false) n (search_init g2.size 0) = some s ∧
      s.front = [] ∧ dijkstra_search_all (n + 1) g2 0 = some s.route :=
  ⟨g2_wellFormed, by decide, g2_costsBelow,
    dijkstra_terminates g2 0 g2_wellFormed (by decide) g2_costsBelow⟩

theorem edge_range_eq_neighbors (g : Graph E) (c : Nat) : g.edge_range c = g.neighbors c := rfl

/-! ## The frontier pops the largest pending pair -/

theorem dijkstra_result_min {g : Graph WeighedEdge} (hwf : WellFormed g) {start : Nat}
    (hs : start < g.size) (hb : CostsBelow g start (2 ^ 32)) {fuel : Nat}
    {r : List Nat × List Nat} (h : dijkstra_search_all fuel g start = some r) {v : Nat}
    (hv : Reachable g start v) : IsMinCost g start v (r.2.getD v UINT32_MAX) := by
  obtain ⟨t, hinv, rfl, hempty⟩ := dijkstra_never_exit_final hwf hs hb h
  obtain ⟨n, hn⟩ := hv
  obtain ⟨W, hW⟩ := walk_wwalk hn
  exact dijkstra_final_min hwf hinv hempty (dijkstra_final_reach hwf hinv hempty v W hW).1

theorem g2_search_all :
    dijkstra_search_all 11 g2 0
      = some ([0, 0, 1, 2, 3, 2, 5, 0, 2], [0, 4, 12, 19, 28, 16, 18, 8, 14]) := by
  decide

theorem g2_reach_8 : Reachable g2 0 8 :=
  ⟨2, Walk.step (Walk.step Walk.refl ⟨⟨7, 8⟩, by decide, rfl⟩) ⟨⟨8, 7⟩, by decide, rfl⟩⟩

theorem g2_min_cost_8 : IsMinCost g2 0 8 14 :=
  dijkstra_result_min g2_wellFormed (by decide)
    (costsBelow_mono (by unfold UINT32_MAX; omega) g2_costsBelow) g2_search_all g2_reach_8

theorem zero_admissible (g : Graph WeighedEdge) (goal : Nat) : Admissible g goal (fun _ => 0) :=
  fun _ _ _ => Nat.zero_le _

theorem zero_consistent (g : Graph WeighedEdge) (goal : Nat) : Consistent g goal (fun _ => 0) :=
  ⟨rfl, fun _ _ _ => Nat.zero_le _⟩

/-- C3 on the test graph `g2` from node `0`: at the second pass of `dijkstra_search` the
frontier holds `(4, 1)` and `(8, 7)`; `top()` is `(8, 7)`, and `(4, 1)`, of smaller cost, stays
in the frontier after the pop. -/
theorem dijkstra_g2_pops_largest :
    ∃ s, dijkstra_trace g2 (fun _ _ => false) 1 (search_init g2.size 0) = some s ∧
      s.front = [(4, 1), (8, 7)] ∧ pq_top s.front = some (8, 7) ∧
      (4, 1) ∈ pq_pop s.front ∧ (4, 1).1 < (8, 7).1 :=
  ⟨_, rfl, by decide, by decide, by decide, by decide⟩

/-- C4 on the test graph `g2` from node `0`: the third pop takes node `8` with cost `15` while
`distance[8]` is `15`, the search that exits on node `8` returns that `15`, the least total
weight of a path to node `8` is `14`, and the search without early exit later lowers
`distance[8]` to `14`. -/
theorem dijkstra_g2_pop_not_final :
    WellFormed g2 ∧ CostsBelow g2 0 UINT32_MAX ∧
    (∃ s, dijkstra_trace g2 (fun _ _ => false) 2 (search_init g2.size 0) = some s ∧
      pq_top s.front = some (15, 8) ∧ s.second.getD 8 UINT32_MAX = 15) ∧
    IsMinCost g2 0 8 14 ∧
    (∃ r, dijkstra_search 3 g2 0 (fun c _ => decide (c = 8)) = some r ∧
      r.2.getD 8 UINT32_MAX = 15) ∧
    (∃ r, dijkstra_search_all 11 g2 0 = some r ∧ r.2.getD 8 UINT32_MAX = 14) :=
  ⟨g2_wellFormed, g2_costsBelow, ⟨_, rfl, by decide, by decide⟩, g2_min_cost_8,
    ⟨_, rfl, by decide⟩, ⟨_, g2_search_all, by decide⟩⟩

/-- C5 on the test graph `g2` with start `0`, goal `8` and the zero heuristic, which is
admissible and consistent: the goal form of `a_star` returns `distance[8] = 15`, while the
least total weight of a path from `0` to `8` is `14`. -/
theorem a_star_g2_goal_not_min :
    WellFormed g2 ∧ CostsBelow g2 0 UINT32_MAX ∧ Reachable g2 0 8 ∧
    Admissible g2 8 (fun _ => 0) ∧ Consistent g2 8 (fun _ => 0) ∧
    (∃ r, a_star_goal 3 g2 0 8 (fun _ => 0) = some r ∧ r.2.getD 8 UINT32_MAX = 15) ∧
    IsMinCost g2 0 8 14 :=
  ⟨g2_wellFormed, g2_costsBelow, g2_reach_8, zero_admissible g2 8, zero_consistent g2 8,
    ⟨_, rfl, by decide⟩, g2_min_cost_8⟩

/-- C6 on the test graph `g2` with start `0`, goal `1` and the zero heuristic: `a_star` pops
node `8` in its third pass without exiting, pops the goal in its fourth pass and returns
`distance[8] = 15`, while `dijkstra_search` run to exhaustion returns `distance[8] = 14`. -/
theorem a_star_g2_expanded_differs :
    WellFormed g2 ∧ CostsBelow g2 0 UINT32_MAX ∧
    Admissible g2 1 (fun _ => 0) ∧ Consistent g2 1 (fun _ => 0) ∧
    (∃ s, a_star_trace g2 (fun c _ => decide (c = 1)) (fun _ => 0) 2 (search_init g2.size 0)
        = some s ∧ pq_top s.front = some (15, 8)) ∧
    (∃ s, a_star_trace g2 (fun c _ => decide (c = 1)) (fun _ => 0) 3 (search_init g2.size 0)
        = some s ∧ pq_top s.front = some (4, 1)) ∧
    (∃ r, a_star_goal 4 g2 0 1 (fun _ => 0) = some r ∧ r.2.getD 8 UINT32_MAX = 15) ∧
    (∃ r, dijkstra_search_all 11 g2 0 = some r ∧ r.2.getD 8 UINT32_MAX = 14) :=
  ⟨g2_wellFormed, g2_costsBelow, zero_admissible g2 1, zero_consistent g2 1,
    ⟨_, rfl, by decide⟩, ⟨_, rfl, by decide⟩, ⟨_, rfl, by decide⟩,
    ⟨_, g2_search_all, by decide⟩⟩

/-! ## Weighted searches: what no pass changes -/

theorem getD_some_of_lt (l : List Nat) (i d x : Nat) (hi : i < l.length) (h : l.getD i d = x) :
    l[i]? = some x := by
  rw [List.getD_eq_getElem?_getD, List.getElem?_eq_getElem hi] at h
  rw [List.getElem?_eq_getElem hi]
  simpa using h

theorem reachable_refl [HasDest E] (g : Graph E) (s : Nat) : Reachable g s s := ⟨0, Walk.refl⟩

theorem reachable_step [HasDest E] {g : Graph E} {s u : Nat} (h : Reachable g s u) {e : E}
    (he : e ∈ g.neighbors u) : Reachable g s (HasDest.dest e) := by
  obtain ⟨n, hn⟩ := h
  exact ⟨n + 1, Walk.step hn ⟨e, he, rfl⟩⟩

theorem baseInv_init {g : Graph WeighedEdge} {start : Nat} (hs : start < g.size) :
    BaseInv g start (search_init g.size start) := by
  refine
    { len_first := by simp [search_init]
      len_second := by simp [search_init]
      start_lt := hs
      first_start := getD_set_self _ _ _ _ (by simpa using hs)
      second_start := getD_set_self _ _ _ _ (by simpa using hs)
      front_reach := ?_
      unreached := ?_ }
  · intro p hp
    have : p = (0, start) := by simpa [search_init] using hp
    rw [this]
    exact reachable_refl g start
  · intro v hv
    have hne : start ≠ v := by
      rintro rfl
      exact hv (reachable_refl g start)
    constructor
    · show ((List.replicate g.size SIZE_MAX).set start start).getD v SIZE_MAX = SIZE_MAX
      rw [getD_set_ne _ _ _ _ _ hne]
      rw [List.getD_eq_getElem?_getD, List.getElem?_replicate]
      split <;> rfl
    · show ((List.replicate g.size UINT32_MAX).set start 0).getD v UINT32_MAX = UINT32_MAX
      rw [getD_set_ne _ _ _ _ _ hne]
      rw [List.getD_eq_getElem?_getD, List.getElem?_replicate]
      split <;> rfl

theorem baseInv_write {g : Graph WeighedEdge} (start : Nat) {s : SearchState}
    (h : BaseInv g start s) {n : Nat} (hn : Reachable g start n) (hns : n ≠ start)
    (idx cost prio : Nat) :
    BaseInv g start
      { front := s.front ++ [(prio, n)], first := s.first.set n idx,
        second := s.second.set n cost } := by
  refine
    { len_first := by simpa using h.len_first
      len_second := by simpa using h.len_second
      start_lt := h.start_lt
      first_start := by
        show (s.first.set n idx).getD start SIZE_MAX = start
        rw [getD_set_ne _ _ _ _ _ hns]; exact h.first_start
      second_start := by
        show (s.second.set n cost).getD start UINT32_MAX = 0
        rw [getD_set_ne _ _ _ _ _ hns]; exact h.second_start
      front_reach := ?_
      unreached := ?_ }
  · intro p hp
    rcases List.mem_append.1 hp with hp | hp
    · exact h.front_reach p hp
    · rw [List.mem_singleton.1 hp]; exact hn
  · intro v hv
    have hne : n ≠ v := by
      rintro rfl
      exact hv hn
    obtain ⟨h1, h2⟩ := h.unreached v hv
    constructor
    · show (s.first.set n idx).getD v SIZE_MAX = SIZE_MAX
      rw [getD_set_ne _ _ _ _ _ hne]; exact h1
    · show (s.second.set n cost).getD v UINT32_MAX = UINT32_MAX
      rw [getD_set_ne _ _ _ _ _ hne]; exact h2

theorem dijkstra_relax_base {g : Graph WeighedEdge} {start idx : Nat}
    (hidx : Reachable g start idx) :
    ∀ (es : List WeighedEdge) (s : SearchState), BaseInv g start s →
      (∀ e ∈ es, e ∈ g.neighbors idx) → BaseInv g start (dijkstra_relax idx es s) := by
  intro es
  induction es with
  | nil => intro s h _; exact h
  | cons e es ih =>
    intro s h hes
    have he := hes e (List.mem_cons_self _ _)
    have hes' : ∀ e' ∈ es, e' ∈ g.neighbors idx := fun e' h' => hes e' (List.mem_cons_of_mem _ h')
    rw [dijkstra_relax_cons]
    apply ih _ _ hes'
    by_cases hupd : s.second.getD e.dest UINT32_MAX = UINT32_MAX ∨
        (s.second.getD idx UINT32_MAX + e.weight) % 2 ^ 32 < s.second.getD e.dest UINT32_MAX
    · rw [dijkstra_relax_one_upd idx e s hupd]
      have hns : e.dest ≠ start := by
        intro hh
        rw [hh, h.second_start] at hupd
        rcases hupd with h' | h'
        · unfold UINT32_MAX at h'; omega
        · omega
      exact baseInv_write start h (reachable_step hidx he) hns _ _ _
    · rw [dijkstra_relax_one_keep idx e s hupd]
      exact h

theorem dijkstra_step_base {g : Graph WeighedEdge} {start : Nat}
    {early_exit : Nat → Nat → Bool} {s t : SearchState} (hinv : BaseInv g start s)
    (h : dijkstra_step g early_exit s = Sum.inl t) : BaseInv g start t := by
  obtain ⟨w, idx, htop, _, rfl⟩ := dijkstra_step_inl h
  have hidx : Reachable g start idx := hinv.front_reach _ (pq_top_mem htop)
  apply dijkstra_relax_base hidx _ _ _ (fun e he => he)
  exact { hinv with front_reach := fun p hp => hinv.front_reach p (mem_of_mem_pq_pop hp) }

theorem dijkstra_trace_base {g : Graph WeighedEdge} {start : Nat}
    {early_exit : Nat → Nat → Bool} :
    ∀ (n : Nat) (s t : SearchState), BaseInv g start s →
      dijkstra_trace g early_exit n s = some t → BaseInv g start t := by
  intro n
  induction n with
  | zero =>
    intro s t hinv h
    have : s = t := by simpa [dijkstra_trace] using h
    rw [← this]; exact hinv
  | succ n ih =>
    intro s t hinv h
    rw [dijkstra_trace] at h
    cases hstep : dijkstra_step g early_exit s with
    | inr r => rw [hstep] at h; simp at h
    | inl s' =>
      rw [hstep] at h
      exact ih s' t (dijkstra_step_base hinv hstep) h

theorem dijkstra_loop_base {g : Graph WeighedEdge} {start : Nat}
    {early_exit : Nat → Nat → Bool} :
    ∀ (fuel : Nat) (s : SearchState) (r : List Nat × List Nat), BaseInv g start s →
      dijkstra_loop g early_exit fuel s = some r → ∃ t, BaseInv g start t ∧ r = t.route := by
  intro fuel
  induction fuel with
  | zero => intro s r _ h; simp [dijkstra_loop] at h
  | succ fuel ih =>
    intro s r hinv h
    rw [dijkstra_loop] at h
    cases hstep : dijkstra_step g early_exit s with
    | inr r' =>
      rw [hstep] at h
      exact ⟨s, hinv, by rw [← Option.some.inj h, (dijkstra_step_inr hstep).1]⟩
    | inl s' =>
      rw [hstep] at h
      exact ih s' r (dijkstra_step_base hinv hstep) h

/-! ## A* search: what no pass changes -/

theorem a_star_relax_cons (heuristic : Nat → Nat) (idx : Nat) (e : WeighedEdge)
    (es : List WeighedEdge) (s : SearchState) :
    a_star_relax heuristic idx (e :: es) s
      = a_star_relax heuristic idx es (a_star_relax heuristic idx [e] s) := by
  simp only [a_star_relax]
  split <;> rfl

theorem a_star_relax_one_upd (heuristic : Nat → Nat) (idx : Nat) (e : WeighedEdge)
    (s : SearchState)
    (h : s.first.getD e.dest SIZE_MAX = SIZE_MAX ∨
      (s.second.getD idx UINT32_MAX + e.weight) % 2 ^ 32 < s.second.getD e.dest UINT32_MAX) :
    a_star_relax heuristic idx [e] s =
      { front := s.front ++
          [(((s.second.getD idx UINT32_MAX + e.weight) % 2 ^ 32 + heuristic e.dest) % 2 ^ 32,
            e.dest)]
        first := s.first.set e.dest idx
        second := s.second.set e.dest ((s.second.getD idx UINT32_MAX + e.weight) % 2 ^ 32) } := by
  simp only [a_star_relax, h, if_true]

theorem a_star_relax_one_keep (heuristic : Nat → Nat) (idx : Nat) (e : WeighedEdge)
    (s : SearchState)
    (h : ¬ (s.first.getD e.dest SIZE_MAX = SIZE_MAX ∨
      (s.second.getD idx UINT32_MAX + e.weight) % 2 ^ 32 < s.second.getD e.dest UINT32_MAX)) :
    a_star_relax heuristic idx [e] s = s := by
  simp only [a_star_relax, h, if_false]

theorem a_star_relax_base {g : Graph WeighedEdge} (hwf : WellFormed g) {start idx : Nat}
    (heuristic : Nat → Nat) (hidx : Reachable g start idx) :
    ∀ (es : List WeighedEdge) (s : SearchState), BaseInv g start s →
      (∀ e ∈ es, e ∈ g.neighbors idx) → BaseInv g start (a_star_relax heuristic idx es s) := by
  intro es
  induction es with
  | nil => intro s h _; exact h
  | cons e es ih =>
    intro s h hes
    have he := hes e (List.mem_cons_self _ _)
    have hes' : ∀ e' ∈ es, e' ∈ g.neighbors idx := fun e' h' => hes e' (List.mem_cons_of_mem _ h')
    rw [a_star_relax_cons]
    apply ih _ _ hes'
    by_cases hupd : s.first.getD e.dest SIZE_MAX = SIZE_MAX ∨
        (s.second.getD idx UINT32_MAX + e.weight) % 2 ^ 32 < s.second.getD e.dest UINT32_MAX
    · rw [a_star_relax_one_upd heuristic idx e s hupd]
      have hns : e.dest ≠ start := by
        intro hh
        rw [hh, h.second_start, h.first_start] at hupd
        rcases hupd with h' | h'
        · exact lt_size_ne_SIZE_MAX hwf h.start_lt h'
        · omega
      exact baseInv_write start h (reachable_step hidx he) hns _ _ _
    · rw [a_star_relax_one_keep heuristic idx e s hupd]
      exact h

theorem a_star_step_inr {g : Graph WeighedEdge} {early_exit : Nat → Nat → Bool}
    {heuristic : Nat → Nat} {s : SearchState} {r : List Nat × List Nat}
    (h : a_star_step g early_exit heuristic s = Sum.inr r) : r = s.route := by
  unfold a_star_step at h
  split at h
  · exact (Sum.inr.inj h).symm
  · split at h
    · exact (Sum.inr.inj h).symm
    · exact absurd h (by simp)

theorem a_star_step_inl {g : Graph WeighedEdge} {early_exit : Nat → Nat → Bool}
    {heuristic : Nat → Nat} {s t : SearchState}
    (h : a_star_step g early_exit heuristic s = Sum.inl t) :
    ∃ w idx, pq_top s.front = some (w, idx) ∧ early_exit idx w = false ∧
      t = a_star_relax heuristic idx (g.neighbors idx) { s with front := pq_pop s.front } := by
  unfold a_star_step at h
  split at h
  · exact absurd h (by simp)
  · rename_i w idx htop
    split at h
    · exact absurd h (by simp)
    · rename_i hee
      exact ⟨w, idx, htop, by simpa using hee, (Sum.inl.inj h).symm⟩

theorem a_star_step_base {g : Graph WeighedEdge} (hwf : WellFormed g) {start : Nat}
    {early_exit : Nat → Nat → Bool} {heuristic : Nat → Nat} {s t : SearchState}
    (hinv : BaseInv g start s) (h : a_star_step g early_exit heuristic s = Sum.inl t) :
    BaseInv g start t := by
  obtain ⟨w, idx, htop, _, rfl⟩ := a_star_step_inl h
  have hidx : Reachable g start idx := hinv.front_reach _ (pq_top_mem htop)
  apply a_star_relax_base hwf heuristic hidx _ _ _ (fun e he => he)
  exact { hinv with front_reach := fun p hp => hinv.front_reach p (mem_of_mem_pq_pop hp) }

theorem a_star_trace_base {g : Graph WeighedEdge} (hwf : WellFormed g) {start : Nat}
    {early_exit : Nat → Nat → Bool} {heuristic : Nat → Nat} :
    ∀ (n : Nat) (s t : SearchState), BaseInv g start s →
      a_star_trace g early_exit heuristic n s = some t → BaseInv g start t := by
  intro n
  induction n with
  | zero =>
    intro s t hinv h
    have : s = t := by simpa [a_star_trace] using h
    rw [← this]; exact hinv
  | succ n ih =>
    intro s t hinv h
    rw [a_star_trace] at h
    cases hstep : a_star_step g early_exit heuristic s with
    | inr r => rw [hstep] at h; simp at h
    | inl s' =>
      rw [hstep] at h
      exact ih s' t (a_star_step_base hwf hinv hstep) h

theorem a_star_loop_base {g : Graph WeighedEdge} (hwf : WellFormed g) {start : Nat}
    {early_exit : Nat → Nat → Bool} {heuristic : Nat → Nat} :
    ∀ (fuel : Nat) (s : SearchState) (r : List Nat × List Nat), BaseInv g start s →
      a_star_loop g early_exit heuristic fuel s = some r →
      ∃ t, BaseInv g start t ∧ r = t.route := by
  intro fuel
  induction fuel with
  | zero => intro s r _ h; simp [a_star_loop] at h
  | succ fuel ih =>
    intro s r hinv h
    rw [a_star_loop] at h
    cases hstep : a_star_step g early_exit heuristic s with
    | inr r' =>
      rw [hstep] at h
      exact ⟨s, hinv, by rw [← Option.some.inj h, a_star_step_inr hstep]⟩
    | inl s' =>
      rw [hstep] at h
      exact ih s' r (a_star_step_base hwf hinv hstep) h

/-! ## Marks of unreached nodes and entries of the start node -/

theorem bfs_exit_table [HasDest E] {g : Graph E} (hwf : WellFormed g) {start : Nat}
    (hs : start < g.size) (early_exit : Nat → Bool) :
    ∃ fuel r lev front, breadth_first_search fuel g start early_exit = some r ∧
      BfsInv g start lev front r := by
  obtain ⟨r, lev, front, hr, hinv, _⟩ := bfs_loop_exit hwf early_exit
    (((List.replicate g.size SIZE_MAX).set start start).count SIZE_MAX + [start].length + 1)
    _ _ _ (bfsInv_init hwf hs) (Nat.lt_succ_self _)
  exact ⟨_, r, lev, front, hr, hinv⟩

theorem bfs_visited_reachable [HasDest E] {g : Graph E} {start : Nat} {lev : Nat → Nat}
    {front r : List Nat} (h : BfsInv g start lev front r) {v : Nat} (hv : Visited r v) :
    Reachable g start v :=
  ⟨lev v, (bfs_final_chain h (lev v) v hv rfl).2.2.2⟩

theorem baseInv_marks {g : Graph WeighedEdge} {start : Nat} {s : SearchState}
    (h : BaseInv g start s) {v : Nat} (hv : v < g.size) (hnr : ¬ Reachable g start v) :
    s.first[v]? = some SIZE_MAX ∧ s.second[v]? = some UINT32_MAX :=
  ⟨getD_some_of_lt _ _ _ _ (by rw [h.len_first]; exact hv) (h.unreached v hnr).1,
    getD_some_of_lt _ _ _ _ (by rw [h.len_second]; exact hv) (h.unreached v hnr).2⟩

theorem baseInv_start {g : Graph WeighedEdge} {start : Nat} {s : SearchState}
    (h : BaseInv g start s) : s.first[start]? = some start ∧ s.second[start]? = some 0 :=
  ⟨getD_some_of_lt _ _ _ _ (by rw [h.len_first]; exact h.start_lt) h.first_start,
    getD_some_of_lt _ _ _ _ (by rw [h.len_second]; exact h.start_lt) h.second_start⟩

/-- C8: on well-formed graphs, with a start node below the node count and any early-exit
predicate, `breadth_first_search` returns, and every table it returns holds `(size_t)-1` at
each node that is not reachable from `start`; every state of `dijkstra_search` and every pair
of tables it returns hold `(size_t)-1` in the predecessor table and `(uint32_t)-1` in the
distance table at each such node. -/
theorem unreached_keep_mark [HasDest E] (g : Graph E) (gw : Graph WeighedEdge)
    (start startw : Nat) (early_exit : Nat → Bool) (early_exit_w : Nat → Nat → Bool)
    (hwf : WellFormed g) (hs : start < g.size) (_hwfw : WellFormed gw)
    (hsw : startw < gw.size) :
    ((∃ fuel r, breadth_first_search fuel g start early_exit = some r) ∧
      ∀ fuel r, breadth_first_search fuel g start early_exit = some r →
        ∀ v, v < g.size → ¬ Reachable g start v → r[v]? = some SIZE_MAX) ∧
    ((∀ n s, dijkstra_trace gw early_exit_w n (search_init gw.size startw) = some s →
        ∀ v, v < gw.size → ¬ Reachable gw startw v →
          s.first[v]? = some SIZE_MAX ∧ s.second[v]? = some UINT32_MAX) ∧
      ∀ fuel r, dijkstra_search fuel gw startw early_exit_w = some r →
        ∀ v, v < gw.size → ¬ Reachable gw startw v →
          r.1[v]? = some SIZE_MAX ∧ r.2[v]? = some UINT32_MAX) := by
  refine ⟨?_, ?_, ?_⟩
  · obtain ⟨fuel0, r, lev, front, hr, hinv⟩ := bfs_exit_table hwf hs early_exit
    refine ⟨⟨fuel0, r, hr⟩, ?_⟩
    intro fuel r' hr' v hv hnr
    have hrr : r = r' := bfs_loop_unique g _ _ _ r r' fuel0 fuel hr hr'
    subst hrr
    have hlt : v < r.length := by rw [hinv.len]; exact hv
    apply getD_some_of_lt r v SIZE_MAX SIZE_MAX hlt
    by_contra hne
    exact hnr (bfs_visited_reachable hinv ⟨hlt, hne⟩)
  · intro n s hs' v hv hnr
    exact baseInv_marks (dijkstra_trace_base n _ s (baseInv_init hsw) hs') hv hnr
  · intro fuel r hr v hv hnr
    obtain ⟨t, ht, rfl⟩ := dijkstra_loop_base fuel _ r (baseInv_init hsw) hr
    exact baseInv_marks ht hv hnr

theorem unreached_keep_mark_tests :
    WellFormed g1 ∧ 4 < g1.size ∧ WellFormed g2 ∧ 7 < g2.size ∧
    (((∃ fuel r, breadth_first_search fuel g1 4 (fun c => decide (c = 5)) = some r) ∧
      ∀ fuel r, breadth_first_search fuel g1 4 (fun c => decide (c = 5)) = some r →
        ∀ v, v < g1.size → ¬ Reachable g1 4 v → r[v]? = some SIZE_MAX) ∧
    ((∀ n s, dijkstra_trace g2 (fun _ w => decide (7 < w)) n (search_init g2.size 7) = some s →
        ∀ v, v < g2.size → ¬ Reachable g2 7 v →
          s.first[v]? = some SIZE_MAX ∧ s.second[v]? = some UINT32_MAX) ∧
      ∀ fuel r, dijkstra_search fuel g2 7 (fun _ w => decide (7 < w)) = some r →
        ∀ v, v < g2.size → ¬ Reachable g2 7 v →
          r.1[v]? = some SIZE_MAX ∧ r.2[v]? = some UINT32_MAX)) :=
  ⟨g1_wellFormed, by decide, g2_wellFormed, by decide,
    unreached_keep_mark g1 g2 4 7 (fun c => decide (c = 5)) (fun _ w => decide (7 < w))
      g1_wellFormed (by decide) g2_wellFormed (by decide)⟩

/-- C9: on well-formed graphs, with a start node below the node count, any early-exit
predicate and any heuristic, `breadth_first_search` returns and every table it returns has
`predecessor[start] = start`; every state of `dijkstra_search` and of `a_star`, and every pair
of tables they return, has `predecessor[start] = start` and `distance[start] = 0`. -/
theorem start_entries_kept [HasDest E] (g : Graph E) (gw : Graph WeighedEdge)
    (start startw : Nat) (early_exit : Nat → Bool) (early_exit_w : Nat → Nat → Bool)
    (heuristic : Nat → Nat) (hwf : WellFormed g) (hs : start < g.size)
    (hwfw : WellFormed gw) (hsw : startw < gw.size) :
    ((∃ fuel r, breadth_first_search fuel g start early_exit = some r) ∧
      ∀ fuel r, breadth_first_search fuel g start early_exit = some r →
        r[start]? = some start) ∧
    ((∀ n s, dijkstra_trace gw early_exit_w n (search_init gw.size startw) = some s →
        s.first[startw]? = some startw ∧ s.second[startw]? = some 0) ∧
      ∀ fuel r, dijkstra_search fuel gw startw early_exit_w = some r →
        r.1[startw]? = some startw ∧ r.2[startw]? = some 0) ∧
    ((∀ n s, a_star_trace gw early_exit_w heuristic n (search_init gw.size startw) = some s →
        s.first[startw]? = some startw ∧ s.second[startw]? = some 0) ∧
      ∀ fuel r, a_star fuel gw startw early_exit_w heuristic = some r →
        r.1[startw]? = some startw ∧ r.2[startw]? = some 0) := by
  refine ⟨?_, ⟨?_, ?_⟩, ?_, ?_⟩
  · obtain ⟨fuel0, r, lev, front, hr, hinv⟩ := bfs_exit_table hwf hs early_exit
    refine ⟨⟨fuel0, r, hr⟩, ?_⟩
    intro fuel r' hr'
    have hrr : r = r' := bfs_loop_unique g _ _ _ r r' fuel0 fuel hr hr'
    subst hrr
    exact getD_some_of_lt r start SIZE_MAX start (by rw [hinv.len]; exact hs) hinv.cf_start
  · intro n s hs'
    exact baseInv_start (dijkstra_trace_base n _ s (baseInv_init hsw) hs')
  · intro fuel r hr
    obtain ⟨t, ht, rfl⟩ := dijkstra_loop_base fuel _ r (baseInv_init hsw) hr
    exact baseInv_start ht
  · intro n s hs'
    exact baseInv_start (a_star_trace_base hwfw n _ s (baseInv_init hsw) hs')
  · intro fuel r hr
    obtain ⟨t, ht, rfl⟩ := a_star_loop_base hwfw fuel _ r (baseInv_init hsw) hr
    exact baseInv_start ht

theorem start_entries_kept_tests :
    WellFormed g1 ∧ 0 < g1.size ∧ WellFormed g2 ∧ 0 < g2.size ∧
    (((∃ fuel r, breadth_first_search fuel g1 0 (fun c => decide (c = 3)) = some r) ∧
      ∀ fuel r, breadth_first_search fuel g1 0 (fun c => decide (c = 3)) = some r →
        r[0]? = some 0) ∧
    ((∀ n s, dijkstra_trace g2 (fun c _ => decide (c = 5)) n (search_init g2.size 0) = some s →
        s.first[0]? = some 0 ∧ s.second[0]? = some 0) ∧
      ∀ fuel r, dijkstra_search fuel g2 0 (fun c _ => decide (c = 5)) = some r →
        r.1[0]? = some 0 ∧ r.2[0]? = some 0) ∧
    ((∀ n s, a_star_trace g2 (fun c _ => decide (c = 5)) (fun v => 8 - v) n
          (search_init g2.size 0) = some s →
        s.first[0]? = some 0 ∧ s.second[0]? = some 0) ∧
      ∀ fuel r, a_star fuel g2 0 (fun c _ => decide (c = 5)) (fun v => 8 - v) = some r →
        r.1[0]? = some 0 ∧ r.2[0]? = some 0)) :=
  ⟨g1_wellFormed, by decide, g2_wellFormed, by decide,
    start_entries_kept g1 g2 0 0 (fun c => decide (c = 3)) (fun c _ => decide (c = 5))
      (fun v => 8 - v) g1_wellFormed (by decide) g2_wellFormed (by decide)⟩

/-! ## Breadth first search: the chain of a marked node -/

theorem bfs_chain_levels [HasDest E] {g : Graph E} {start : Nat} {lev : Nat → Nat}
    {front r : List Nat} (h : BfsInv g start lev front r) {v : Nat} (hv : Visited r v) :
    ∀ j, j ≤ lev v → Visited r ((pred_of r)^[j] v) ∧ lev ((pred_of r)^[j] v) + j = lev v := by
  intro j
  induction j with
  | zero => intro _; exact ⟨hv, rfl⟩
  | succ j ih =>
    intro hj
    obtain ⟨h1, h2⟩ := ih (by omega)
    have hne : (pred_of r)^[j] v ≠ start := by
      intro heq
      rw [heq, h.lev_start] at h2
      omega
    obtain ⟨p1, _, p3⟩ := h.pred _ h1 hne
    rw [Function.iterate_succ_apply']
    exact ⟨p1, by omega⟩

theorem bfs_chain_bound [HasDest E] {g : Graph E} {start : Nat} {lev : Nat → Nat}
    {front r : List Nat} (h : BfsInv g start lev front r) {v : Nat} (hv : Visited r v) :
    lev v + 1 ≤ g.size ∧
      ∀ i j, i < j → j ≤ lev v → (pred_of r)^[i] v ≠ (pred_of r)^[j] v := by
  have hdiff : ∀ i j, i < j → j ≤ lev v → (pred_of r)^[i] v ≠ (pred_of r)^[j] v := by
    intro i j hij hj heq
    have h1 := (bfs_chain_levels h hv i (by omega)).2
    have h2 := (bfs_chain_levels h hv j hj).2
    rw [heq] at h1
    omega
  refine ⟨?_, hdiff⟩
  have hnodup : ((List.range (lev v + 1)).map (fun j => (pred_of r)^[j] v)).Nodup := by
    refine (List.nodup_range _).map_on ?_
    intro i hi j hj heq
    have hi' := List.mem_range.1 hi
    have hj' := List.mem_range.1 hj
    by_contra hne
    rcases Nat.lt_or_gt_of_ne hne with hlt | hlt
    · exact hdiff i j hlt (by omega) heq
    · exact hdiff j i hlt (by omega) heq.symm
  have hsub : ((List.range (lev v + 1)).map (fun j => (pred_of r)^[j] v)) ⊆ List.range g.size := by
    intro x hx
    obtain ⟨j, hj, rfl⟩ := List.mem_map.1 hx
    have := (bfs_chain_levels h hv j (by have := List.mem_range.1 hj; omega)).1.1
    rw [h.len] at this
    exact List.mem_range.2 this
  have := (List.Nodup.subperm hnodup hsub).length_le
  simpa using this

/-- C11: on a well-formed graph, with a start node below the node count and any early-exit
predicate, `breadth_first_search` returns, and in every table it returns each node `v` whose
entry is not `(size_t)-1` reaches `start` by walking backward `k` steps with
`k ≤ nodeCount - 1`; the nodes met on the way are pairwise distinct, `start` is its own
predecessor, and every pair `(came_from[x], x)` of the walk is an edge of the graph. -/
theorem bfs_marked_chain [HasDest E] (g : Graph E) (start : Nat) (early_exit : Nat → Bool)
    (hwf : WellFormed g) (hs : start < g.size) :
    (∃ fuel r, breadth_first_search fuel g start early_exit = some r) ∧
    ∀ fuel r, breadth_first_search fuel g start early_exit = some r →
      pred_of r start = start ∧
      ∀ v, Visited r v →
        ∃ k, k ≤ g.size - 1 ∧ (pred_of r)^[k] v = start ∧
          (∀ j, j < k → (pred_of r)^[j] v ≠ start) ∧
          (∀ i j, i < j → j ≤ k → (pred_of r)^[i] v ≠ (pred_of r)^[j] v) ∧
          (∀ j, j < k → IsEdge g ((pred_of r)^[j + 1] v) ((pred_of r)^[j] v)) := by
  obtain ⟨fuel0, r, lev, front, hr, hinv⟩ := bfs_exit_table hwf hs early_exit
  refine ⟨⟨fuel0, r, hr⟩, ?_⟩
  intro fuel r' hr'
  have hrr : r = r' := bfs_loop_unique g _ _ _ r r' fuel0 fuel hr hr'
  subst hrr
  refine ⟨hinv.cf_start, ?_⟩
  intro v hv
  obtain ⟨c1, c2, c3, _⟩ := bfs_final_chain hinv (lev v) v hv rfl
  obtain ⟨b1, b2⟩ := bfs_chain_bound hinv hv
  exact ⟨lev v, by omega, c1, c2, b2, c3⟩

theorem bfs_marked_chain_g1 :
    WellFormed g1 ∧ 0 < g1.size ∧
    ((∃ fuel r, breadth_first_search fuel g1 0 (fun c => decide (c = 3)) = some r) ∧
    ∀ fuel r, breadth_first_search fuel g1 0 (fun c => decide (c = 3)) = some r →
      pred_of r 0 = 0 ∧
      ∀ v, Visited r v →
        ∃ k, k ≤ g1.size - 1 ∧ (pred_of r)^[k] v = 0 ∧
          (∀ j, j < k → (pred_of r)^[j] v ≠ 0) ∧
          (∀ i j, i < j → j ≤ k → (pred_of r)^[i] v ≠ (pred_of r)^[j] v) ∧
          (∀ j, j < k → IsEdge g1 ((pred_of r)^[j + 1] v) ((pred_of r)^[j] v))) :=
  ⟨g1_wellFormed, by decide,
    bfs_marked_chain g1 0 (fun c => decide (c = 3)) g1_wellFormed (by decide)⟩

/-! ## The scenarios of the tests -/

theorem g1_search_all : breadth_first_search_all 7 g1 0 = some [0, 0, 1, 2, 3, 2] := by
  decide

theorem walk_back_g1_4 (fuel : Nat) :
    walk_back [0, 0, 1, 2, 3, 2] 0 (fuel + 5) 4 = some [4, 3, 2, 1, 0] := by
  simp [walk_back]

/-- C12, as stated, fails: the table that `breadth_first_search` returns for `g1` from node
`0` is `[0,0,1,2,3,2]`, the reconstruction for target `4` never yields `[0,2,3,4]`, and
`g1` has no edge from `0` to `2`. -/
theorem reconstruct_g1_not_0234 :
    breadth_first_search_all 7 g1 0 = some [0, 0, 1, 2, 3, 2] ∧
    (∀ fuel, reconstruct_path [0, 0, 1, 2, 3, 2] 0 4 fuel ≠ some [0, 2, 3, 4]) ∧
    ¬ IsEdge g1 0 2 := by
  refine ⟨g1_search_all, ?_, by unfold IsEdge; decide⟩
  intro fuel
  by_cases h : 5 ≤ fuel
  · obtain ⟨n, rfl⟩ : ∃ n, fuel = n + 5 := ⟨fuel - 5, by omega⟩
    have hne : ¬ [0, 0, 1, 2, 3, 2].getD 4 SIZE_MAX = SIZE_MAX := by decide
    simp only [reconstruct_path, if_neg hne, walk_back_g1_4]
    decide
  · have hcases : fuel = 0 ∨ fuel = 1 ∨ fuel = 2 ∨ fuel = 3 ∨ fuel = 4 := by omega
    rcases hcases with rfl | rfl | rfl | rfl | rfl <;> decide

/-- C12, amended: path reconstruction applied to the table that `breadth_first_search`
returns for Scenario 1 with target node `4` yields the ordered sequence `[0,1,2,3,4]`, for
every fuel that lets the backward walk reach the start. -/
theorem reconstruct_g1_path :
    ∃ r, breadth_first_search_all 7 g1 0 = some r ∧ r = [0, 0, 1, 2, 3, 2] ∧
      ∀ fuel, reconstruct_path r 0 4 (fuel + 5) = some [0, 1, 2, 3, 4] := by
  refine ⟨_, g1_search_all, rfl, ?_⟩
  intro fuel
  have hne : ¬ [0, 0, 1, 2, 3, 2].getD 4 SIZE_MAX = SIZE_MAX := by decide
  simp only [reconstruct_path, if_neg hne, walk_back_g1_4]
  rfl

/-- C13: `dijkstra_search` on `g2` from node `0` without early exit returns, and the pair of
tables it returns is predecessor `[0,0,1,2,3,2,5,0,2]` and distance
`[0,4,12,19,28,16,18,8,14]`. -/
theorem dijkstra_g2_tables :
    (∃ fuel, dijkstra_search_all fuel g2 0
      = some ([0, 0, 1, 2, 3, 2, 5, 0, 2], [0, 4, 12, 19, 28, 16, 18, 8, 14])) ∧
    ∀ fuel r, dijkstra_search_all fuel g2 0 = some r →
      r = ([0, 0, 1, 2, 3, 2, 5, 0, 2], [0, 4, 12, 19, 28, 16, 18, 8, 14]) :=
  ⟨⟨11, g2_search_all⟩, fun fuel r hr =>
    dijkstra_loop_unique g2 _ _ r _ fuel 11 hr g2_search_all⟩

theorem init_table_entries (size start mark x : Nat) (hs : start < size) :
    ((List.replicate size mark).set start x)[start]? = some x ∧
    ∀ v, v < size → v ≠ start → ((List.replicate size mark).set start x)[v]? = some mark := by
  constructor
  · exact getD_some_of_lt _ _ mark _ (by simpa using hs) (getD_set_self _ _ _ _ (by simpa using hs))
  · intro v hv hne
    apply getD_some_of_lt _ _ mark _ (by simpa using hv)
    rw [getD_set_ne _ _ _ _ _ (Ne.symm hne)]
    exact getD_replicate_lt _ _ _ _ hv

/-- C14: when the early-exit predicate holds at the first pop, which takes `start` (with cost
`0` in the weighted searches), each of the three searches returns, for every fuel that
allows one pass, a result whose entries for `start` are `start` (and distance `0`) and whose
other entries all hold the unvisited mark. -/
theorem first_pop_exit [HasDest E] (g : Graph E) (gw : Graph WeighedEdge) (start startw : Nat)
    (early_exit : Nat → Bool) (early_exit_w : Nat → Nat → Bool) (heuristic : Nat → Nat)
    (hs : start < g.size) (hsw : startw < gw.size) (hee : early_exit start = true)
    (heew : early_exit_w startw 0 = true) :
    (∃ r, (∀ fuel, breadth_first_search (fuel + 1) g start early_exit = some r) ∧
      r[start]? = some start ∧ ∀ v, v < g.size → v ≠ start → r[v]? = some SIZE_MAX) ∧
    (∃ r, (∀ fuel, dijkstra_search (fuel + 1) gw startw early_exit_w = some r) ∧
      r.1[startw]? = some startw ∧ r.2[startw]? = some 0 ∧
      ∀ v, v < gw.size → v ≠ startw → r.1[v]? = some SIZE_MAX ∧ r.2[v]? = some UINT32_MAX) ∧
    (∃ r, (∀ fuel, a_star (fuel + 1) gw startw early_exit_w heuristic = some r) ∧
      r.1[startw]? = some startw ∧ r.2[startw]? = some 0 ∧
      ∀ v, v < gw.size → v ≠ startw → r.1[v]? = some SIZE_MAX ∧ r.2[v]? = some UINT32_MAX) := by
  have hF := init_table_entries gw.size startw SIZE_MAX startw hsw
  have hS := init_table_entries gw.size startw UINT32_MAX 0 hsw
  refine ⟨⟨_, ?_, (init_table_entries g.size start SIZE_MAX start hs).1,
      (init_table_entries g.size start SIZE_MAX start hs).2⟩,
    ⟨(search_init gw.size startw).route, ?_, hF.1, hS.1, fun v hv hne => ⟨hF.2 v hv hne, hS.2 v hv hne⟩⟩,
    ⟨(search_init gw.size startw).route, ?_, hF.1, hS.1, fun v hv hne => ⟨hF.2 v hv hne, hS.2 v hv hne⟩⟩⟩
  · intro fuel
    simp [breadth_first_search, bfs_loop, hee]
  · intro fuel
    simp [dijkstra_search, dijkstra_loop, dijkstra_step, search_init, pq_top, heew,
      SearchState.route]
  · intro fuel
    simp [a_star, a_star_loop, a_star_step, search_init, pq_top, heew, SearchState.route]

theorem first_pop_exit_tests :
    0 < g1.size ∧ 0 < g2.size ∧ (fun _ => true) 0 = true ∧ (fun _ _ => true) 0 0 = true ∧
    ((∃ r, (∀ fuel, breadth_first_search (fuel + 1) g1 0 (fun _ => true) = some r) ∧
      r[0]? = some 0 ∧ ∀ v, v < g1.size → v ≠ 0 → r[v]? = some SIZE_MAX) ∧
    (∃ r, (∀ fuel, dijkstra_search (fuel + 1) g2 0 (fun _ _ => true) = some r) ∧
      r.1[0]? = some 0 ∧ r.2[0]? = some 0 ∧
      ∀ v, v < g2.size → v ≠ 0 → r.1[v]? = some SIZE_MAX ∧ r.2[v]? = some UINT32_MAX) ∧
    (∃ r, (∀ fuel, a_star (fuel + 1) g2 0 (fun _ _ => true) (fun v => 8 - v) = some r) ∧
      r.1[0]? = some 0 ∧ r.2[0]? = some 0 ∧
      ∀ v, v < g2.size → v ≠ 0 → r.1[v]? = some SIZE_MAX ∧ r.2[v]? = some UINT32_MAX)) :=
  ⟨by decide, by decide, rfl, rfl,
    first_pop_exit g1 g2 0 0 (fun _ => true) (fun _ _ => true) (fun v => 8 - v)
      (by decide) (by decide) rfl rfl⟩

/-! ## A* search with the zero heuristic -/

theorem spath_below {g : Graph WeighedEdge} {start bound : Nat}
    (hb : CostsBelow g start bound) (hpos : 0 < bound) {p : List Nat} {W : Nat}
    (h : SPath g start p W) : W < bound := by
  cases h with
  | single => exact hpos
  | snoc e hp he _ => exact hb _ _ _ hp e he

theorem dijInv_below_mark {g : Graph WeighedEdge} {start : Nat}
    (hb : CostsBelow g start UINT32_MAX) {pend : List Nat} {s : SearchState}
    (hinv : DijInv g start pend s) {v : Nat} (hv : Visited s.first v) :
    s.second.getD v UINT32_MAX < UINT32_MAX := by
  obtain ⟨vs, hcov⟩ := hinv.path v hv
  exact spath_below hb (by decide) (covered_spath hcov)

theorem dijInv_pop {g : Graph WeighedEdge} {start : Nat} {s : SearchState}
    (hinv : DijInv g start [] s) {w idx : Nat} (htop : pq_top s.front = some (w, idx)) :
    DijInv g start [idx] { s with front := pq_pop s.front } :=
  { len_first := hinv.len_first
    len_second := hinv.len_second
    start_lt := hinv.start_lt
    first_start := hinv.first_start
    second_start := hinv.second_start
    unvis := hinv.unvis
    front_vis := fun p hp => hinv.front_vis p (mem_of_mem_pq_pop hp)
    path := hinv.path
    pred := hinv.pred
    relaxed := by
      intro u hu
      rcases hinv.relaxed u hu with h | ⟨p, hp, hpu⟩ | h
      · exact absurd h (List.not_mem_nil u)
      · rcases mem_pq_pop_or_eq htop hp with h' | h'
        · exact Or.inr (Or.inl ⟨p, h', hpu⟩)
        · left
          rw [← hpu, h']
          exact List.mem_singleton.2 rfl
      · exact Or.inr (Or.inr h) }

theorem a_star_relax_one_eq {g : Graph WeighedEdge} (hwf : WellFormed g) {start : Nat}
    (hb : CostsBelow g start UINT32_MAX) {pend : List Nat} {s : SearchState}
    (hinv : DijInv g start pend s) {idx : Nat} {e : WeighedEdge} (he : e ∈ g.neighbors idx) :
    a_star_relax (fun _ => 0) idx [e] s = dijkstra_relax idx [e] s := by
  have hnlt : e.dest < g.size := hwf.dest_lt e (mem_neighbors_edges g idx e he)
  have hiff : s.first.getD e.dest SIZE_MAX = SIZE_MAX ↔
      s.second.getD e.dest UINT32_MAX = UINT32_MAX := by
    constructor
    · intro h
      exact hinv.unvis e.dest hnlt (fun hv => hv.2 h)
    · intro h
      by_contra hne
      have := dijInv_below_mark hb hinv ⟨by rw [hinv.len_first]; exact hnlt, hne⟩
      omega
  by_cases hupd : s.second.getD e.dest UINT32_MAX = UINT32_MAX ∨
      (s.second.getD idx UINT32_MAX + e.weight) % 2 ^ 32 < s.second.getD e.dest UINT32_MAX
  · have hupd' : s.first.getD e.dest SIZE_MAX = SIZE_MAX ∨
        (s.second.getD idx UINT32_MAX + e.weight) % 2 ^ 32 < s.second.getD e.dest UINT32_MAX :=
      hupd.imp hiff.2 id
    rw [dijkstra_relax_one_upd idx e s hupd, a_star_relax_one_upd _ idx e s hupd']
    simp
  · have hupd' : ¬ (s.first.getD e.dest SIZE_MAX = SIZE_MAX ∨
        (s.second.getD idx UINT32_MAX + e.weight) % 2 ^ 32 < s.second.getD e.dest UINT32_MAX) :=
      fun h => hupd (h.imp hiff.1 id)
    rw [dijkstra_relax_one_keep idx e s hupd, a_star_relax_one_keep _ idx e s hupd']

theorem a_star_relax_eq {g : Graph WeighedEdge} (hwf : WellFormed g) {start : Nat}
    (hb : CostsBelow g start UINT32_MAX) {pend : List Nat} {idx : Nat} :
    ∀ (es : List WeighedEdge) (s : SearchState), DijInv g start pend s → Visited s.first idx →
      (∀ e ∈ es, e ∈ g.neighbors idx) →
      a_star_relax (fun _ => 0) idx es s = dijkstra_relax idx es s := by
  have hb' : CostsBelow g start (2 ^ 32) := costsBelow_mono (by unfold UINT32_MAX; omega) hb
  intro es
  induction es with
  | nil => intro s _ _ _; rfl
  | cons e es ih =>
    intro s hinv hidx hes
    have he := hes e (List.mem_cons_self _ _)
    obtain ⟨a1, a2, _⟩ := dijkstra_relax_one hwf hb' hinv hidx he
    rw [a_star_relax_cons, dijkstra_relax_cons, a_star_relax_one_eq hwf hb hinv he]
    exact ih _ a1 (a2.1 idx hidx) (fun e' h' => hes e' (List.mem_cons_of_mem _ h'))

theorem a_star_step_eq {g : Graph WeighedEdge} (hwf : WellFormed g) {start : Nat}
    (hb : CostsBelow g start UINT32_MAX) (early_exit : Nat → Nat → Bool) {s : SearchState}
    (hinv : DijInv g start [] s) :
    a_star_step g early_exit (fun _ => 0) s = dijkstra_step g early_exit s := by
  unfold a_star_step dijkstra_step
  cases htop : pq_top s.front with
  | none => rfl
  | some t =>
    obtain ⟨w, idx⟩ := t
    by_cases hee : early_exit idx w = true
    · simp only [hee, if_true]
    · simp only [hee]
      have hidx : Visited s.first idx := hinv.front_vis _ (pq_top_mem htop)
      have := a_star_relax_eq hwf hb (g.neighbors idx) _ (dijInv_pop hinv htop) hidx
        (fun e he => he)
      exact congrArg Sum.inl this

theorem a_star_loop_eq {g : Graph WeighedEdge} (hwf : WellFormed g) {start : Nat}
    (hb : CostsBelow g start UINT32_MAX) (early_exit : Nat → Nat → Bool) :
    ∀ (fuel : Nat) (s : SearchState), DijInv g start [] s →
      a_star_loop g early_exit (fun _ => 0) fuel s = dijkstra_loop g early_exit fuel s := by
  have hb' : CostsBelow g start (2 ^ 32) := costsBelow_mono (by unfold UINT32_MAX; omega) hb
  intro fuel
  induction fuel with
  | zero => intro s _; rfl
  | succ fuel ih =>
    intro s hinv
    rw [a_star_loop, dijkstra_loop, a_star_step_eq hwf hb early_exit hinv]
    cases hstep : dijkstra_step g early_exit s with
    | inr r => rfl
    | inl s' => exact ih s' (dijkstra_step_inv hwf hb' hinv hstep).1

theorem a_star_loop_fuel_succ (g : Graph WeighedEdge) (early_exit : Nat → Nat → Bool)
    (heuristic : Nat → Nat) :
    ∀ (fuel : Nat) (s : SearchState) (r : List Nat × List Nat),
      a_star_loop g early_exit heuristic fuel s = some r →
      a_star_loop g early_exit heuristic (fuel + 1) s = some r := by
  intro fuel
  induction fuel with
  | zero => intro s r h; simp [a_star_loop] at h
  | succ fuel ih =>
    intro s r h
    rw [a_star_loop] at h ⊢
    cases hstep : a_star_step g early_exit heuristic s with
    | inr r' => rw [hstep] at h; exact h
    | inl s' => rw [hstep] at h; exact ih s' r h

theorem a_star_loop_unique (g : Graph WeighedEdge) (early_exit : Nat → Nat → Bool)
    (heuristic : Nat → Nat) (s : SearchState) (r r' : List Nat × List Nat) (fuel fuel' : Nat)
    (h : a_star_loop g early_exit heuristic fuel s = some r)
    (h' : a_star_loop g early_exit heuristic fuel' s = some r') : r = r' := by
  have key : ∀ (a b : Nat) (x : List Nat × List Nat), a ≤ b →
      a_star_loop g early_exit heuristic a s = some x →
      a_star_loop g early_exit heuristic b s = some x := by
    intro a b x hab hx
    induction hab with
    | refl => exact hx
    | step _ ih => exact a_star_loop_fuel_succ g early_exit heuristic _ _ _ ih
  have h1 := key fuel (max fuel fuel') r (le_max_left _ _) h
  have h2 := key fuel' (max fuel fuel') r' (le_max_right _ _) h'
  rw [h1] at h2
  exact Option.some.inj h2

theorem gmark_wellFormed : WellFormed gmark :=
  ⟨by decide, by decide, by decide, by decide, by decide⟩

/-- C20, as stated, fails: on the well-formed graph `gmark` from node `0`, without early
exit, `a_star` with the zero heuristic returns predecessor table `[0,0,0]` while
`dijkstra_search` returns `[0,2,0]`, whatever the fuel. -/
theorem a_star_zero_gmark_differs :
    WellFormed gmark ∧ 0 < gmark.size ∧
    a_star 4 gmark 0 (fun _ _ => false) (fun _ => 0)
      = some ([0, 0, 0], [0, 4294967295, 4294967295]) ∧
    dijkstra_search 5 gmark 0 (fun _ _ => false)
      = some ([0, 2, 0], [0, 4294967295, 4294967295]) ∧
    ∀ fuel fuel' r r', a_star fuel gmark 0 (fun _ _ => false) (fun _ => 0) = some r →
      dijkstra_search fuel' gmark 0 (fun _ _ => false) = some r' → r ≠ r' := by
  have h1 : a_star 4 gmark 0 (fun _ _ => false) (fun _ => 0)
      = some ([0, 0, 0], [0, 4294967295, 4294967295]) := by decide
  have h2 : dijkstra_search 5 gmark 0 (fun _ _ => false)
      = some ([0, 2, 0], [0, 4294967295, 4294967295]) := by decide
  refine ⟨gmark_wellFormed, by decide, h1, h2, ?_⟩
  intro fuel fuel' r r' hr hr'
  have e1 := a_star_loop_unique gmark _ _ _ r _ fuel 4 hr h1
  have e2 := dijkstra_loop_unique gmark _ _ r' _ fuel' 5 hr' h2
  rw [e1, e2]
  decide

/-- C20, amended: on a well-formed weighted graph in which every cost the search can compute
stays strictly below the mark `2 ^ 32 - 1`, for every start node below the node count and
every early-exit predicate, `a_star` with the heuristic that is constantly `0` and
`dijkstra_search` with the same predicate give the same outcome for every fuel, and both
return tables for some fuel. -/
theorem a_star_zero_eq_dijkstra (g : Graph WeighedEdge) (start : Nat)
    (early_exit : Nat → Nat → Bool) (hwf : WellFormed g) (hs : start < g.size)
    (hb : CostsBelow g start UINT32_MAX) :
    (∀ fuel, a_star fuel g start early_exit (fun _ => 0)
      = dijkstra_search fuel g start early_exit) ∧
    ∃ fuel r, dijkstra_search fuel g start early_exit = some r ∧
      a_star fuel g start early_exit (fun _ => 0) = some r := by
  have heq : ∀ fuel, a_star fuel g start early_exit (fun _ => 0)
      = dijkstra_search fuel g start early_exit :=
    fun fuel => a_star_loop_eq hwf hb early_exit fuel _ (dijInv_init hwf hs)
  refine ⟨heq, ?_⟩
  obtain ⟨r, hr⟩ := dijkstra_loop_total hwf hb early_exit
    (search_measure (search_init g.size start) + 1) _ (dijInv_init hwf hs) (Nat.lt_succ_self _)
  exact ⟨search_measure (search_init g.size start) + 1, r, hr, by rw [heq]; exact hr⟩

theorem a_star_zero_eq_dijkstra_g2 :
    WellFormed g2 ∧ 0 < g2.size ∧ CostsBelow g2 0 UINT32_MAX ∧
    ((∀ fuel, a_star fuel g2 0 (fun c _ => decide (c = 8)) (fun _ => 0)
      = dijkstra_search fuel g2 0 (fun c _ => decide (c = 8))) ∧
    ∃ fuel r, dijkstra_search fuel g2 0 (fun c _ => decide (c = 8)) = some r ∧
      a_star fuel g2 0 (fun c _ => decide (c = 8)) (fun _ => 0) = some r) :=
  ⟨g2_wellFormed, by decide, g2_costsBelow,
    a_star_zero_eq_dijkstra g2 0 (fun c _ => decide (c = 8)) g2_wellFormed (by decide)
      g2_costsBelow⟩

/-! ## The parser steps that `arg_to_data` takes -/

theorem to_size_one : to_size 1 = 1 := by decide

theorem to_ptrdiff_one : to_ptrdiff 1 = 1 := by decide

theorem displace_one (ndebug : Bool) (p : SequentialParser) (h : p.m_loc < p.m_data.length)
    (hlen : p.m_data.length < 2 ^ 64) : p._displace_ ndebug 1 = Except.ok (p.m_loc + 1) := by
  have hmod : (p.m_loc + 1) % 18446744073709551616 = p.m_loc + 1 :=
    Nat.mod_eq_of_lt (by norm_num at hlen; omega)
  have hle : p.m_loc + 1 ≤ p.m_data.length := h
  simp [SequentialParser._displace_, c_assert, to_size_one, SequentialParser.total_size, hmod,
    hle, bind, Except.bind, pure, Except.pure]

theorem get_eq (ndebug : Bool) (p : SequentialParser) (h : p.m_loc < p.m_data.length)
    (hlen : p.m_data.length < 2 ^ 64) :
    p.get ndebug = Except.ok (p.m_data[p.m_loc], { p with m_loc := p.m_loc + 1 }) := by
  simp [SequentialParser.get, SequentialParser.current, SequentialParser.current_loc,
    List.getElem?_eq_getElem h, displace_one ndebug p h hlen, bind, Except.bind, pure,
    Except.pure]

theorem skip_for_one (ndebug : Bool) (p : SequentialParser) (h : p.m_loc < p.m_data.length)
    (hlen : p.m_data.length < 2 ^ 64) :
    p.skip_for ndebug 1 = Except.ok { p with m_loc := p.m_loc + 1 } := by
  simp [SequentialParser.skip_for, SequentialParser.mov, to_ptrdiff_one,
    displace_one ndebug p h hlen, bind, Except.bind, pure, Except.pure]

theorem rest_eq (p : SequentialParser) (h : p.m_loc ≤ p.m_data.length) :
    p.rest = Except.ok (p.m_data.drop p.m_loc) := by
  have : ¬ p.m_loc > p.m_data.length := by omega
  simp [SequentialParser.rest, sv_substr, this]

theorem at_end_iff (p : SequentialParser) : p.at_end = true ↔ p.m_loc = p.m_data.length := by
  simp [SequentialParser.at_end, SequentialParser.current_loc, SequentialParser.total_size]

/-! ## The loops of `arg_to_data` in list form -/

/-- The next state of the `while` loop after a flag character. -/
theorem arg_flags_step (ndebug : Bool) (args : List (List Char)) (fuel : Nat)
    (p : SequentialParser) (s : ArgState) (hlt : p.m_loc < p.m_data.length)
    (hlen : p.m_data.length < 2 ^ 64) :
    (s.k.flag_names.indexOf p.m_data[p.m_loc] ≠ s.k.flag_names.length →
      arg_flags ndebug args (fuel + 1) p s
        = arg_flags ndebug args fuel { p with m_loc := p.m_loc + 1 }
            { s with k := { s.k with
                flag_values := bump s.k.flag_values (s.k.flag_names.indexOf p.m_data[p.m_loc]) } } ∧
      scan_chars args (p.m_data.drop p.m_loc) s
        = scan_chars args (p.m_data.drop (p.m_loc + 1))
            { s with k := { s.k with
                flag_values := bump s.k.flag_values (s.k.flag_names.indexOf p.m_data[p.m_loc]) } }) ∧
    (s.k.flag_names.indexOf p.m_data[p.m_loc] = s.k.flag_names.length →
      arg_flags ndebug args (fuel + 1) p s = scan_chars args (p.m_data.drop p.m_loc) s) := by
  have hend : ¬ p.m_loc = p.m_data.length := by omega
  have h1 : p.at_end = false := by
    rw [← Bool.not_eq_true, at_end_iff]; exact hend
  have h2 : p.m_data.drop p.m_loc = p.m_data[p.m_loc] :: p.m_data.drop (p.m_loc + 1) :=
    List.drop_eq_getElem_cons hlt
  rw [h2]
  simp only [arg_flags, h1, get_eq ndebug p hlt hlen, scan_chars]
  simp only [bind, Except.bind, Bool.false_eq_true, if_false]
  constructor
  · intro hf
    rw [if_pos hf, if_pos hf]
    exact ⟨rfl, rfl⟩
  · intro hf
    have hf' : ¬ s.k.flag_names.indexOf p.m_data[p.m_loc] ≠ s.k.flag_names.length :=
      fun h => h hf
    rw [if_neg hf', if_neg hf']
    by_cases hc : s.k.optional_short_names.indexOf p.m_data[p.m_loc]
        = s.k.optional_short_names.length
    · rw [if_pos hc, if_pos hc]
    · rw [if_neg hc, if_neg hc]
      by_cases hlast : p.m_loc + 1 = p.m_data.length
      · have h3 : ({ p with m_loc := p.m_loc + 1 } : SequentialParser).at_end = true :=
          (at_end_iff _).2 hlast
        have h4 : p.m_data.drop (p.m_loc + 1) = [] := by rw [hlast]; simp
        rw [if_pos h3, if_pos h4]
        cases inbound args.length s.i "Missing option value." <;> rfl
      · have h3 : ¬ ({ p with m_loc := p.m_loc + 1 } : SequentialParser).at_end = true := by
          rw [at_end_iff]; exact hlast
        have h4 : ¬ p.m_data.drop (p.m_loc + 1) = [] := by
          intro h
          have := congrArg List.length h
          simp at this
          omega
        rw [if_neg h3, if_neg h4, rest_eq _ (by simpa using hlt)]
        rfl

theorem arg_flags_done (ndebug : Bool) (args : List (List Char)) (fuel : Nat)
    (p : SequentialParser) (s : ArgState) (hend : p.m_loc = p.m_data.length) :
    arg_flags ndebug args (fuel + 1) p s = scan_chars args (p.m_data.drop p.m_loc) s := by
  have h1 : p.at_end = true := (at_end_iff p).2 hend
  have h2 : p.m_data.drop p.m_loc = [] := by rw [hend]; simp
  simp [arg_flags, h1, h2, scan_chars, pure, Except.pure]

/-- With fuel for every character that is left, the `while` loop is its list form. -/
theorem arg_flags_eq (ndebug : Bool) (args : List (List Char)) :
    ∀ (fuel : Nat) (p : SequentialParser) (s : ArgState), p.m_loc ≤ p.m_data.length →
      p.m_data.length < 2 ^ 64 → p.m_data.length - p.m_loc < fuel →
      arg_flags ndebug args fuel p s = scan_chars args (p.m_data.drop p.m_loc) s := by
  intro fuel
  induction fuel with
  | zero => intro p s _ _ h; omega
  | succ fuel ih =>
    intro p s hle hlen hfuel
    by_cases hend : p.m_loc = p.m_data.length
    · exact arg_flags_done ndebug args fuel p s hend
    · have hlt : p.m_loc < p.m_data.length := by omega
      obtain ⟨hA, hB⟩ := arg_flags_step ndebug args fuel p s hlt hlen
      by_cases hf : s.k.flag_names.indexOf p.m_data[p.m_loc] = s.k.flag_names.length
      · exact hB hf
      · rw [(hA hf).1, (hA hf).2]
        exact ih _ _ (by simpa using hlt) hlen (by simp only []; omega)

/-- Whatever the fuel, a normal end of the `while` loop is the one of its list form. -/
theorem arg_flags_ok (ndebug : Bool) (args : List (List Char)) :
    ∀ (fuel : Nat) (p : SequentialParser) (s t : ArgState), p.m_loc ≤ p.m_data.length →
      p.m_data.length < 2 ^ 64 → arg_flags ndebug args fuel p s = Except.ok t →
      scan_chars args (p.m_data.drop p.m_loc) s = Except.ok t := by
  intro fuel
  induction fuel with
  | zero => intro p s t _ _ h; simp [arg_flags] at h
  | succ fuel ih =>
    intro p s t hle hlen h
    by_cases hend : p.m_loc = p.m_data.length
    · rw [← arg_flags_done ndebug args fuel p s hend]; exact h
    · have hlt : p.m_loc < p.m_data.length := by omega
      obtain ⟨hA, hB⟩ := arg_flags_step ndebug args fuel p s hlt hlen
      by_cases hf : s.k.flag_names.indexOf p.m_data[p.m_loc] = s.k.flag_names.length
      · rw [← hB hf]; exact h
      · rw [(hA hf).1] at h
        rw [(hA hf).2]
        exact ih { p with m_loc := p.m_loc + 1 } _ t (by simpa using hlt) hlen h

theorem body_chars_long (args : List (List Char)) (s : ArgState) (name : List Char) :
    body_chars args s ('-' :: '-' :: name) =
      if s.k.optional_names.indexOf name = s.k.optional_names.length then
        Except.error (Failure.logic_error "Option not found.")
      else
        (inbound args.length s.i "Missing option value.").map (fun i =>
          { s with i := i, k := { s.k with
              optional_values :=
                s.k.optional_values.set (s.k.optional_names.indexOf name) (args.getD i []) } }) := by
  simp [body_chars]

theorem body_chars_dash (args : List (List Char)) (s : ArgState) (c : Char) (tl : List Char)
    (hc : c ≠ '-') : body_chars args s ('-' :: c :: tl) = scan_chars args (c :: tl) s := by
  simp [body_chars, hc]

theorem body_chars_plain (args : List (List Char)) (s : ArgState) (a : List Char)
    (ha : a ≠ []) (h : ∀ c tl, a ≠ '-' :: c :: tl) :
    body_chars args s a =
      if s.req_i = s.k.required_values.length then
        Except.error (Failure.out_of_range "More arguments than expected.")
      else
        Except.ok { s with req_i := s.req_i + 1, k := { s.k with
          required_values := s.k.required_values.set s.req_i a } } := by
  unfold body_chars
  split
  · exact absurd rfl ha
  · exact absurd rfl (h _ _)
  · exact absurd rfl (h _ _)
  · rfl

/-- The body of the `for` loop is its list form, but for a single-dash argument, where it is
the `while` loop started after the dash. -/
theorem arg_body_cases (ndebug : Bool) (args : List (List Char)) (fuel : Nat) (s : ArgState)
    (hlen : (args.getD s.i []).length < 2 ^ 64) :
    arg_body ndebug args fuel s = body_chars args s (args.getD s.i []) ∨
    ∃ c tl, args.getD s.i [] = '-' :: c :: tl ∧ c ≠ '-' ∧
      body_chars args s (args.getD s.i []) = scan_chars args (c :: tl) s ∧
      arg_body ndebug args fuel s
        = arg_flags ndebug args fuel { m_data := '-' :: c :: tl, m_loc := 1 } s := by
  generalize hA : args.getD s.i [] = a at hlen
  unfold arg_body
  rw [hA]
  cases a with
  | nil => exact Or.inl rfl
  | cons c0 tl0 =>
    have hcur : SequentialParser.current { m_data := c0 :: tl0, m_loc := 0 } = Except.ok c0 := by
      simp [SequentialParser.current, SequentialParser.current_loc]
    have hrest : SequentialParser.rest { m_data := c0 :: tl0, m_loc := 0 }
        = Except.ok (c0 :: tl0) := rest_eq _ (Nat.zero_le _)
    simp only [bind, Except.bind, SequentialParser.total_size, SequentialParser.new, hcur]
    by_cases hreq : c0 ≠ '-' ∨ (c0 :: tl0).length = 1
    · left
      rw [if_pos hreq]
      have hplain : ∀ c tl, c0 :: tl0 ≠ '-' :: c :: tl := by
        intro c tl heq
        simp only [List.cons.injEq] at heq
        rcases hreq with h | h
        · exact h heq.1
        · rw [heq.2] at h; simp at h
      rw [body_chars_plain args s (c0 :: tl0) (by simp) hplain]
      by_cases hr : s.req_i = s.k.required_values.length
      · rw [if_pos hr, if_pos hr]
      · rw [if_neg hr, if_neg hr, hrest]
        rfl
    · rw [if_neg hreq]
      have hc0 : c0 = '-' := by
        by_contra h; exact hreq (Or.inl h)
      subst hc0
      cases tl0 with
      | nil => exact absurd (Or.inr rfl) hreq
      | cons c1 tl1 =>
        have hskip : SequentialParser.skip_for ndebug { m_data := '-' :: c1 :: tl1, m_loc := 0 } 1
            = Except.ok { m_data := '-' :: c1 :: tl1, m_loc := 1 } :=
          skip_for_one ndebug _ (by simp) hlen
        have hcur1 : SequentialParser.current { m_data := '-' :: c1 :: tl1, m_loc := 1 }
            = Except.ok c1 := by
          simp [SequentialParser.current, SequentialParser.current_loc]
        rw [hskip]
        simp only [hcur1]
        by_cases hc1 : c1 = '-'
        · left
          subst hc1
          have hskip2 : SequentialParser.skip_for ndebug
              { m_data := '-' :: '-' :: tl1, m_loc := 1 } 1
              = Except.ok { m_data := '-' :: '-' :: tl1, m_loc := 2 } :=
            skip_for_one ndebug _ (by simp) hlen
          have hrest2 : SequentialParser.rest { m_data := '-' :: '-' :: tl1, m_loc := 2 }
              = Except.ok tl1 := rest_eq _ (by simp)
          rw [if_pos rfl, hskip2]
          simp only [hrest2]
          rw [body_chars_long]
          by_cases ho : s.k.optional_names.indexOf tl1 = s.k.optional_names.length
          · rw [if_pos ho, if_pos ho]
          · rw [if_neg ho, if_neg ho]
            cases inbound args.length s.i "Missing option value." <;> rfl
        · right
          rw [if_neg hc1]
          exact ⟨c1, tl1, rfl, hc1, body_chars_dash args s c1 tl1 hc1, rfl⟩

/-- With fuel for every character of the argument, the body of the `for` loop is its list
form. -/
theorem arg_body_eq (ndebug : Bool) (args : List (List Char)) (fuel : Nat) (s : ArgState)
    (hlen : (args.getD s.i []).length < 2 ^ 64) (hfuel : (args.getD s.i []).length < fuel) :
    arg_body ndebug args fuel s = body_chars args s (args.getD s.i []) := by
  rcases arg_body_cases ndebug args fuel s hlen with h | ⟨c, tl, ha, _, hb, hc⟩
  · exact h
  · rw [hc, hb]
    rw [ha] at hlen hfuel
    exact arg_flags_eq ndebug args fuel _ s (by simp) hlen (by simp at hfuel ⊢; omega)

/-- Whatever the fuel, a normal end of the body of the `for` loop is the one of its list
form. -/
theorem arg_body_ok (ndebug : Bool) (args : List (List Char)) (fuel : Nat) (s t : ArgState)
    (hlen : (args.getD s.i []).length < 2 ^ 64)
    (h : arg_body ndebug args fuel s = Except.ok t) :
    body_chars args s (args.getD s.i []) = Except.ok t := by
  rcases arg_body_cases ndebug args fuel s hlen with h' | ⟨c, tl, ha, _, hb, hc⟩
  · rw [← h']; exact h
  · rw [hb]
    rw [hc] at h
    rw [ha] at hlen
    exact arg_flags_ok ndebug args fuel _ s t (by simp) hlen h

/-! ## Counting the flags -/

theorem indexOf_ne_length_iff (ch : Char) (l : List Char) :
    l.indexOf ch ≠ l.length ↔ ch ∈ l := by
  rw [← List.indexOf_lt_length]
  have := List.indexOf_le_length (a := ch) (l := l)
  omega

theorem bump_length (flags : List Nat) (f : Nat) : (bump flags f).length = flags.length := by
  simp [bump]

theorem bump_lt (flags : List Nat) (f : Nat) (h : ∀ x ∈ flags, x < 2 ^ 32) :
    ∀ x ∈ bump flags f, x < 2 ^ 32 := by
  intro x hx
  rcases List.mem_or_eq_of_mem_set hx with h' | h'
  · exact h x h'
  · rw [h']; exact Nat.mod_lt _ (by norm_num)

theorem getD_lt_of_all_lt (flags : List Nat) (j : Nat) (h : ∀ x ∈ flags, x < 2 ^ 32) :
    flags.getD j 0 < 2 ^ 32 := by
  rw [List.getD_eq_getElem?_getD]
  cases hj : flags[j]? with
  | none => simp
  | some x => simpa using h x (List.getElem?_mem hj)

theorem bump_getD (flags : List Nat) (f j : Nat) (hf : f < flags.length) :
    (bump flags f).getD j 0 = if f = j then (flags.getD j 0 + 1) % 2 ^ 32 else flags.getD j 0 := by
  by_cases hfj : f = j
  · subst hfj
    rw [if_pos rfl]
    exact getD_set_self _ _ _ _ hf
  · rw [if_neg hfj]
    exact getD_set_ne _ _ _ _ _ hfj

theorem foldl_bump_getD (names : List Char) :
    ∀ (run : List Char) (flags : List Nat), (∀ x ∈ flags, x < 2 ^ 32) →
      (∀ ch ∈ run, names.indexOf ch < flags.length) → ∀ j,
      (run.foldl (fun fl ch => bump fl (names.indexOf ch)) flags).getD j 0
        = (flags.getD j 0 + flag_hits names j run) % 2 ^ 32 := by
  intro run
  induction run with
  | nil =>
    intro flags hlt _ j
    have := getD_lt_of_all_lt flags j hlt
    simp only [List.foldl_nil, flag_hits, List.countP_nil, Nat.add_zero]
    exact (Nat.mod_eq_of_lt this).symm
  | cons ch run ih =>
    intro flags hlt hrun j
    have hch := hrun ch (List.mem_cons_self _ _)
    simp only [List.foldl_cons]
    rw [ih (bump flags (names.indexOf ch)) (bump_lt _ _ hlt)
      (fun c hc => by rw [bump_length]; exact hrun c (List.mem_cons_of_mem _ hc)) j,
      bump_getD _ _ _ hch]
    have hcount : flag_hits names j (ch :: run)
        = flag_hits names j run + if names.indexOf ch = j then 1 else 0 := by
      simp [flag_hits, List.countP_cons]
    rw [hcount]
    by_cases hj : names.indexOf ch = j
    · rw [if_pos hj, if_pos hj]
      norm_num
      omega
    · rw [if_neg hj, if_neg hj]
      rfl

theorem flag_run_mem (names : List Char) (body : List Char) :
    ∀ ch ∈ flag_run names body, ch ∈ names := by
  intro ch hch
  have := List.mem_takeWhile_imp hch
  simpa using this

/-- What a normal end of the `while` loop leaves, told on the characters of the body. -/
theorem scan_chars_ok (args : List (List Char)) :
    ∀ (b : List Char) (s t : ArgState), scan_chars args b s = Except.ok t →
      t.k.flag_names = s.k.flag_names ∧
      t.k.flag_values
        = (flag_run s.k.flag_names b).foldl
            (fun fl ch => bump fl (s.k.flag_names.indexOf ch)) s.k.flag_values ∧
      ((b.dropWhile (fun ch => decide (ch ∈ s.k.flag_names))).length = 1 →
        t.i = s.i + 1 ∧ s.i + 1 ≠ args.length) ∧
      ((b.dropWhile (fun ch => decide (ch ∈ s.k.flag_names))).length ≠ 1 → t.i = s.i) := by
  intro b
  induction b with
  | nil =>
    intro s t h
    simp only [scan_chars, Except.ok.injEq] at h
    subst h
    simp [flag_run]
  | cons ch tl ih =>
    intro s t h
    simp only [scan_chars] at h
    by_cases hf : s.k.flag_names.indexOf ch ≠ s.k.flag_names.length
    · rw [if_pos hf] at h
      have hmem : ch ∈ s.k.flag_names := (indexOf_ne_length_iff _ _).1 hf
      obtain ⟨h1, h2, h3, h4⟩ := ih _ t h
      simp only [] at h1 h2 h3 h4
      refine ⟨h1, ?_, ?_, ?_⟩
      · rw [h2]
        simp [flag_run, List.takeWhile_cons, hmem]
      · simpa [List.dropWhile_cons, hmem] using h3
      · simpa [List.dropWhile_cons, hmem] using h4
    · rw [if_neg hf] at h
      have hmem : ¬ ch ∈ s.k.flag_names := fun hm => hf ((indexOf_ne_length_iff _ _).2 hm)
      have hrun : flag_run s.k.flag_names (ch :: tl) = [] := by
        simp [flag_run, List.takeWhile_cons, hmem]
      have hdrop : (ch :: tl).dropWhile (fun c => decide (c ∈ s.k.flag_names)) = ch :: tl := by
        simp [List.dropWhile_cons, hmem]
      rw [hrun, hdrop]
      by_cases hc : s.k.optional_short_names.indexOf ch = s.k.optional_short_names.length
      · rw [if_pos hc] at h
        exact absurd h (by simp)
      · rw [if_neg hc] at h
        by_cases htl : tl = []
        · rw [if_pos htl] at h
          subst htl
          unfold inbound at h
          by_cases hin : s.i + 1 = args.length
          · rw [if_pos hin] at h
            exact absurd h (by simp [Except.map])
          · rw [if_neg hin] at h
            simp only [Except.map, Except.ok.injEq] at h
            subst h
            simp [hin]
        · rw [if_neg htl] at h
          simp only [Except.ok.injEq] at h
          subst h
          have hlen : (ch :: tl).length ≠ 1 := by
            cases tl with
            | nil => exact absurd rfl htl
            | cons _ _ => simp
          simp [hlen, htl]

/-! ## Which arguments are scanned -/

theorem scanned_skip (names : List Char) (rest : List (List Char)) :
    scanned_bodies names true rest = scanned_bodies names false (rest.drop 1) := by
  cases rest with
  | nil => simp [scanned_bodies]
  | cons v rest => simp [scanned_bodies]

theorem scanned_long (names : List Char) (name : List Char) (rest : List (List Char)) :
    scanned_bodies names false (('-' :: '-' :: name) :: rest)
      = scanned_bodies names true rest := by
  simp [scanned_bodies]

theorem scanned_dash (names : List Char) (c : Char) (tl : List Char) (rest : List (List Char))
    (hc : c ≠ '-') :
    scanned_bodies names false (('-' :: c :: tl) :: rest)
      = (c :: tl) :: scanned_bodies names
          (decide (((c :: tl).dropWhile (fun ch => decide (ch ∈ names))).length = 1)) rest := by
  simp [scanned_bodies, hc]

theorem scanned_plain (names : List Char) (a : List Char) (rest : List (List Char))
    (h : ∀ c tl, a ≠ '-' :: c :: tl) :
    scanned_bodies names false (a :: rest) = scanned_bodies names false rest := by
  cases a with
  | nil => simp [scanned_bodies]
  | cons c0 tl0 =>
    by_cases hc0 : c0 = '-'
    · subst hc0
      cases tl0 with
      | nil => simp [scanned_bodies]
      | cons c1 tl1 => exact absurd rfl (h c1 tl1)
    · simp [scanned_bodies, hc0]

theorem foldl_bump_keep (names : List Char) :
    ∀ (run : List Char) (flags : List Nat), (∀ x ∈ flags, x < 2 ^ 32) →
      (run.foldl (fun fl ch => bump fl (names.indexOf ch)) flags).length = flags.length ∧
      ∀ x ∈ run.foldl (fun fl ch => bump fl (names.indexOf ch)) flags, x < 2 ^ 32 := by
  intro run
  induction run with
  | nil => intro flags h; exact ⟨rfl, h⟩
  | cons ch run ih =>
    intro flags h
    simp only [List.foldl_cons]
    obtain ⟨h1, h2⟩ := ih (bump flags (names.indexOf ch)) (bump_lt _ _ h)
    exact ⟨by rw [h1, bump_length], h2⟩

theorem mod_self_of_getD (flags : List Nat) (j : Nat) (h : ∀ x ∈ flags, x < 2 ^ 32) :
    flags.getD j 0 = (flags.getD j 0 + 0) % 2 ^ 32 := by
  rw [Nat.add_zero, Nat.mod_eq_of_lt (getD_lt_of_all_lt flags j h)]

/-- What a normal end of the body of the `for` loop does to the flag counters, and which
arguments are left to scan. -/
theorem body_chars_flags (args : List (List Char)) (s t : ArgState) (a : List Char)
    (rest : List (List Char)) (h : body_chars args s a = Except.ok t)
    (hlen : s.k.flag_values.length = s.k.flag_names.length)
    (hlt : ∀ x ∈ s.k.flag_values, x < 2 ^ 32) :
    t.k.flag_names = s.k.flag_names ∧ t.k.flag_values.length = s.k.flag_values.length ∧
    (∀ x ∈ t.k.flag_values, x < 2 ^ 32) ∧
    (t.i = s.i ∨ (t.i = s.i + 1 ∧ s.i + 1 ≠ args.length)) ∧
    ∃ X, scanned_bodies s.k.flag_names false (a :: rest)
        = X ++ scanned_bodies s.k.flag_names false (rest.drop (t.i - s.i)) ∧
      ∀ j, t.k.flag_values.getD j 0
        = (s.k.flag_values.getD j 0
            + (X.map (fun b => flag_hits s.k.flag_names j (flag_run s.k.flag_names b))).sum)
          % 2 ^ 32 := by
  cases a with
  | nil => simp [body_chars] at h
  | cons c0 tl0 =>
    by_cases hdash : ∃ c tl, c0 :: tl0 = '-' :: c :: tl
    · obtain ⟨c, tl, heq⟩ := hdash
      rw [heq] at h ⊢
      by_cases hc : c = '-'
      · subst hc
        rw [body_chars_long] at h
        by_cases ho : s.k.optional_names.indexOf tl = s.k.optional_names.length
        · rw [if_pos ho] at h; exact absurd h (by simp)
        · rw [if_neg ho] at h
          unfold inbound at h
          by_cases hin : s.i + 1 = args.length
          · rw [if_pos hin] at h
            exact absurd h (by simp [Except.map])
          · rw [if_neg hin] at h
            simp only [Except.map, Except.ok.injEq] at h
            subst h
            refine ⟨rfl, rfl, hlt, Or.inr ⟨rfl, hin⟩, [], ?_, ?_⟩
            · rw [scanned_long, scanned_skip]
              simp
            · intro j
              simpa using mod_self_of_getD s.k.flag_values j hlt
      · rw [body_chars_dash args s c tl hc] at h
        obtain ⟨h1, h2, h3, h4⟩ := scan_chars_ok args (c :: tl) s t h
        have hkeep := foldl_bump_keep s.k.flag_names (flag_run s.k.flag_names (c :: tl))
          s.k.flag_values hlt
        rw [← h2] at hkeep
        have hcases : t.i = s.i ∨ (t.i = s.i + 1 ∧ s.i + 1 ≠ args.length) := by
          by_cases hone : ((c :: tl).dropWhile (fun ch => decide (ch ∈ s.k.flag_names))).length = 1
          · exact Or.inr (h3 hone)
          · exact Or.inl (h4 hone)
        refine ⟨h1, hkeep.1, hkeep.2, hcases, [c :: tl], ?_, ?_⟩
        · rw [scanned_dash _ _ _ _ hc]
          by_cases hone : ((c :: tl).dropWhile (fun ch => decide (ch ∈ s.k.flag_names))).length = 1
          · have := (h3 hone).1
            rw [this]
            simp [hone, scanned_skip]
          · have := h4 hone
            rw [this]
            simp [hone]
        · intro j
          rw [h2, foldl_bump_getD s.k.flag_names _ _ hlt
            (fun ch hch => by
              rw [hlen, List.indexOf_lt_length]
              exact flag_run_mem _ _ ch hch) j]
          simp
    · have hplain : ∀ c tl, c0 :: tl0 ≠ '-' :: c :: tl := fun c tl heq => hdash ⟨c, tl, heq⟩
      rw [body_chars_plain args s (c0 :: tl0) (by simp) hplain] at h
      by_cases hr : s.req_i = s.k.required_values.length
      · rw [if_pos hr] at h; exact absurd h (by simp)
      · rw [if_neg hr] at h
        simp only [Except.ok.injEq] at h
        subst h
        refine ⟨rfl, rfl, hlt, Or.inl rfl, [], ?_, ?_⟩
        · rw [scanned_plain _ _ _ hplain]
          simp
        · intro j
          simpa using mod_self_of_getD s.k.flag_values j hlt

theorem arg_loop_flags (ndebug : Bool) (args : List (List Char)) (scan_fuel : Nat)
    (hargs : ∀ a ∈ args, a.length < 2 ^ 64) :
    ∀ (fuel : Nat) (s : ArgState) (k' : Arguments), s.i ≤ args.length →
      s.k.flag_values.length = s.k.flag_names.length → (∀ x ∈ s.k.flag_values, x < 2 ^ 32) →
      arg_loop ndebug args scan_fuel fuel s = Except.ok k' →
      k'.flag_names = s.k.flag_names ∧ k'.flag_values.length = s.k.flag_values.length ∧
      ∀ j, k'.flag_values.getD j 0
        = (s.k.flag_values.getD j 0 + flag_reads s.k.flag_names j (args.drop s.i)) % 2 ^ 32 := by
  intro fuel
  induction fuel with
  | zero => intro s k' _ _ _ h; simp [arg_loop] at h
  | succ fuel ih =>
    intro s k' hi hlen hlt h
    rw [arg_loop] at h
    by_cases hend : s.i = args.length
    · rw [if_pos hend] at h
      by_cases hr : s.req_i ≠ s.k.required_values.length
      · rw [if_pos hr] at h; exact absurd h (by simp)
      · rw [if_neg hr] at h
        simp only [pure, Except.pure, Except.ok.injEq] at h
        subst h
        refine ⟨rfl, rfl, ?_⟩
        intro j
        rw [hend]
        simpa [flag_reads, scanned_bodies] using mod_self_of_getD s.k.flag_values j hlt
    · rw [if_neg hend] at h
      have hlt' : s.i < args.length := by omega
      have hget : args.getD s.i [] = args[s.i] := by
        simp [List.getD_eq_getElem?_getD, List.getElem?_eq_getElem hlt']
      have hdrop : args.drop s.i = args[s.i] :: args.drop (s.i + 1) :=
        List.drop_eq_getElem_cons hlt'
      have hal : (args.getD s.i []).length < 2 ^ 64 := by
        rw [hget]; exact hargs _ (List.getElem_mem hlt')
      cases hb : arg_body ndebug args scan_fuel s with
      | error e => rw [hb] at h; exact absurd h (by simp [bind, Except.bind])
      | ok t =>
        rw [hb] at h
        simp only [bind, Except.bind] at h
        have hbody := arg_body_ok ndebug args scan_fuel s t hal hb
        rw [hget] at hbody
        obtain ⟨b1, b2, b3, b4, X, b5, b6⟩ :=
          body_chars_flags args s t _ (args.drop (s.i + 1)) hbody hlen hlt
        have hti : t.i + 1 ≤ args.length := by
          rcases b4 with h' | ⟨h', h''⟩ <;> omega
        obtain ⟨c1, c2, c3⟩ := ih { t with i := t.i + 1 } k' hti (by rw [b2, hlen, b1])
          b3 h
        simp only [] at c1 c2 c3
        refine ⟨by rw [c1, b1], by rw [c2, b2], ?_⟩
        intro j
        have hdd : (args.drop (s.i + 1)).drop (t.i - s.i) = args.drop (t.i + 1) := by
          rw [List.drop_drop]
          congr 1
          rcases b4 with h' | ⟨h', _⟩ <;> omega
        have hreads : flag_reads s.k.flag_names j (args.drop s.i)
            = (X.map (fun b => flag_hits s.k.flag_names j (flag_run s.k.flag_names b))).sum
              + flag_reads s.k.flag_names j (args.drop (t.i + 1)) := by
          simp only [flag_reads]
          rw [hdrop, b5, hdd, List.map_append, List.sum_append]
        rw [c3 j, b6 j, hreads, b1]
        omega

/-- C15, as stated, fails when a character is both a flag name and a short-option name: with
flags {a}, short options {a} and the argument "-aa", `arg_to_data` returns normally and has
raised the counter of `a` from 0 to 2, while no character at all stands before the first
short-option name of "aa", so the count of the claim is 0. -/
theorem arg_flags_overlap_counted :
    arg_to_data false 4 ["x".toList, "-aa".toList]
        { optional_names := [], optional_short_names := ['a'], flag_names := ['a'],
          required_values := [], optional_values := [], optional_short_values := [[]],
          flag_values := [0] }
      = Except.ok
        { optional_names := [], optional_short_names := ['a'], flag_names := ['a'],
          required_values := [], optional_values := [], optional_short_values := [[]],
          flag_values := [2] } ∧
    short_free_run ['a'] "aa".toList = [] ∧
    0 + flag_hits ['a'] 0 (short_free_run ['a'] "aa".toList) ≠ 2 := by
  refine ⟨by rfl, by decide, by decide⟩

/-- C15, amended: whenever `arg_to_data` returns normally, counter `j` has grown, modulo 2^32,
by the number of characters bound to `flag_names[j]` in the runs of flag names that open the
bodies of the scanned single-dash arguments (an argument taken as the value of the option
before it is not scanned); the run of one argument ends before the first character that is
not a flag name. -/
theorem arg_flags_counted (ndebug : Bool) (fuel : Nat) (argv : List (List Char))
    (k k' : Arguments) (hk : k.Sized) (hargs : ∀ a ∈ argv.tail, a.length < 2 ^ 64)
    (h : arg_to_data ndebug fuel argv k = Except.ok k') :
    k'.flag_names = k.flag_names ∧ k'.flag_values.length = k.flag_values.length ∧
    ∀ j, k'.flag_values.getD j 0
      = (k.flag_values.getD j 0 + flag_reads k.flag_names j argv.tail) % 2 ^ 32 := by
  cases argv with
  | nil => simp [arg_to_data] at h
  | cons exe args =>
    simp only [arg_to_data] at h
    have := arg_loop_flags ndebug args fuel hargs fuel { i := 0, req_i := 0, k := k } k'
      (Nat.zero_le _) hk.flag hk.flag_lt h
    simpa using this

/-- C15 on `TEST(Commandline, Basic)`: the call returns, `a` is 2 and `b` is 1. -/
theorem arg_flags_counted_tests :
    (∃ k', arg_to_data false 10 test_argv test_arguments = Except.ok k') ∧
    ∀ k', arg_to_data false 10 test_argv test_arguments = Except.ok k' →
      k'.flag_values.getD 0 0 = 2 ∧ k'.flag_values.getD 1 0 = 1 := by
  refine ⟨⟨_, rfl⟩, ?_⟩
  intro k' h
  have hk : test_arguments.Sized := ⟨rfl, rfl, rfl, by decide⟩
  obtain ⟨_, _, h3⟩ := arg_flags_counted false 10 test_argv test_arguments k' hk (by decide) h
  exact ⟨by rw [h3 0]; decide, by rw [h3 1]; decide⟩

theorem indexOf_lt_of_mem {α : Type} [BEq α] [LawfulBEq α] (a : α) (l : List α)
    (h : a ∈ l) : l.indexOf a < l.length := by
  unfold List.indexOf
  exact List.findIdx_lt_length_of_exists ⟨a, h, by simp⟩

theorem scan_chars_short (args : List (List Char)) (c : Char) (post : List Char) :
    ∀ (pre : List Char) (s : ArgState), (∀ x ∈ pre, x ∈ s.k.flag_names) →
      c ∉ s.k.flag_names → c ∈ s.k.optional_short_names →
      ∃ fl, scan_chars args (pre ++ c :: post) s
        = if post = [] then
            (inbound args.length s.i "Missing option value.").map (fun i =>
              { s with i := i, k := { s.k with
                  flag_values := fl,
                  optional_short_values :=
                    s.k.optional_short_values.set (s.k.optional_short_names.indexOf c)
                      (args.getD i []) } })
          else
            Except.ok { s with k := { s.k with
              flag_values := fl,
              optional_short_values :=
                s.k.optional_short_values.set (s.k.optional_short_names.indexOf c) post } } := by
  intro pre
  induction pre with
  | nil =>
    intro s _ hc hs
    refine ⟨s.k.flag_values, ?_⟩
    have h1 : s.k.flag_names.indexOf c = s.k.flag_names.length :=
      List.indexOf_eq_length.mpr hc
    have h2 : s.k.optional_short_names.indexOf c ≠ s.k.optional_short_names.length := by
      intro h; exact (List.indexOf_eq_length.mp h) hs
    simp only [List.nil_append, scan_chars, h1, ne_eq, not_true_eq_false, if_false, h2]
  | cons ch pre ih =>
    intro s hpre hc hs
    have h1 : s.k.flag_names.indexOf ch ≠ s.k.flag_names.length := by
      intro h; exact (List.indexOf_eq_length.mp h) (hpre ch (List.mem_cons_self _ _))
    obtain ⟨fl, hfl⟩ := ih
      { s with k := { s.k with
          flag_values := bump s.k.flag_values (s.k.flag_names.indexOf ch) } }
      (fun x hx => hpre x (List.mem_cons_of_mem _ hx)) hc hs
    refine ⟨fl, ?_⟩
    rw [List.cons_append, scan_chars, if_pos h1]
    exact hfl

theorem arg_loop_step (ndebug : Bool) (args : List (List Char)) (scan_fuel n : Nat)
    (s : ArgState) (r : Except Failure ArgState) (hi : s.i ≠ args.length)
    (hb : arg_body ndebug args scan_fuel s = r) :
    arg_loop ndebug args scan_fuel (n + 1) s
      = r.bind (fun t => arg_loop ndebug args scan_fuel n { t with i := t.i + 1 }) := by
  rw [arg_loop, if_neg hi, hb]
  rfl

/-- C16: in one pass of the `for` loop of `arg_to_data` over an argument that exists and is
shorter than 2^64 characters, with enough fuel for the scan of its characters: (1) when the
argument is `-`, a run `pre` of flag names, a short-option name `c` that is no flag name, and
`post`, the object of `c` becomes `post` if `post` is not empty (and the next argument is the
next to be parsed); if `post` is empty it becomes the next argument, the loop goes on two
arguments further, and `std::out_of_range` ends the call when there is no next argument;
(2) when the argument is `--name` with `name` in `optional_names`, the object of `name`
becomes the next argument, the loop goes on two arguments further, and `std::out_of_range`
ends the call when there is no next argument. -/
theorem option_value_stored (ndebug : Bool) (args : List (List Char)) (fuel : Nat)
    (s : ArgState) (hk : s.k.Sized) (hi : s.i < args.length)
    (hlen : (args.getD s.i []).length < 2 ^ 64) (hfuel : (args.getD s.i []).length < fuel) :
    (∀ pre c post, args.getD s.i [] = '-' :: (pre ++ c :: post) →
      (pre ++ [c]).head? ≠ some '-' → (∀ x ∈ pre, x ∈ s.k.flag_names) →
      c ∉ s.k.flag_names → c ∈ s.k.optional_short_names →
      (post ≠ [] → ∃ t, arg_body ndebug args fuel s = Except.ok t ∧ t.i = s.i ∧
        t.k.optional_short_values[s.k.optional_short_names.indexOf c]? = some post ∧
        ∀ n, arg_loop ndebug args fuel (n + 1) s
          = arg_loop ndebug args fuel n { t with i := s.i + 1 }) ∧
      (post = [] → s.i + 1 < args.length →
        ∃ t, arg_body ndebug args fuel s = Except.ok t ∧
        t.k.optional_short_values[s.k.optional_short_names.indexOf c]?
          = some (args.getD (s.i + 1) []) ∧
        ∀ n, arg_loop ndebug args fuel (n + 1) s
          = arg_loop ndebug args fuel n { t with i := s.i + 2 }) ∧
      (post = [] → s.i + 1 = args.length →
        ∀ n, arg_loop ndebug args fuel (n + 1) s
          = Except.error (Failure.out_of_range "Missing option value."))) ∧
    (∀ name, args.getD s.i [] = '-' :: '-' :: name → name ∈ s.k.optional_names →
      (s.i + 1 < args.length →
        ∃ t, arg_body ndebug args fuel s = Except.ok t ∧
        t.k.optional_values[s.k.optional_names.indexOf name]?
          = some (args.getD (s.i + 1) []) ∧
        ∀ n, arg_loop ndebug args fuel (n + 1) s
          = arg_loop ndebug args fuel n { t with i := s.i + 2 }) ∧
      (s.i + 1 = args.length →
        ∀ n, arg_loop ndebug args fuel (n + 1) s
          = Except.error (Failure.out_of_range "Missing option value."))) := by
  have hbody := arg_body_eq ndebug args fuel s hlen hfuel
  have hne : s.i ≠ args.length := by omega
  constructor
  · intro pre c post ha hhead hpre hc hs
    have hidx : s.k.optional_short_names.indexOf c < s.k.optional_short_values.length := by
      rw [hk.short]; exact List.indexOf_lt_length.mpr hs
    obtain ⟨fl, hfl⟩ := scan_chars_short args c post pre s hpre hc hs
    have hscan : body_chars args s ('-' :: (pre ++ c :: post))
        = scan_chars args (pre ++ c :: post) s := by
      cases pre with
      | nil =>
        have : c ≠ '-' := by simpa using hhead
        simpa using body_chars_dash args s c post this
      | cons p0 pre =>
        have : p0 ≠ '-' := by simpa using hhead
        simpa using body_chars_dash args s p0 (pre ++ c :: post) this
    rw [ha, hscan, hfl] at hbody
    refine ⟨?_, ?_, ?_⟩
    · intro hpost
      rw [if_neg hpost] at hbody
      refine ⟨_, hbody, rfl, ?_, ?_⟩
      · simp [hidx]
      · intro n
        rw [arg_loop_step ndebug args fuel n s _ hne hbody]
        rfl
    · intro hpost hnext
      have hin : inbound args.length s.i "Missing option value." = Except.ok (s.i + 1) := by
        unfold inbound; rw [if_neg (by omega)]
      rw [if_pos hpost, hin] at hbody
      refine ⟨_, hbody, ?_, ?_⟩
      · simp [Except.map, hidx]
      · intro n
        rw [arg_loop_step ndebug args fuel n s _ hne hbody]
        rfl
    · intro hpost hnext n
      have hin : inbound args.length s.i "Missing option value."
          = Except.error (Failure.out_of_range "Missing option value.") := by
        unfold inbound; rw [if_pos hnext]
      rw [if_pos hpost, hin] at hbody
      rw [arg_loop_step ndebug args fuel n s _ hne hbody]
      rfl
  · intro name ha hname
    have hidx : s.k.optional_names.indexOf name < s.k.optional_values.length := by
      rw [hk.optional]; exact indexOf_lt_of_mem name _ hname
    have hfound : s.k.optional_names.indexOf name ≠ s.k.optional_names.length :=
      Nat.ne_of_lt (indexOf_lt_of_mem name _ hname)
    rw [ha, body_chars_long, if_neg hfound] at hbody
    refine ⟨?_, ?_⟩
    · intro hnext
      have hin : inbound args.length s.i "Missing option value." = Except.ok (s.i + 1) := by
        unfold inbound; rw [if_neg (by omega)]
      rw [hin] at hbody
      refine ⟨_, hbody, ?_, ?_⟩
      · simp [Except.map, hidx]
      · intro n
        rw [arg_loop_step ndebug args fuel n s _ hne hbody]
        rfl
    · intro hnext n
      have hin : inbound args.length s.i "Missing option value."
          = Except.error (Failure.out_of_range "Missing option value.") := by
        unfold inbound; rw [if_pos hnext]
      rw [hin] at hbody
      rw [arg_loop_step ndebug args fuel n s _ hne hbody]
      rfl

/-- C16 on `TEST(Commandline, Basic)`: the pass over `-aabcAss` stores `Ass` for `c`, and the
pass over `--ass` stores the next argument `ABC`. -/
theorem option_value_stored_tests :
    (∃ t, arg_body false test_argv.tail 10 { i := 0, req_i := 0, k := test_arguments }
        = Except.ok t ∧ t.i = 0 ∧ t.k.optional_short_values[0]? = some "Ass".toList) ∧
    (∃ t, arg_body false test_argv.tail 10 { i := 2, req_i := 1, k := test_arguments }
        = Except.ok t ∧ t.k.optional_values[0]? = some "ABC".toList) := by
  have hk : test_arguments.Sized := ⟨rfl, rfl, rfl, by decide⟩
  constructor
  · obtain ⟨t, h1, h2, h3, _⟩ :=
      ((option_value_stored false test_argv.tail 10
          { i := 0, req_i := 0, k := test_arguments } hk (by decide) (by decide)
          (by decide)).1
        "aab".toList 'c' "Ass".toList rfl (by decide) (by decide) (by decide) (by decide)).1
        (by decide)
    exact ⟨t, h1, h2, h3⟩
  · obtain ⟨t, h1, h2, _⟩ :=
      ((option_value_stored false test_argv.tail 10
          { i := 2, req_i := 1, k := test_arguments } hk (by decide) (by decide)
          (by decide)).2
        "ass".toList rfl (by decide)).1 (by decide)
    exact ⟨t, h1, h2⟩

/-! ## Members of `SequentialParser` -/

theorem to_size_to_ptrdiff (n : Nat) : to_size (to_ptrdiff n) = n % 2 ^ 64 := by
  unfold to_size to_ptrdiff
  split <;> omega

theorem to_ptrdiff_small (n : Nat) (h : n < 2 ^ 63) : to_ptrdiff n = (n : Int) := by
  unfold to_ptrdiff
  have : n % 2 ^ 64 = n := Nat.mod_eq_of_lt (by omega)
  rw [this, if_pos h]

theorem to_size_natCast (n : Nat) (h : n < 2 ^ 64) : to_size (n : Int) = n := by
  unfold to_size
  omega

theorem remaining_ndebug (p : SequentialParser) (h : p.m_loc ≤ p.m_data.length)
    (hlen : p.m_data.length < 2 ^ 63) :
    p.remaining true = Except.ok ((p.total_size - p.current_loc : Nat) : Int) := by
  have hmod : (p.m_data.length + 2 ^ 64 - p.m_loc) % 2 ^ 64 = p.m_data.length - p.m_loc := by
    omega
  simp only [SequentialParser.remaining, c_assert, Bool.true_or, if_true, bind, Except.bind,
    pure, Except.pure, SequentialParser.total_size, SequentialParser.current_loc]
  rw [hmod, to_ptrdiff_small _ (by omega)]

/-- C19: at every state whose position is within the data the condition inside the `assert` of
`remaining()` is false, so without `NDEBUG` the assertion ends `remaining()` and `dump()`.
With `NDEBUG`, and data shorter than 2^63, `remaining()` returns the number of characters
left, and `dump()` returns the string of `rest()` and leaves the parser at the end. -/
theorem remaining_assertion_fails (p : SequentialParser) (h : p.current_loc ≤ p.total_size)
    (hlen : p.total_size < 2 ^ 63) :
    p.remaining_assertion = false ∧
    p.remaining false = Except.error (Failure.assertion "current_loc() > total_size()") ∧
    p.dump false = Except.error (Failure.assertion "current_loc() > total_size()") ∧
    p.remaining true = Except.ok ((p.total_size - p.current_loc : Nat) : Int) ∧
    ∃ r q, p.dump true = Except.ok (r, q) ∧ p.rest = Except.ok r ∧ q.at_end = true := by
  have ha : p.remaining_assertion = false := by
    unfold SequentialParser.remaining_assertion
    exact decide_eq_false (by omega)
  have hr : p.remaining false
      = Except.error (Failure.assertion "current_loc() > total_size()") := by
    simp [SequentialParser.remaining, ha, c_assert, bind, Except.bind]
  have hn : p.remaining true = Except.ok ((p.total_size - p.current_loc : Nat) : Int) :=
    remaining_ndebug p h hlen
  refine ⟨ha, hr, ?_, hn, p.m_data.drop p.m_loc, { p with m_loc := p.m_data.length }, ?_, ?_, ?_⟩
  · simp [SequentialParser.dump, hr, bind, Except.bind]
  · have h' : p.m_loc ≤ p.m_data.length := h
    have hlen' : p.m_data.length < 2 ^ 63 := hlen
    have hsz : to_size ((p.m_data.length - p.m_loc : Nat) : Int) = p.m_data.length - p.m_loc :=
      to_size_natCast _ (by omega)
    have hres : (p.m_loc + (p.m_data.length - p.m_loc)) % 2 ^ 64 = p.m_data.length := by
      omega
    simp only [SequentialParser.dump, hn, bind, Except.bind]
    simp only [SequentialParser.total_size, SequentialParser.current_loc,
      SequentialParser.get_until_count, SequentialParser._displace_, SequentialParser.seek,
      c_assert, Bool.true_or, if_true, bind, Except.bind, pure, Except.pure, hsz, hres,
      sv_substr, gt_iff_lt, Nat.not_lt.mpr h', if_false]
    simp
  · have h' : p.m_loc ≤ p.m_data.length := h
    simp [SequentialParser.rest, sv_substr, Nat.not_lt.mpr h']
  · simp [SequentialParser.at_end, SequentialParser.current_loc, SequentialParser.total_size]

/-- C19 on "abc" at position 1: the assertion of `remaining()` fails, and with `NDEBUG`
`remaining()` is 2. -/
theorem remaining_assertion_fails_abc :
    SequentialParser.remaining_assertion { m_data := "abc".toList, m_loc := 1 } = false ∧
    SequentialParser.remaining false { m_data := "abc".toList, m_loc := 1 }
      = Except.error (Failure.assertion "current_loc() > total_size()") ∧
    SequentialParser.dump false { m_data := "abc".toList, m_loc := 1 }
      = Except.error (Failure.assertion "current_loc() > total_size()") ∧
    SequentialParser.remaining true { m_data := "abc".toList, m_loc := 1 } = Except.ok 2 := by
  obtain ⟨h1, h2, h3, h4, _⟩ :=
    remaining_assertion_fails { m_data := "abc".toList, m_loc := 1 } (by decide) (by decide)
  exact ⟨h1, h2, h3, h4⟩

/-- At every position but the start, `is_same` built with `NDEBUG` answers false whatever the
string is: `remaining() < total_size()` holds there. -/
theorem is_same_past_start (p : SequentialParser) (str : List Char) (h0 : 0 < p.m_loc)
    (h : p.m_loc ≤ p.m_data.length) (hlen : p.m_data.length < 2 ^ 63) :
    p.is_same true str = Except.ok (false, p) := by
  have hn := (remaining_ndebug p h hlen)
  simp only [SequentialParser.is_same, hn, bind, Except.bind]
  have hsz : to_size ((p.total_size - p.current_loc : Nat) : Int) < p.total_size := by
    rw [to_size_natCast _ (by
      simp only [SequentialParser.total_size, SequentialParser.current_loc]; omega)]
    simp only [SequentialParser.total_size, SequentialParser.current_loc]; omega
  rw [if_pos hsz]
  rfl

/-- When the delimiter occurs at or after the position, `get_until(delim)` returns the
characters before its first occurrence and leaves the position on the delimiter. -/
theorem get_until_at_delim (ndebug : Bool) (p : SequentialParser) (delim : Char)
    (h : p.m_loc ≤ p.m_data.length) (hlen : p.m_data.length < 2 ^ 63)
    (hmem : delim ∈ p.m_data.drop p.m_loc) :
    p.get_until ndebug delim
      = Except.ok (some ((p.m_data.drop p.m_loc).take ((p.m_data.drop p.m_loc).indexOf delim)),
          { p with m_loc := p.m_loc + (p.m_data.drop p.m_loc).indexOf delim }) ∧
    p.m_data[p.m_loc + (p.m_data.drop p.m_loc).indexOf delim]? = some delim := by
  have hk : (p.m_data.drop p.m_loc).indexOf delim < (p.m_data.drop p.m_loc).length :=
    List.indexOf_lt_length.mpr hmem
  generalize hkk : (p.m_data.drop p.m_loc).indexOf delim = k at hk
  have hk' : k < p.m_data.length - p.m_loc := by simpa using hk
  have hmod : (p.m_loc + k + 2 ^ 64 - p.m_loc) % 2 ^ 64 = k := by omega
  have hpt : to_ptrdiff k = (k : Int) := to_ptrdiff_small k (by omega)
  have hsz : to_size (k : Int) = k := to_size_natCast k (by omega)
  have hres : (p.m_loc + k) % 2 ^ 64 = p.m_loc + k := by omega
  constructor
  · simp only [SequentialParser.get_until, SequentialParser.current_loc, sv_find, hkk, hk,
      if_true, hmod, hpt, SequentialParser.get_until_count, SequentialParser._displace_,
      SequentialParser.seek, SequentialParser.total_size, c_assert, bind, Except.bind, pure,
      Except.pure, hsz, hres, sv_substr]
    have h1 : decide (((k : Int) < 0 ∧ to_size (-(k : Int)) ≤ p.m_loc) ∨ (k : Int) ≥ 0) = true :=
      decide_eq_true (Or.inr (by omega))
    have h2 : decide (p.m_loc + k ≤ p.m_data.length) = true := decide_eq_true (by omega)
    simp [h1, h2, Nat.not_lt.mpr h]
  · have := List.indexOf_get (l := p.m_data.drop p.m_loc) (a := delim) (by rw [hkk]; exact hk)
    simp only [hkk] at this
    rw [← this]
    simp [List.getElem?_eq_getElem (show p.m_loc + k < p.m_data.length by omega)]

/-- C17 fails on in-range states.  Built with `NDEBUG`: on "abc" at position 0, `is_same("abd")`
returns true and moves to position 3 although the data differs from "abd" in the last
character (only `str.size() - 1` characters are compared), and so does `is_same("abX")` on
"abcd"; on "xab" at position 1, `is_same("ab")` returns false although the data from the
position on is "ab" (`remaining() < total_size()` holds at every position but 0).  Built
without `NDEBUG`, the assertion of `remaining()` ends the call on "abc" at position 0 with
`str` = "abc". -/
theorem is_same_diverges :
    SequentialParser.is_same true { m_data := "abc".toList, m_loc := 0 } "abd".toList
      = Except.ok (true, { m_data := "abc".toList, m_loc := 3 }) ∧
    ("abc".toList.drop 0).take 3 ≠ "abd".toList ∧
    SequentialParser.is_same true { m_data := "abcd".toList, m_loc := 0 } "abX".toList
      = Except.ok (true, { m_data := "abcd".toList, m_loc := 3 }) ∧
    SequentialParser.is_same true { m_data := "xab".toList, m_loc := 1 } "ab".toList
      = Except.ok (false, { m_data := "xab".toList, m_loc := 1 }) ∧
    ("xab".toList.drop 1).take 2 = "ab".toList ∧
    SequentialParser.is_same false { m_data := "abc".toList, m_loc := 0 } "abc".toList
      = Except.error (Failure.assertion "current_loc() > total_size()") := by
  refine ⟨by decide, by decide, by decide, by decide, by decide, by decide⟩

/-- C18 fails on "ab,cd" at position 0 with delimiter `,`: `get_until` returns "ab" and leaves
the parser at position 2, on the delimiter, not at position 3 just after it; the next
`current()` reads the delimiter, and a second `get_until` returns the empty string without
moving.  The build with `NDEBUG` and the one without agree. -/
theorem get_until_stops_on_delim :
    (∀ ndebug, SequentialParser.get_until ndebug { m_data := "ab,cd".toList, m_loc := 0 } ','
      = Except.ok (some "ab".toList, { m_data := "ab,cd".toList, m_loc := 2 })) ∧
    SequentialParser.current { m_data := "ab,cd".toList, m_loc := 2 } = Except.ok ',' ∧
    (∀ ndebug, SequentialParser.get_until ndebug { m_data := "ab,cd".toList, m_loc := 2 } ','
      = Except.ok (some [], { m_data := "ab,cd".toList, m_loc := 2 })) ∧
    (∀ ndebug, SequentialParser.get_until ndebug { m_data := "ab,cd".toList, m_loc := 0 } ';'
      = Except.ok (none, { m_data := "ab,cd".toList, m_loc := 0 })) := by
  refine ⟨by decide, by decide, by decide, by decide⟩

/-! ## Breadth first search: marked nodes under early exit -/

/-- At every loop test, a path of `n` edges from `start` either ends in a visited node of
level at most `n`, or every visited node has level at most `n`. -/
theorem bfs_walk_level [HasDest E] {g : Graph E} {start : Nat} {lev : Nat → Nat}
    {front r : List Nat} (h : BfsInv g start lev front r) (hstart : Visited r start) :
    ∀ v n, Walk g start v n →
      (Visited r v ∧ lev v ≤ n) ∨ (∀ w, Visited r w → lev w ≤ n) := by
  intro v n hw
  induction hw with
  | refl => exact Or.inl ⟨hstart, by rw [h.lev_start]⟩
  | step _ hedge ih =>
    obtain ⟨e, he, rfl⟩ := hedge
    rcases ih with ⟨hu, hlev⟩ | hall
    · rename_i u _ _
      by_cases hf : u ∈ front
      · right
        intro w hw
        have := h.near u hf w hw
        omega
      · obtain ⟨h1, h2⟩ := h.done u hu hf e he
        exact Or.inl ⟨h1, by omega⟩
    · right
      intro w hw
      have := hall w hw
      omega

theorem bfs_marked_level_le [HasDest E] {g : Graph E} {start : Nat} {lev : Nat → Nat}
    {front r : List Nat} (h : BfsInv g start lev front r) (hstart : Visited r start)
    {v n : Nat} (hv : Visited r v) (hw : Walk g start v n) : lev v ≤ n := by
  rcases bfs_walk_level h hstart v n hw with ⟨_, h1⟩ | h2
  · exact h1
  · exact h2 v hv

/-- C23: on a well-formed graph, with a start node below the node count and any early-exit
predicate, `breadth_first_search` returns, and in every table it returns each node `v` whose
entry is not `(size_t)-1` reaches `start` by walking backward `k` steps over edges of the
graph, and no path from `start` to `v` has fewer than `k` edges. -/
theorem bfs_marked_shortest [HasDest E] (g : Graph E) (start : Nat) (early_exit : Nat → Bool)
    (hwf : WellFormed g) (hs : start < g.size) :
    (∃ fuel r, breadth_first_search fuel g start early_exit = some r) ∧
    ∀ fuel r, breadth_first_search fuel g start early_exit = some r →
      ∀ v, Visited r v →
        ∃ k, (pred_of r)^[k] v = start ∧ (∀ j, j < k → (pred_of r)^[j] v ≠ start) ∧
          (∀ j, j < k → IsEdge g ((pred_of r)^[j + 1] v) ((pred_of r)^[j] v)) ∧
          Walk g start v k ∧ ∀ n, Walk g start v n → k ≤ n := by
  obtain ⟨fuel0, r, lev, front, hr, hinv⟩ := bfs_exit_table hwf hs early_exit
  refine ⟨⟨fuel0, r, hr⟩, ?_⟩
  intro fuel r' hr'
  have hrr : r = r' := bfs_loop_unique g _ _ _ r r' fuel0 fuel hr hr'
  subst hrr
  intro v hv
  have hstart : Visited r start := by
    refine ⟨by rw [hinv.len]; exact hs, ?_⟩
    have := hinv.cf_start
    unfold pred_of at this
    rw [this]
    exact lt_size_ne_SIZE_MAX hwf hs
  obtain ⟨c1, c2, c3, c4⟩ := bfs_final_chain hinv (lev v) v hv rfl
  exact ⟨lev v, c1, c2, c3, c4, fun n hw => bfs_marked_level_le hinv hstart hv hw⟩

/-- C23 on `g1` from node 0 with the search stopped when node 3 is dequeued, with node 5 still in the queue. -/
theorem bfs_marked_shortest_g1 :
    WellFormed g1 ∧ 0 < g1.size ∧
    breadth_first_search 5 g1 0 (fun c => decide (c = 3))
      = some [0, 0, 1, 2, 18446744073709551615, 2] ∧
    ((∃ fuel r, breadth_first_search fuel g1 0 (fun c => decide (c = 3)) = some r) ∧
    ∀ fuel r, breadth_first_search fuel g1 0 (fun c => decide (c = 3)) = some r →
      ∀ v, Visited r v →
        ∃ k, (pred_of r)^[k] v = 0 ∧ (∀ j, j < k → (pred_of r)^[j] v ≠ 0) ∧
          (∀ j, j < k → IsEdge g1 ((pred_of r)^[j + 1] v) ((pred_of r)^[j] v)) ∧
          Walk g1 0 v k ∧ ∀ n, Walk g1 0 v n → k ≤ n) :=
  ⟨g1_wellFormed, by decide, by decide,
    bfs_marked_shortest g1 0 (fun c => decide (c = 3)) g1_wellFormed (by decide)⟩

/-! ## Breadth first search: the first dequeued node with an edge -/

theorem bfs_loop_order_table [HasDest E] (g : Graph E) (early_exit : Nat → Bool) :
    ∀ (fuel : Nat) (order front cf : List Nat),
      (bfs_loop_order g early_exit fuel order front cf).map Prod.snd
        = bfs_loop g early_exit fuel front cf := by
  intro fuel
  induction fuel with
  | zero => intro order front cf; rfl
  | succ fuel ih =>
    intro order front cf
    cases front with
    | nil => rfl
    | cons c front =>
      simp only [bfs_loop_order, bfs_loop]
      by_cases hx : early_exit c = true
      · simp [hx]
      · simp only [hx, Bool.false_eq_true, if_false]
        exact ih _ _ _

theorem ordInv_init [HasDest E] {g : Graph E} (hwf : WellFormed g) {start : Nat}
    (hs : start < g.size) :
    OrdInv g start [] [start] ((List.replicate g.size SIZE_MAX).set start start) := by
  have hne : start ≠ SIZE_MAX := lt_size_ne_SIZE_MAX hwf hs
  have hlen : ((List.replicate g.size SIZE_MAX).set start start).length = g.size := by simp
  have hself : ((List.replicate g.size SIZE_MAX).set start start).getD start SIZE_MAX = start :=
    getD_set_self _ _ _ _ (by simpa using hs)
  have hvis : ∀ v, Visited ((List.replicate g.size SIZE_MAX).set start start) v → v = start := by
    intro v hv
    by_contra hvs
    have h1 := hv.2
    rw [getD_set_ne _ _ _ _ _ (Ne.symm hvs)] at h1
    have h2 := hv.1
    rw [hlen] at h2
    exact h1 (getD_replicate_lt _ _ _ _ h2)
  refine
    { len := hlen
      start_lt := hs
      cf_start := hself
      front_vis := ?_
      order_vis := fun x hx => absurd hx (List.not_mem_nil _)
      nodup := by simp
      all := fun v hv => Or.inr (by rw [hvis v hv]; exact List.mem_singleton_self _)
      first_pred := fun v hv hvs => absurd (hvis v hv) hvs
      closed := fun u hu => absurd hu (List.not_mem_nil _) }
  intro x hx
  rw [List.mem_singleton.1 hx]
  exact ⟨by rw [hlen]; exact hs, by rw [hself]; exact hne⟩

theorem ordMid_of_inv [HasDest E] {g : Graph E} {start : Nat} {order : List Nat} {c : Nat}
    {front cf : List Nat} (h : OrdInv g start order (c :: front) cf) :
    OrdMid g start order c front cf [] :=
  { len := h.len
    start_lt := h.start_lt
    cf_start := h.cf_start
    c_vis := h.front_vis c (List.mem_cons_self _ _)
    front_vis := fun x hx => h.front_vis x (List.mem_cons_of_mem _ hx)
    order_vis := h.order_vis
    nodup := h.nodup
    all := fun v hv => by
      rcases h.all v hv with h1 | h1
      · exact Or.inl h1
      · rcases List.mem_cons.1 h1 with h2 | h2
        · exact Or.inr (Or.inl h2)
        · exact Or.inr (Or.inr h2)
    first_pred := fun v hv hvs => Or.inl (h.first_pred v hv hvs)
    closed := h.closed
    seen := fun e he => absurd he (List.not_mem_nil _) }

theorem ordInv_of_mid [HasDest E] {g : Graph E} {start : Nat} {order : List Nat} {c : Nat}
    {front cf : List Nat} (h : OrdMid g start order c front cf (g.neighbors c)) :
    OrdInv g start (order ++ [c]) front cf :=
  { len := h.len
    start_lt := h.start_lt
    cf_start := h.cf_start
    front_vis := h.front_vis
    order_vis := fun x hx => by
      rcases List.mem_append.1 hx with h1 | h1
      · exact h.order_vis x h1
      · rw [List.mem_singleton.1 h1]; exact h.c_vis
    nodup := by
      have := h.nodup
      simpa using this
    all := fun v hv => by
      rcases h.all v hv with h1 | h1 | h1
      · exact Or.inl (List.mem_append.2 (Or.inl h1))
      · exact Or.inl (List.mem_append.2 (Or.inr (List.mem_singleton.2 h1)))
      · exact Or.inr h1
    first_pred := fun v hv hvs => by
      rcases h.first_pred v hv hvs with ⟨pre, post, h1, h2, h3⟩ | ⟨h1, h2, h3⟩
      · exact ⟨pre, post ++ [c], by rw [h1]; simp, h2, h3⟩
      · exact ⟨order, [], by rw [h1], by rw [h1]; exact h2, h3⟩
    closed := fun u hu e he => by
      rcases List.mem_append.1 hu with h1 | h1
      · exact h.closed u h1 e he
      · rw [List.mem_singleton.1 h1] at he
        exact h.seen e he }

theorem ordMid_push [HasDest E] {g : Graph E} (hwf : WellFormed g) {start : Nat}
    {order : List Nat} {c : Nat} {front cf : List Nat} {ds : List E} (e : E)
    (he : e ∈ g.neighbors c) (hn : cf.getD (HasDest.dest e) SIZE_MAX = SIZE_MAX)
    (h : OrdMid g start order c front cf ds) :
    OrdMid g start order c (front ++ [HasDest.dest e]) (cf.set (HasDest.dest e) c)
      (ds ++ [e]) := by
  set n := HasDest.dest e with hndef
  have hnlt : n < cf.length := by
    rw [h.len]; exact hwf.dest_lt e (mem_neighbors_edges g c e he)
  have hold : ∀ v, Visited cf v → v ≠ n := by
    rintro v hv rfl
    exact hv.2 hn
  have hkeep : ∀ v, Visited cf v →
      Visited (cf.set n c) v ∧ pred_of (cf.set n c) v = pred_of cf v :=
    fun v hv => visited_set_of_visited cf n c v hn hv
  have hcne : c ≠ SIZE_MAX := by
    have h1 := h.c_vis.1
    rw [h.len] at h1
    exact lt_size_ne_SIZE_MAX hwf h1
  have hnew : Visited (cf.set n c) n := by
    refine ⟨by simpa using hnlt, ?_⟩
    rw [getD_set_self _ _ _ _ hnlt]; exact hcne
  have hstart : Visited cf start := by
    refine ⟨by rw [h.len]; exact h.start_lt, ?_⟩
    have h1 := h.cf_start
    unfold pred_of at h1
    rw [h1]
    exact lt_size_ne_SIZE_MAX hwf h.start_lt
  have hfresh : n ∉ order ++ c :: front := by
    intro hmem
    rcases List.mem_append.1 hmem with h1 | h1
    · exact hold n (h.order_vis n h1) rfl
    · rcases List.mem_cons.1 h1 with h2 | h2
      · exact hold c h.c_vis h2.symm
      · exact hold n (h.front_vis n h2) rfl
  refine
    { len := by simpa using h.len
      start_lt := h.start_lt
      cf_start := by rw [(hkeep start hstart).2]; exact h.cf_start
      c_vis := (hkeep c h.c_vis).1
      front_vis := ?_
      order_vis := fun x hx => (hkeep x (h.order_vis x hx)).1
      nodup := ?_
      all := ?_
      first_pred := ?_
      closed := fun u hu e' he' => (hkeep _ (h.closed u hu e' he')).1
      seen := ?_ }
  · intro x hx
    rcases List.mem_append.1 hx with hx | hx
    · exact (hkeep x (h.front_vis x hx)).1
    · rw [List.mem_singleton.1 hx]; exact hnew
  · have e1 : order ++ c :: (front ++ [n]) = (order ++ c :: front) ++ [n] := by simp
    rw [e1, List.nodup_append]
    refine ⟨h.nodup, List.nodup_singleton n, ?_⟩
    intro a ha hb
    rw [List.mem_singleton.1 hb] at ha
    exact hfresh ha
  · intro v hv
    rcases visited_set_cases cf n c v hv with rfl | hv'
    · exact Or.inr (Or.inr (List.mem_append.2 (Or.inr (List.mem_singleton_self _))))
    · rcases h.all v hv' with h1 | h1 | h1
      · exact Or.inl h1
      · exact Or.inr (Or.inl h1)
      · exact Or.inr (Or.inr (List.mem_append.2 (Or.inl h1)))
  · intro v hv hvs
    rcases visited_set_cases cf n c v hv with rfl | hv'
    · right
      refine ⟨getD_set_self _ _ _ _ hnlt, ⟨e, he, rfl⟩, ?_⟩
      rintro u hu ⟨e', he', hd⟩
      have := h.closed u hu e' he'
      rw [hd] at this
      exact this.2 hn
    · rw [(hkeep v hv').2]
      exact h.first_pred v hv' hvs
  · intro e' he'
    rcases List.mem_append.1 he' with he' | he'
    · exact (hkeep _ (h.seen e' he')).1
    · rw [List.mem_singleton.1 he']; exact hnew

theorem ordMid_skip [HasDest E] {g : Graph E} (hwf : WellFormed g) {start : Nat}
    {order : List Nat} {c : Nat} {front cf : List Nat} {ds : List E} (e : E)
    (he : e ∈ g.neighbors c) (hn : cf.getD (HasDest.dest e) SIZE_MAX ≠ SIZE_MAX)
    (h : OrdMid g start order c front cf ds) :
    OrdMid g start order c front cf (ds ++ [e]) :=
  { h with
    seen := fun e' he' => by
      rcases List.mem_append.1 he' with he' | he'
      · exact h.seen e' he'
      · rw [List.mem_singleton.1 he']
        exact ⟨by rw [h.len]; exact hwf.dest_lt e (mem_neighbors_edges g c e he), hn⟩ }

theorem bfs_visit_ord [HasDest E] {g : Graph E} (hwf : WellFormed g) {start c : Nat}
    {order : List Nat} :
    ∀ (es ds : List E) (front cf : List Nat),
      (∀ e ∈ es, e ∈ g.neighbors c) → OrdMid g start order c front cf ds →
      OrdMid g start order c (bfs_visit c es (front, cf)).1
        (bfs_visit c es (front, cf)).2 (ds ++ es) := by
  intro es
  induction es with
  | nil => intro ds front cf _ h; simpa [bfs_visit] using h
  | cons e es ih =>
    intro ds front cf hes h
    have he := hes e (List.mem_cons_self _ _)
    have hes' : ∀ e' ∈ es, e' ∈ g.neighbors c := fun e' h' => hes e' (List.mem_cons_of_mem _ h')
    have e1 : ds ++ e :: es = (ds ++ [e]) ++ es := by simp
    rw [e1]
    by_cases hn : cf.getD (HasDest.dest e) SIZE_MAX = SIZE_MAX
    · rw [bfs_visit_cons_new c e es front cf hn]
      exact ih _ _ _ hes' (ordMid_push hwf e he hn h)
    · rw [bfs_visit_cons_old c e es front cf hn]
      exact ih _ _ _ hes' (ordMid_skip hwf e he hn h)

theorem bfs_loop_order_inv [HasDest E] {g : Graph E} (hwf : WellFormed g) {start : Nat} :
    ∀ (fuel : Nat) (order front cf o r : List Nat), OrdInv g start order front cf →
      bfs_loop_order g (fun _ => false) fuel order front cf = some (o, r) →
      OrdInv g start o [] r := by
  intro fuel
  induction fuel with
  | zero => intro order front cf o r _ h; simp [bfs_loop_order] at h
  | succ fuel ih =>
    intro order front cf o r hinv h
    cases front with
    | nil =>
      simp only [bfs_loop_order, Option.some.injEq, Prod.mk.injEq] at h
      rw [← h.1, ← h.2]
      exact hinv
    | cons c front =>
      simp only [bfs_loop_order, Bool.false_eq_true, if_false] at h
      have hmid := bfs_visit_ord hwf (g.edge_range c) [] front cf (fun e he => he)
        (ordMid_of_inv hinv)
      rw [List.nil_append] at hmid
      exact ih _ _ _ o r (ordInv_of_mid hmid) h

/-- C22: on a well-formed graph with a start node below the node count,
`breadth_first_search` without early exit returns a table; the nodes it has dequeued, in
order, are pairwise distinct and are exactly the nodes marked in the table, and for every
marked node `v` other than `start` the entry `came_from[v]` has an edge to `v` and no node
dequeued before it has one.  From node 0 the tables of `g1` and `g2` are `[0,0,1,2,3,2]` and
`[0,0,1,2,3,2,5,0,7]`. -/
theorem bfs_pred_first_dequeued [HasDest E] (g : Graph E) (start : Nat) (hwf : WellFormed g)
    (hs : start < g.size) :
    ((∃ fuel order r, breadth_first_search_order fuel g start = some (order, r)) ∧
    ∀ fuel order r, breadth_first_search_order fuel g start = some (order, r) →
      breadth_first_search_all fuel g start = some r ∧ order.Nodup ∧
      (∀ v, Visited r v ↔ v ∈ order) ∧
      ∀ v, Visited r v → v ≠ start →
        ∃ pre post, order = pre ++ pred_of r v :: post ∧ IsEdge g (pred_of r v) v ∧
          ∀ u ∈ pre, ¬ IsEdge g u v) ∧
    breadth_first_search_all 7 g1 0 = some [0, 0, 1, 2, 3, 2] ∧
    breadth_first_search_all 10 g2 0 = some [0, 0, 1, 2, 3, 2, 5, 0, 7] := by
  refine ⟨⟨?_, ?_⟩, by decide, by decide⟩
  · obtain ⟨fuel, r, _, _, hr, _⟩ := bfs_exit_table hwf hs (fun _ => false)
    have htab := bfs_loop_order_table g (fun _ => false) fuel [] [start]
      ((List.replicate g.size SIZE_MAX).set start start)
    unfold breadth_first_search at hr
    rw [hr] at htab
    cases hres : bfs_loop_order g (fun _ => false) fuel [] [start]
        ((List.replicate g.size SIZE_MAX).set start start) with
    | none => rw [hres] at htab; simp at htab
    | some p => exact ⟨fuel, p.1, p.2, hres⟩
  · intro fuel order r h
    have htab := bfs_loop_order_table g (fun _ => false) fuel [] [start]
      ((List.replicate g.size SIZE_MAX).set start start)
    unfold breadth_first_search_order at h
    rw [h] at htab
    have hinv := bfs_loop_order_inv hwf fuel _ _ _ order r (ordInv_init hwf hs) h
    refine ⟨htab.symm, ?_, ?_, hinv.first_pred⟩
    · simpa using hinv.nodup
    · intro v
      constructor
      · intro hv
        rcases hinv.all v hv with h1 | h1
        · exact h1
        · exact absurd h1 (List.not_mem_nil _)
      · exact hinv.order_vis v

/-- C22 on `g1` from node 0: the nodes are dequeued in the order 0, 1, 2, 3, 5, 4. -/
theorem bfs_pred_first_dequeued_g1 :
    WellFormed g1 ∧ 0 < g1.size ∧
    breadth_first_search_order 7 g1 0 = some ([0, 1, 2, 3, 5, 4], [0, 0, 1, 2, 3, 2]) ∧
    ∀ v, Visited [0, 0, 1, 2, 3, 2] v → v ≠ 0 →
      ∃ pre post, [0, 1, 2, 3, 5, 4] = pre ++ pred_of [0, 0, 1, 2, 3, 2] v :: post ∧
        IsEdge g1 (pred_of [0, 0, 1, 2, 3, 2] v) v ∧ ∀ u ∈ pre, ¬ IsEdge g1 u v :=
  ⟨g1_wellFormed, by decide, by decide,
    ((bfs_pred_first_dequeued g1 0 g1_wellFormed (by decide)).1.2 7 _ _ (by decide)).2.2.2⟩

/-! ## Weights that add up to less than the mark -/

theorem weight_le_out_weight (g : Graph WeighedEdge) (u : Nat) (e : WeighedEdge)
    (he : e ∈ g.neighbors u) : e.weight ≤ out_weight g u := by
  unfold out_weight
  exact List.single_le_sum (fun _ _ => Nat.zero_le _) _ (List.mem_map_of_mem _ he)

theorem out_weight_eq_zero {g : Graph WeighedEdge} (hwf : WellFormed g) {u : Nat}
    (hu : g.size ≤ u) : out_weight g u = 0 := by
  have h1 : g.idx.getD (u + 1) 0 = 0 := by
    rw [List.getD_eq_default]
    rw [hwf.idx_length]; omega
  unfold out_weight Graph.neighbors
  rw [h1, Nat.zero_sub, List.take_zero]
  rfl

theorem out_weight_range {g : Graph WeighedEdge} (hwf : WellFormed g) :
    ∀ n, n ≤ g.size →
      ((List.range n).map (out_weight g)).sum
        ≤ ((g.edges.take (g.idx.getD n 0)).map WeighedEdge.weight).sum := by
  intro n
  induction n with
  | zero => intro _; simp
  | succ n ih =>
    intro hn
    have hmono := hwf.idx_mono n (by omega)
    have hsplit : g.edges.take (g.idx.getD (n + 1) 0)
        = g.edges.take (g.idx.getD n 0) ++ g.neighbors n := by
      have : g.idx.getD (n + 1) 0 = g.idx.getD n 0 + (g.idx.getD (n + 1) 0 - g.idx.getD n 0) := by
        omega
      rw [this, List.take_add]
      simp [Graph.neighbors]
    rw [List.range_succ, List.map_append, List.sum_append, hsplit, List.map_append,
      List.sum_append]
    have := ih (by omega)
    simp only [List.map_cons, List.map_nil, List.sum_cons, List.sum_nil, Nat.add_zero]
    unfold out_weight at *
    omega

theorem out_weight_nodup {g : Graph WeighedEdge} (hwf : WellFormed g) {l : List Nat}
    (hl : l.Nodup) : (l.map (out_weight g)).sum ≤ weight_sum g := by
  have h1 : (l.map (out_weight g)).sum = ∑ x in l.toFinset, out_weight g x :=
    (List.sum_toFinset _ hl).symm
  have h2 : ∑ x in l.toFinset, out_weight g x ≤ ∑ x in Finset.range g.size, out_weight g x := by
    apply Finset.sum_le_sum_of_ne_zero
    intro x _ hx
    rw [Finset.mem_range]
    by_contra hge
    exact hx (out_weight_eq_zero hwf (by omega))
  have h3 : ∑ x in Finset.range g.size, out_weight g x
      = ((List.range g.size).map (out_weight g)).sum := by
    rw [← List.sum_toFinset _ (List.nodup_range g.size)]
    congr 1
    ext x
    simp
  have h4 := out_weight_range hwf g.size (Nat.le_refl _)
  rw [hwf.idx_last, List.take_length] at h4
  unfold weight_sum
  omega

theorem spath_out_weight {g : Graph WeighedEdge} {start : Nat} {p : List Nat} {W : Nat}
    (h : SPath g start p W) : p.Nodup ∧ W ≤ (p.tail.map (out_weight g)).sum := by
  induction h with
  | single => exact ⟨List.nodup_singleton _, by simp⟩
  | snoc e _ he hnot ih =>
    obtain ⟨h1, h2⟩ := ih
    refine ⟨List.nodup_cons.2 ⟨hnot, h1⟩, ?_⟩
    have hw := weight_le_out_weight g _ e he
    simp only [List.tail_cons, List.map_cons, List.sum_cons] at h2 ⊢
    omega

/-- When the weights of all edge records add up to less than `bound`, every cost a search can
compute stays below `bound`. -/
theorem costsBelow_of_weight_sum {g : Graph WeighedEdge} (hwf : WellFormed g) {start : Nat}
    {bound : Nat} (hsum : weight_sum g < bound) : CostsBelow g start bound := by
  intro u vs W hp e he
  obtain ⟨h1, h2⟩ := spath_out_weight hp
  have h3 := out_weight_nodup hwf h1
  have hw := weight_le_out_weight g u e he
  simp only [List.tail_cons, List.map_cons, List.sum_cons] at h2 h3
  omega

theorem dijkstra_trace_inv {g : Graph WeighedEdge} (hwf : WellFormed g) {start : Nat}
    (hb : CostsBelow g start (2 ^ 32)) {early_exit : Nat → Nat → Bool} :
    ∀ (n : Nat) (s t : SearchState), DijInv g start [] s →
      dijkstra_trace g early_exit n s = some t → DijInv g start [] t := by
  intro n
  induction n with
  | zero =>
    intro s t hinv h
    have : s = t := by simpa [dijkstra_trace] using h
    rw [← this]; exact hinv
  | succ n ih =>
    intro s t hinv h
    rw [dijkstra_trace] at h
    cases hstep : dijkstra_step g early_exit s with
    | inr r => rw [hstep] at h; simp at h
    | inl s' =>
      rw [hstep] at h
      exact ih s' t (dijkstra_step_inv hwf hb hinv hstep).1 h

theorem dijkstra_costs_below {g : Graph WeighedEdge} (hwf : WellFormed g) {start : Nat}
    (hb : CostsBelow g start UINT32_MAX) {pend : List Nat} {idx : Nat} :
    ∀ (es : List WeighedEdge) (s : SearchState), DijInv g start pend s → Visited s.first idx →
      (∀ e ∈ es, e ∈ g.neighbors idx) → ∀ c ∈ dijkstra_costs idx es s, c < UINT32_MAX := by
  have hb' : CostsBelow g start (2 ^ 32) := costsBelow_mono (by unfold UINT32_MAX; omega) hb
  intro es
  induction es with
  | nil => intro s _ _ _ c hc; simp [dijkstra_costs] at hc
  | cons e es ih =>
    intro s hinv hidx hes c hc
    have he := hes e (List.mem_cons_self _ _)
    simp only [dijkstra_costs, List.mem_cons] at hc
    rcases hc with rfl | hc
    · obtain ⟨vs, hcov⟩ := hinv.path idx hidx
      exact hb idx vs _ (covered_spath hcov) e he
    · obtain ⟨h1, h2, _⟩ := dijkstra_relax_one hwf hb' hinv hidx he
      exact ih _ h1 (h2.1 idx hidx) (fun e' h' => hes e' (List.mem_cons_of_mem _ h')) c hc

/-- C24: on a well-formed weighted graph whose edge weights add up to less than `2 ^ 32 - 1`,
with a start node below the node count and any early-exit predicate, at every loop test of
`dijkstra_search` every node whose entries have been written holds a distance below
`2 ^ 32 - 1`; and in the pass that pops `idx` every sum `route.second[idx] + weight`, taken
in the natural numbers, is below `2 ^ 32 - 1`, so it does not wrap, and after any number `k`
of the edges of `idx` every written distance is still below `2 ^ 32 - 1`. -/
theorem dijkstra_no_wrap (g : Graph WeighedEdge) (start : Nat) (early_exit : Nat → Nat → Bool)
    (hwf : WellFormed g) (hs : start < g.size) (hsum : weight_sum g < UINT32_MAX) :
    ∀ n s, dijkstra_trace g early_exit n (search_init g.size start) = some s →
      (∀ v, Visited s.first v → s.second.getD v UINT32_MAX < UINT32_MAX) ∧
      ∀ w idx, pq_top s.front = some (w, idx) →
        (∀ c ∈ dijkstra_costs idx (g.edge_range idx) { s with front := pq_pop s.front },
          c < UINT32_MAX ∧ c < 2 ^ 32) ∧
        ∀ k v,
          Visited (dijkstra_relax idx ((g.edge_range idx).take k)
            { s with front := pq_pop s.front }).first v →
          (dijkstra_relax idx ((g.edge_range idx).take k)
            { s with front := pq_pop s.front }).second.getD v UINT32_MAX < UINT32_MAX := by
  have hb : CostsBelow g start UINT32_MAX := costsBelow_of_weight_sum hwf hsum
  have hb' : CostsBelow g start (2 ^ 32) := costsBelow_mono (by unfold UINT32_MAX; omega) hb
  intro n s htrace
  have hinv := dijkstra_trace_inv hwf hb' n _ s (dijInv_init hwf hs) htrace
  refine ⟨fun v hv => dijInv_below_mark hb hinv hv, ?_⟩
  intro w idx htop
  have hidx : Visited s.first idx := hinv.front_vis _ (pq_top_mem htop)
  have hpop := dijInv_pop hinv htop
  refine ⟨?_, ?_⟩
  · intro c hc
    have := dijkstra_costs_below hwf hb (g.edge_range idx) _ hpop hidx (fun e he => he) c hc
    exact ⟨this, by unfold UINT32_MAX at this; omega⟩
  · intro k v hv
    obtain ⟨c1, _⟩ := dijkstra_relax_inv hwf hb' ((g.edge_range idx).take k) _ hpop hidx
      (fun e he => List.mem_of_mem_take he)
    exact dijInv_below_mark hb c1 hv

/-- C24 on `g2` from node 0, whose weights add up to 93: the first pass computes the sums 4
and 8. -/
theorem dijkstra_no_wrap_g2 :
    WellFormed g2 ∧ weight_sum g2 = 93 ∧
    dijkstra_costs 0 (g2.edge_range 0)
      { search_init g2.size 0 with front := pq_pop (search_init g2.size 0).front } = [4, 8] ∧
    ∀ c ∈ dijkstra_costs 0 (g2.edge_range 0)
      { search_init g2.size 0 with front := pq_pop (search_init g2.size 0).front },
      c < UINT32_MAX ∧ c < 2 ^ 32 :=
  ⟨g2_wellFormed, by decide, by decide,
    ((dijkstra_no_wrap g2 0 (fun _ _ => false) g2_wellFormed (by decide) (by decide) 0 _
      rfl).2 0 0 (by decide)).1⟩

/-! ## A* search with any heuristic -/

theorem sameTables_refl (s : SearchState) : SameTables s s := ⟨rfl, rfl, rfl⟩

theorem sameTables_symm {s t : SearchState} (h : SameTables s t) : SameTables t s :=
  ⟨h.1.symm, h.2.1.symm, h.2.2.symm⟩

theorem sameTables_front {s t : SearchState} (h : SameTables s t) {p : Nat × Nat}
    (hp : p ∈ t.front) : ∃ q ∈ s.front, q.2 = p.2 := by
  have : p.2 ∈ t.front.map Prod.snd := List.mem_map_of_mem _ hp
  rw [← h.2.2] at this
  obtain ⟨q, hq, hqp⟩ := List.mem_map.1 this
  exact ⟨q, hq, hqp⟩

theorem sameTables_measure {s t : SearchState} (h : SameTables s t) :
    search_measure s = search_measure t := by
  have hl : s.front.length = t.front.length := by
    have := congrArg List.length h.2.2
    simpa using this
  unfold search_measure
  rw [h.2.1, hl]

theorem dijInv_of_same {g : Graph WeighedEdge} {start : Nat} {pend : List Nat}
    {s t : SearchState} (hst : SameTables s t) (h : DijInv g start pend s) :
    DijInv g start pend t := by
  obtain ⟨sf, s1, s2⟩ := s
  obtain ⟨tf, t1, t2⟩ := t
  obtain ⟨e1, e2, e3⟩ := hst
  simp only at e1 e2 e3
  subst e1 e2
  have hst' : SameTables ⟨sf, s1, s2⟩ ⟨tf, s1, s2⟩ := ⟨rfl, rfl, e3⟩
  exact
    { len_first := h.len_first
      len_second := h.len_second
      start_lt := h.start_lt
      first_start := h.first_start
      second_start := h.second_start
      unvis := h.unvis
      front_vis := fun p hp => by
        obtain ⟨q, hq, hqp⟩ := sameTables_front hst' hp
        rw [← hqp]
        exact h.front_vis q hq
      path := h.path
      pred := h.pred
      relaxed := fun u hu => by
        rcases h.relaxed u hu with h1 | ⟨p, hp, hpu⟩ | h1
        · exact Or.inl h1
        · obtain ⟨q, hq, hqp⟩ := sameTables_front (sameTables_symm hst') hp
          exact Or.inr (Or.inl ⟨q, hq, by rw [hqp, hpu]⟩)
        · exact Or.inr (Or.inr h1) }

theorem a_star_relax_same (h h' : Nat → Nat) (idx : Nat) :
    ∀ (es : List WeighedEdge) (s s' : SearchState), SameTables s s' →
      SameTables (a_star_relax h idx es s) (a_star_relax h' idx es s') := by
  intro es
  induction es with
  | nil => intro s s' hs; simpa [a_star_relax] using hs
  | cons e es ih =>
    intro s s' hs
    obtain ⟨e1, e2, e3⟩ := hs
    simp only [a_star_relax]
    rw [e1, e2]
    split
    · apply ih
      refine ⟨by simp only [e1], by simp only [e2], ?_⟩
      simp only [List.map_append, e3, List.map_cons, List.map_nil]
    · exact ih _ _ ⟨e1, e2, e3⟩

/-- Below the mark, the `for` loop of `a_star` with any heuristic leaves the tables and the
pending nodes that the `for` loop of `dijkstra_search` leaves. -/
theorem a_star_relax_dijkstra {g : Graph WeighedEdge} (hwf : WellFormed g) {start : Nat}
    (hb : CostsBelow g start UINT32_MAX) (heuristic : Nat → Nat) {pend : List Nat} {idx : Nat}
    (es : List WeighedEdge) (s : SearchState) (hinv : DijInv g start pend s)
    (hidx : Visited s.first idx) (hes : ∀ e ∈ es, e ∈ g.neighbors idx) :
    SameTables (a_star_relax heuristic idx es s) (dijkstra_relax idx es s) := by
  have h1 := a_star_relax_same heuristic (fun _ => 0) idx es s s (sameTables_refl s)
  rw [a_star_relax_eq hwf hb es s hinv hidx hes] at h1
  exact h1

theorem dijkstra_pass_inv {g : Graph WeighedEdge} (hwf : WellFormed g) {start : Nat}
    (hb : CostsBelow g start UINT32_MAX) {s : SearchState} (hinv : DijInv g start [] s)
    {w idx : Nat} (htop : pq_top s.front = some (w, idx)) :
    DijInv g start [] (dijkstra_relax idx (g.neighbors idx) { s with front := pq_pop s.front }) ∧
      search_measure (dijkstra_relax idx (g.neighbors idx) { s with front := pq_pop s.front })
        < search_measure s := by
  have hb' : CostsBelow g start (2 ^ 32) := costsBelow_mono (by unfold UINT32_MAX; omega) hb
  have hstep : dijkstra_step g (fun _ _ => false) s
      = Sum.inl (dijkstra_relax idx (g.neighbors idx) { s with front := pq_pop s.front }) := by
    simp only [dijkstra_step, htop, Bool.false_eq_true, if_false]
    rfl
  obtain ⟨h1, h2⟩ := dijkstra_step_inv hwf hb' hinv hstep
  exact ⟨h1, h2 hb⟩

theorem a_star_step_inv {g : Graph WeighedEdge} (hwf : WellFormed g) {start : Nat}
    (hb : CostsBelow g start UINT32_MAX) {early_exit : Nat → Nat → Bool}
    {heuristic : Nat → Nat} {s t : SearchState} (hinv : DijInv g start [] s)
    (h : a_star_step g early_exit heuristic s = Sum.inl t) :
    DijInv g start [] t ∧ search_measure t < search_measure s := by
  obtain ⟨w, idx, htop, _, rfl⟩ := a_star_step_inl h
  have hidx : Visited s.first idx := hinv.front_vis _ (pq_top_mem htop)
  have hpop := dijInv_pop hinv htop
  have hsame := a_star_relax_dijkstra hwf hb heuristic (g.neighbors idx) _ hpop hidx
    (fun e he => he)
  obtain ⟨h1, h2⟩ := dijkstra_pass_inv hwf hb hinv htop
  exact ⟨dijInv_of_same (sameTables_symm hsame) h1, by rw [sameTables_measure hsame]; exact h2⟩

theorem a_star_loop_inv {g : Graph WeighedEdge} (hwf : WellFormed g) {start : Nat}
    (hb : CostsBelow g start UINT32_MAX) (heuristic : Nat → Nat) :
    ∀ (fuel : Nat) (s : SearchState) (r : List Nat × List Nat), DijInv g start [] s →
      a_star_loop g (fun _ _ => false) heuristic fuel s = some r →
      ∃ t, DijInv g start [] t ∧ r = t.route ∧ t.front = [] := by
  intro fuel
  induction fuel with
  | zero => intro s r _ h; simp [a_star_loop] at h
  | succ fuel ih =>
    intro s r hinv h
    rw [a_star_loop] at h
    cases hstep : a_star_step g (fun _ _ => false) heuristic s with
    | inr r' =>
      rw [hstep] at h
      have hr := a_star_step_inr hstep
      refine ⟨s, hinv, by rw [← Option.some.inj h, hr], ?_⟩
      unfold a_star_step at hstep
      cases htop : pq_top s.front with
      | none => exact pq_top_eq_none htop
      | some p =>
        rw [htop] at hstep
        simp at hstep
    | inl s' =>
      rw [hstep] at h
      exact ih s' r (a_star_step_inv hwf hb hinv hstep).1 h

theorem a_star_loop_total {g : Graph WeighedEdge} (hwf : WellFormed g) {start : Nat}
    (hb : CostsBelow g start UINT32_MAX) (early_exit : Nat → Nat → Bool)
    (heuristic : Nat → Nat) :
    ∀ (fuel : Nat) (s : SearchState), DijInv g start [] s → search_measure s < fuel →
      ∃ r, a_star_loop g early_exit heuristic fuel s = some r := by
  intro fuel
  induction fuel with
  | zero => intro s _ h; omega
  | succ fuel ih =>
    intro s hinv hm
    rw [a_star_loop]
    cases hstep : a_star_step g early_exit heuristic s with
    | inr r => exact ⟨r, rfl⟩
    | inl s' =>
      obtain ⟨h1, h2⟩ := a_star_step_inv hwf hb hinv hstep
      exact ih s' h1 (by omega)

theorem dijInv_visited_reachable {g : Graph WeighedEdge} {start : Nat} {pend : List Nat}
    {t : SearchState} (hinv : DijInv g start pend t) {v : Nat} (hv : Visited t.first v) :
    WWalk g start v (t.second.getD v UINT32_MAX) := by
  obtain ⟨vs, hcov⟩ := hinv.path v hv
  exact spath_wwalk (covered_spath hcov)

/-- Two exhausted searches hold the same distance table. -/
theorem final_second_eq {g : Graph WeighedEdge} (hwf : WellFormed g) {start : Nat}
    {t t' : SearchState} (hinv : DijInv g start [] t) (hempty : t.front = [])
    (hinv' : DijInv g start [] t') (hempty' : t'.front = []) : t.second = t'.second := by
  have hpoint : ∀ v, v < g.size → t.second.getD v UINT32_MAX = t'.second.getD v UINT32_MAX := by
    intro v hv
    by_cases hvis : Visited t.first v
    · have hw := dijInv_visited_reachable hinv hvis
      obtain ⟨hvis', hle'⟩ := dijkstra_final_reach hwf hinv' hempty' v _ hw
      have hw' := dijInv_visited_reachable hinv' hvis'
      have hle := (dijkstra_final_reach hwf hinv hempty v _ hw').2
      omega
    · have hvis' : ¬ Visited t'.first v := by
        intro hv'
        have hw' := dijInv_visited_reachable hinv' hv'
        exact hvis (dijkstra_final_reach hwf hinv hempty v _ hw').1
      rw [hinv.unvis v hv hvis, hinv'.unvis v hv hvis']
  apply List.ext_getElem (by rw [hinv.len_second, hinv'.len_second])
  intro i h1 h2
  have := hpoint i (by rw [← hinv.len_second]; exact h1)
  rw [List.getD_eq_getElem _ _ h1, List.getD_eq_getElem _ _ h2] at this
  exact this

theorem pq_pop_single (x : Nat × Nat) : pq_pop [x] = [] := by
  simp [pq_pop, pq_top]

theorem a_star_loop_inl {g : Graph WeighedEdge} {early_exit : Nat → Nat → Bool}
    {heuristic : Nat → Nat} {s s' : SearchState}
    (h : a_star_step g early_exit heuristic s = Sum.inl s') (fuel : Nat) :
    a_star_loop g early_exit heuristic (fuel + 1) s
      = a_star_loop g early_exit heuristic fuel s' := by
  simp only [a_star_loop, h]

theorem gloop_a_star_first (heuristic : Nat → Nat) :
    a_star_step gloop (fun _ _ => false) heuristic (search_init gloop.size 0)
      = Sum.inl { front := [((4294967295 + heuristic 1) % 2 ^ 32, 1)], first := [0, 0],
                  second := [0, 4294967295] } := by
  have e0 : gloop.neighbors 0 = [⟨1, 4294967295⟩] := by decide
  have hi : search_init gloop.size 0
      = { front := [(0, 0)], first := [0, 18446744073709551615], second := [0, 4294967295] } := by
    decide
  rw [hi]
  simp only [a_star_step, pq_top, List.foldl_nil, Bool.false_eq_true, if_false, pq_pop_single,
    e0]
  rw [a_star_relax_one_upd _ _ _ _ (Or.inl (by decide))]
  simp

theorem gloop_a_star_second (heuristic : Nat → Nat) :
    a_star_step gloop (fun _ _ => false) heuristic
      { front := [((4294967295 + heuristic 1) % 2 ^ 32, 1)], first := [0, 0],
        second := [0, 4294967295] }
      = Sum.inl { front := [], first := [0, 0], second := [0, 4294967295] } := by
  have e1 : gloop.neighbors 1 = [⟨1, 0⟩] := by decide
  simp only [a_star_step, pq_top, List.foldl_nil, Bool.false_eq_true, if_false, pq_pop_single,
    e1]
  exact congrArg Sum.inl (a_star_relax_one_keep _ _ _ _ (by decide))

theorem gloop_a_star (heuristic : Nat → Nat) :
    a_star 3 gloop 0 (fun _ _ => false) heuristic = some ([0, 0], [0, 4294967295]) := by
  show a_star_loop gloop (fun _ _ => false) heuristic (2 + 1) (search_init gloop.size 0) = _
  rw [a_star_loop_inl (gloop_a_star_first heuristic)]
  show a_star_loop gloop (fun _ _ => false) heuristic (1 + 1) _ = _
  rw [a_star_loop_inl (gloop_a_star_second heuristic)]
  rfl

/-- C21, as stated, fails: on `gloop` every cost the searches can compute fits 32 bits, and
`a_star` without early exit returns the distance table `[0, 4294967295]` whatever the
heuristic is, yet `dijkstra_search` without early exit returns no table, whatever the
fuel. -/
theorem a_star_gloop_dijkstra_none :
    WellFormed gloop ∧ 0 < gloop.size ∧ CostsBelow gloop 0 (2 ^ 32) ∧
    (∀ heuristic, a_star 3 gloop 0 (fun _ _ => false) heuristic = some ([0, 0], [0, 4294967295])) ∧
    ∀ fuel, dijkstra_search_all fuel gloop 0 = none := by
  refine ⟨gloop_wellFormed, by decide, costsBelow_of_pathsBelow gloop_paths, ?_, ?_⟩
  · exact gloop_a_star
  · intro fuel
    show dijkstra_loop gloop (fun _ _ => false) fuel (search_init gloop.size 0) = none
    cases fuel with
    | zero => rfl
    | succ fuel =>
      rw [dijkstra_loop_inl gloop_step_first]
      cases fuel with
      | zero => rfl
      | succ fuel =>
        rw [dijkstra_loop_inl gloop_step_second]
        exact gloop_loop_none fuel

/-- C21, amended: on a well-formed weighted graph in which every cost the searches can compute
stays strictly below the mark `2 ^ 32 - 1`, for every start node below the node count and
every heuristic, `a_star` and `dijkstra_search`, both without early exit, return, and every
pair of tables `a_star` returns has the distance table of every pair `dijkstra_search`
returns; the entry of each node reachable from `start` is the least total weight of a path
from `start` to it. -/
theorem a_star_distances_eq_dijkstra (g : Graph WeighedEdge) (start : Nat)
    (heuristic : Nat → Nat) (hwf : WellFormed g) (hs : start < g.size)
    (hb : CostsBelow g start UINT32_MAX) :
    (∃ fuel r, a_star fuel g start (fun _ _ => false) heuristic = some r) ∧
    (∃ fuel r, dijkstra_search_all fuel g start = some r) ∧
    ∀ fuel fuel' r r', a_star fuel g start (fun _ _ => false) heuristic = some r →
      dijkstra_search_all fuel' g start = some r' →
      r.2 = r'.2 ∧ ∀ v, Reachable g start v → IsMinCost g start v (r.2.getD v UINT32_MAX) := by
  have hb' : CostsBelow g start (2 ^ 32) := costsBelow_mono (by unfold UINT32_MAX; omega) hb
  refine ⟨?_, dijkstra_all_returns hwf hs hb, ?_⟩
  · obtain ⟨r, hr⟩ := a_star_loop_total hwf hb (fun _ _ => false) heuristic
      (search_measure (search_init g.size start) + 1) _ (dijInv_init hwf hs)
      (Nat.lt_succ_self _)
    exact ⟨_, r, hr⟩
  · intro fuel fuel' r r' hr hr'
    obtain ⟨t, hinv, rfl, hempty⟩ := a_star_loop_inv hwf hb heuristic fuel _ r
      (dijInv_init hwf hs) hr
    obtain ⟨t', hinv', rfl, hempty'⟩ := dijkstra_never_exit_final hwf hs hb' hr'
    refine ⟨final_second_eq hwf hinv hempty hinv' hempty', ?_⟩
    intro v ⟨n, hn⟩
    obtain ⟨W, hW⟩ := walk_wwalk hn
    exact dijkstra_final_min hwf hinv hempty (dijkstra_final_reach hwf hinv hempty v W hW).1

/-- C21 on `g2` from node 0 with the heuristic `v ↦ 3 * v`, which is not admissible. -/
theorem a_star_distances_eq_dijkstra_g2 :
    WellFormed g2 ∧ 0 < g2.size ∧ CostsBelow g2 0 UINT32_MAX ∧
    a_star 14 g2 0 (fun _ _ => false) (fun v => 3 * v)
      = some ([0, 0, 1, 2, 3, 2, 5, 0, 2], [0, 4, 12, 19, 28, 16, 18, 8, 14]) ∧
    ∀ fuel fuel' r r', a_star fuel g2 0 (fun _ _ => false) (fun v => 3 * v) = some r →
      dijkstra_search_all fuel' g2 0 = some r' →
      r.2 = r'.2 ∧ ∀ v, Reachable g2 0 v → IsMinCost g2 0 v (r.2.getD v UINT32_MAX) :=
  ⟨g2_wellFormed, by decide, g2_costsBelow, by decide,
    (a_star_distances_eq_dijkstra g2 0 (fun v => 3 * v) g2_wellFormed (by decide)
      g2_costsBelow).2.2⟩

/-! ## Argument binding: positional arguments only -/

theorem take_succ_set {α : Type} (a : α) :
    ∀ (l : List α) (i : Nat), i < l.length → (l.set i a).take (i + 1) = l.take i ++ [a] := by
  intro l
  induction l with
  | nil => intro i h; simp at h
  | cons x xs ih =>
    intro i h
    cases i with
    | zero => simp
    | succ i =>
      simp only [List.set_cons_succ, List.take_succ_cons, List.cons_append, List.cons.injEq,
        true_and]
      exact ih i (by simpa using h)

/-- The body of the `for` loop on a positional argument. -/
theorem arg_body_positional (ndebug : Bool) (args : List (List Char)) (fuel : Nat)
    (s : ArgState) (hpos : Positional (args.getD s.i [])) :
    arg_body ndebug args fuel s =
      if s.req_i = s.k.required_values.length then
        Except.error (Failure.out_of_range "More arguments than expected.")
      else
        Except.ok { s with req_i := s.req_i + 1, k := { s.k with
          required_values := s.k.required_values.set s.req_i (args.getD s.i []) } } := by
  generalize hA : args.getD s.i [] = a at hpos
  unfold arg_body
  rw [hA]
  obtain ⟨hne, hhead⟩ := hpos
  cases a with
  | nil => exact absurd rfl hne
  | cons c0 tl0 =>
    have hcur : SequentialParser.current { m_data := c0 :: tl0, m_loc := 0 } = Except.ok c0 := by
      simp [SequentialParser.current, SequentialParser.current_loc]
    have hrest : SequentialParser.rest { m_data := c0 :: tl0, m_loc := 0 }
        = Except.ok (c0 :: tl0) := rest_eq _ (Nat.zero_le _)
    have hreq : c0 ≠ '-' ∨ (c0 :: tl0).length = 1 := by
      rcases hhead with h | h
      · left
        intro hc
        exact h (by simp [hc])
      · right
        rw [h]
        rfl
    simp only [bind, Except.bind, SequentialParser.total_size, SequentialParser.new, hcur]
    rw [if_pos hreq]
    by_cases hr : s.req_i = s.k.required_values.length
    · rw [if_pos hr, if_pos hr]
    · rw [if_neg hr, if_neg hr, hrest]
      rfl

theorem arg_loop_positional (ndebug : Bool) (args : List (List Char)) (scan_fuel : Nat)
    (hpos : ∀ a ∈ args, Positional a) :
    ∀ (fuel : Nat) (s : ArgState), s.req_i = s.i → s.i ≤ args.length →
      args.length - s.i < fuel →
      (args.length = s.k.required_values.length →
        arg_loop ndebug args scan_fuel fuel s
          = Except.ok { s.k with
              required_values := s.k.required_values.take s.i ++ args.drop s.i }) ∧
      (args.length < s.k.required_values.length →
        arg_loop ndebug args scan_fuel fuel s
          = Except.error (Failure.runtime_error "Missing required values.")) ∧
      (s.k.required_values.length < args.length → s.i ≤ s.k.required_values.length →
        arg_loop ndebug args scan_fuel fuel s
          = Except.error (Failure.out_of_range "More arguments than expected.")) := by
  intro fuel
  induction fuel with
  | zero => intro s _ _ h; omega
  | succ fuel ih =>
    intro s hreq hle hfuel
    by_cases hend : s.i = args.length
    · refine ⟨?_, ?_, ?_⟩
      · intro hR
        rw [arg_loop, if_pos hend, if_neg (by rw [hreq, hend, hR]; simp)]
        have h1 : args.drop s.i = [] := by rw [hend]; simp
        have h2 : s.k.required_values.take s.i = s.k.required_values := by
          rw [hend, hR]; simp
        rw [h1, h2, List.append_nil]
        rfl
      · intro hR
        rw [arg_loop, if_pos hend, if_pos (by rw [hreq, hend]; omega)]
      · intro hR hi
        omega
    · have hlt : s.i < args.length := by omega
      have hget : args.getD s.i [] = args[s.i] := by
        simp [List.getD_eq_getElem?_getD, List.getElem?_eq_getElem hlt]
      have hp : Positional (args.getD s.i []) := by
        rw [hget]; exact hpos _ (List.getElem_mem hlt)
      have hbody := arg_body_positional ndebug args scan_fuel s hp
      have hdrop : args.drop s.i = args[s.i] :: args.drop (s.i + 1) :=
        List.drop_eq_getElem_cons hlt
      by_cases hfull : s.req_i = s.k.required_values.length
      · rw [if_pos hfull] at hbody
        have hloop : arg_loop ndebug args scan_fuel (fuel + 1) s
            = Except.error (Failure.out_of_range "More arguments than expected.") := by
          rw [arg_loop, if_neg hend, hbody]
          rfl
        refine ⟨?_, ?_, ?_⟩
        · intro hR; omega
        · intro hR; omega
        · intro _ _; exact hloop
      · rw [if_neg hfull] at hbody
        have hloop : arg_loop ndebug args scan_fuel (fuel + 1) s
            = arg_loop ndebug args scan_fuel fuel
                { i := s.i + 1, req_i := s.req_i + 1, k := { s.k with
                    required_values := s.k.required_values.set s.req_i (args.getD s.i []) } } := by
          rw [arg_loop, if_neg hend, hbody]
          rfl
        obtain ⟨ihA, ihB, ihC⟩ := ih
          { i := s.i + 1, req_i := s.req_i + 1, k := { s.k with
              required_values := s.k.required_values.set s.req_i (args.getD s.i []) } }
          (by simp only []; omega) (by simp only []; omega) (by simp only []; omega)
        simp only [List.length_set] at ihA ihB ihC
        rw [hloop]
        refine ⟨?_, ?_, ?_⟩
        · intro hR
          rw [ihA hR]
          have hi : s.i < s.k.required_values.length := by omega
          rw [hreq, take_succ_set _ _ _ hi, hget, hdrop, List.append_assoc]
          rfl
        · exact ihB
        · intro hR hi
          exact ihC hR (by omega)

/-- C25: for an argument vector whose arguments after the executable are all positional
(not empty, and not starting with `-` or equal to `-`), with fuel for one pass per argument
and one more: when their number is `required_n`, `arg_to_data` returns normally and the
objects behind `required_values` hold the arguments in order, nothing else being changed;
when there are fewer, it ends with `std::runtime_error("Missing required values.")`; when
there are more, it ends with `std::out_of_range("More arguments than expected.")`.  So it
returns normally exactly when the number is `required_n`. -/
theorem positional_only (ndebug : Bool) (fuel : Nat) (exe : List Char)
    (args : List (List Char)) (k : Arguments) (hpos : ∀ a ∈ args, Positional a)
    (hfuel : args.length < fuel) :
    (args.length = k.required_values.length →
      arg_to_data ndebug fuel (exe :: args) k = Except.ok { k with required_values := args }) ∧
    (args.length < k.required_values.length →
      arg_to_data ndebug fuel (exe :: args) k
        = Except.error (Failure.runtime_error "Missing required values.")) ∧
    (k.required_values.length < args.length →
      arg_to_data ndebug fuel (exe :: args) k
        = Except.error (Failure.out_of_range "More arguments than expected.")) ∧
    ((∃ k', arg_to_data ndebug fuel (exe :: args) k = Except.ok k')
      ↔ args.length = k.required_values.length) := by
  obtain ⟨hA, hB, hC⟩ := arg_loop_positional ndebug args fuel hpos fuel
    { i := 0, req_i := 0, k := k } rfl (Nat.zero_le _) (by simpa using hfuel)
  simp only [List.take_zero, List.nil_append, List.drop_zero] at hA hB hC
  have hC' := fun h => hC h (Nat.zero_le _)
  refine ⟨hA, hB, hC', ?_⟩
  constructor
  · rintro ⟨k', hk'⟩
    rcases Nat.lt_trichotomy args.length k.required_values.length with h | h | h
    · have := hB h
      simp only [arg_to_data] at hk'
      rw [this] at hk'
      exact absurd hk' (by simp)
    · exact h
    · have := hC' h
      simp only [arg_to_data] at hk'
      rw [this] at hk'
      exact absurd hk' (by simp)
  · intro h
    exact ⟨_, hA h⟩

/-- C25 on three positional arguments, the second being `-`, with `required_n` = 3. -/
theorem positional_only_tests :
    arg_to_data false 4 ["exec".toList, "in".toList, "-".toList, "out x".toList]
        { optional_names := [], optional_short_names := [], flag_names := ['a'],
          required_values := [[], [], []], optional_values := [], optional_short_values := [],
          flag_values := [0] }
      = Except.ok
        { optional_names := [], optional_short_names := [], flag_names := ['a'],
          required_values := ["in".toList, "-".toList, "out x".toList], optional_values := [],
          optional_short_values := [], flag_values := [0] } :=
  (positional_only false 4 "exec".toList ["in".toList, "-".toList, "out x".toList]
    { optional_names := [], optional_short_names := [], flag_names := ['a'],
      required_values := [[], [], []], optional_values := [], optional_short_values := [],
      flag_values := [0] } (by decide) (by decide)).1 rfl

/-! ## Argument binding: reads inside the argument -/

theorem scan_chars_defined (args : List (List Char)) :
    ∀ (chars : List Char) (s : ArgState) (text : String),
      scan_chars args chars s ≠ Except.error (Failure.undefined text) := by
  intro chars
  induction chars with
  | nil => intro s text h; simp [scan_chars] at h
  | cons ch tl ih =>
    intro s text
    simp only [scan_chars]
    split
    · exact ih _ text
    · split
      · simp
      · split
        · unfold inbound
          split <;> simp [Except.map]
        · simp

theorem arg_flags_defined (ndebug : Bool) (args : List (List Char)) :
    ∀ (fuel : Nat) (p : SequentialParser) (s : ArgState) (text : String),
      p.m_loc ≤ p.m_data.length → p.m_data.length < 2 ^ 64 →
      arg_flags ndebug args fuel p s ≠ Except.error (Failure.undefined text) := by
  intro fuel
  induction fuel with
  | zero => intro p s text _ _ h; simp [arg_flags] at h
  | succ fuel ih =>
    intro p s text hle hlen
    by_cases hend : p.m_loc = p.m_data.length
    · rw [arg_flags_done ndebug args fuel p s hend]
      exact scan_chars_defined args _ s text
    · have hlt : p.m_loc < p.m_data.length := by omega
      obtain ⟨hA, hB⟩ := arg_flags_step ndebug args fuel p s hlt hlen
      by_cases hf : s.k.flag_names.indexOf p.m_data[p.m_loc] = s.k.flag_names.length
      · rw [hB hf]
        exact scan_chars_defined args _ s text
      · rw [(hA hf).1]
        exact ih _ _ text (by simpa using hlt) hlen

theorem body_chars_defined (args : List (List Char)) (s : ArgState) (a : List Char)
    (ha : a ≠ []) (text : String) :
    body_chars args s a ≠ Except.error (Failure.undefined text) := by
  cases a with
  | nil => exact absurd rfl ha
  | cons c0 tl0 =>
    by_cases hdash : ∃ c tl, c0 :: tl0 = '-' :: c :: tl
    · obtain ⟨c, tl, heq⟩ := hdash
      rw [heq]
      by_cases hc : c = '-'
      · subst hc
        rw [body_chars_long]
        split
        · simp
        · unfold inbound
          split <;> simp [Except.map]
      · rw [body_chars_dash args s c tl hc]
        exact scan_chars_defined args _ s text
    · have hplain : ∀ c tl, c0 :: tl0 ≠ '-' :: c :: tl := fun c tl heq => hdash ⟨c, tl, heq⟩
      rw [body_chars_plain args s (c0 :: tl0) (by simp) hplain]
      split <;> simp

theorem arg_body_defined (ndebug : Bool) (args : List (List Char)) (fuel : Nat) (s : ArgState)
    (hne : args.getD s.i [] ≠ []) (hlen : (args.getD s.i []).length < 2 ^ 64)
    (text : String) :
    arg_body ndebug args fuel s ≠ Except.error (Failure.undefined text) := by
  rcases arg_body_cases ndebug args fuel s hlen with h | ⟨c, tl, ha, _, _, hc⟩
  · rw [h]
    exact body_chars_defined args s _ hne text
  · rw [hc]
    rw [ha] at hlen
    exact arg_flags_defined ndebug args fuel _ s text (by simp) hlen

theorem body_chars_index (args : List (List Char)) (s t : ArgState) (a : List Char)
    (h : body_chars args s a = Except.ok t) :
    t.i = s.i ∨ (t.i = s.i + 1 ∧ s.i + 1 ≠ args.length) := by
  cases a with
  | nil => simp [body_chars] at h
  | cons c0 tl0 =>
    by_cases hdash : ∃ c tl, c0 :: tl0 = '-' :: c :: tl
    · obtain ⟨c, tl, heq⟩ := hdash
      rw [heq] at h
      by_cases hc : c = '-'
      · subst hc
        rw [body_chars_long] at h
        by_cases ho : s.k.optional_names.indexOf tl = s.k.optional_names.length
        · rw [if_pos ho] at h; exact absurd h (by simp)
        · rw [if_neg ho] at h
          unfold inbound at h
          by_cases hin : s.i + 1 = args.length
          · rw [if_pos hin] at h
            exact absurd h (by simp [Except.map])
          · rw [if_neg hin] at h
            simp only [Except.map, Except.ok.injEq] at h
            subst h
            exact Or.inr ⟨rfl, hin⟩
      · rw [body_chars_dash args s c tl hc] at h
        obtain ⟨_, _, h3, h4⟩ := scan_chars_ok args (c :: tl) s t h
        by_cases hone : ((c :: tl).dropWhile (fun ch => decide (ch ∈ s.k.flag_names))).length = 1
        · exact Or.inr (h3 hone)
        · exact Or.inl (h4 hone)
    · have hplain : ∀ c tl, c0 :: tl0 ≠ '-' :: c :: tl := fun c tl heq => hdash ⟨c, tl, heq⟩
      rw [body_chars_plain args s (c0 :: tl0) (by simp) hplain] at h
      by_cases hr : s.req_i = s.k.required_values.length
      · rw [if_pos hr] at h; exact absurd h (by simp)
      · rw [if_neg hr] at h
        simp only [Except.ok.injEq] at h
        subst h
        exact Or.inl rfl

/-- When no argument is empty, no read of `arg_to_data` falls outside the argument it scans:
the loop never ends with the failure of `operator[]`. -/
theorem arg_loop_defined (ndebug : Bool) (args : List (List Char)) (scan_fuel : Nat)
    (hne : ∀ a ∈ args, a ≠ []) (hlen : ∀ a ∈ args, a.length < 2 ^ 64) :
    ∀ (fuel : Nat) (s : ArgState) (text : String), s.i ≤ args.length →
      arg_loop ndebug args scan_fuel fuel s ≠ Except.error (Failure.undefined text) := by
  intro fuel
  induction fuel with
  | zero => intro s text _ h; simp [arg_loop] at h
  | succ fuel ih =>
    intro s text hle
    rw [arg_loop]
    by_cases hend : s.i = args.length
    · rw [if_pos hend]
      split <;> simp [pure, Except.pure]
    · rw [if_neg hend]
      have hlt : s.i < args.length := by omega
      have hget : args.getD s.i [] = args[s.i] := by
        simp [List.getD_eq_getElem?_getD, List.getElem?_eq_getElem hlt]
      have hmem : args.getD s.i [] ∈ args := by rw [hget]; exact List.getElem_mem hlt
      cases hb : arg_body ndebug args scan_fuel s with
      | error e =>
        simp only [bind, Except.bind]
        intro h
        rw [Except.error.injEq] at h
        rw [h] at hb
        exact arg_body_defined ndebug args scan_fuel s (hne _ hmem) (hlen _ hmem) text hb
      | ok t =>
        simp only [bind, Except.bind]
        have hti : t.i + 1 ≤ args.length := by
          have hbody := arg_body_ok ndebug args scan_fuel s t (hlen _ hmem) hb
          rcases body_chars_index args s t _ hbody with h1 | ⟨h1, h2⟩ <;> omega
        exact ih _ text hti

/-- When no argument is empty, `arg_to_data` never ends with the failure of `operator[]`. -/
theorem arg_to_data_defined (ndebug : Bool) (fuel : Nat) (exe : List Char)
    (args : List (List Char)) (k : Arguments) (hne : ∀ a ∈ args, a ≠ [])
    (hlen : ∀ a ∈ args, a.length < 2 ^ 64) (text : String) :
    arg_to_data ndebug fuel (exe :: args) k ≠ Except.error (Failure.undefined text) :=
  arg_loop_defined ndebug args fuel hne hlen fuel _ text (Nat.zero_le _)

/-- C26 fails on an empty argument: with the arguments `exec` and the empty string the first
read `p.current()` is at position 0 of an argument of length 0, whatever `k` is and whether
or not `NDEBUG` is defined; the same happens with the arguments `./exec`, `Bruh` and the
empty string and the `Arguments` of the test, after `Bruh` has been stored. -/
theorem arg_empty_read_outside :
    (∀ ndebug k, arg_to_data ndebug 2 ["exec".toList, []] k
      = Except.error (Failure.undefined "operator[]: pos >= size()")) ∧
    SequentialParser.current (SequentialParser.new [])
      = Except.error (Failure.undefined "operator[]: pos >= size()") ∧
    ¬ (SequentialParser.new []).current_loc < ([] : List Char).length ∧
    (∀ ndebug, arg_to_data ndebug 10 ["./exec".toList, "Bruh".toList, []] test_arguments
      = Except.error (Failure.undefined "operator[]: pos >= size()")) := by
  refine ⟨?_, rfl, by decide, by decide⟩
  intro ndebug k
  rfl

end utl
